import Mathlib

/-!
# PiXL audio engine: MML parser, mixer and channel control

A shallow embedding of the audio part of `src/pixl.c` (the MML parser
`mml_*`, the mixer `px_audio_mixer_callback`, the script commands `f_play`
and `f_stop`) and of its random generator (`px_rand`, `px_randomseed`,
`f_randomseed`), followed by theorems about them.

Conventions of the embedding.

* C `int` is `Int`, every arithmetic result reduced to 32 bits two's
  complement by `wrap32`; `Sint8` results are reduced by `wrap8`.
* C `float` / `double` values are the rationals they denote.  Every
  floating-point operation is the exact operation followed by rounding to
  nearest, ties to even (`f32` with a 24 bit significand, `f64` with 53 bits).
  Infinities and NaN are not values: an operation that would produce one
  (here only a division by zero) is reported as `Fault.nonFinite`.
* A C string is the `List Char` of its characters before the terminating NUL;
  a pointer into it is an offset.  Offset `length` reads the terminator, any
  larger offset is outside the allocation (`Fault.overrun`).
* `SDL_pow` belongs to the C library, not to the repository: it is a
  parameter `pow` (base, exponent) of everything that computes a frequency.
* The parser loop `for (;;)` has no bound in the source: `mml_parse_next`
  takes a fuel argument, returns `none` when it runs out, and theorems about
  results quantify over the fuel.
* The `Uint32` generator state is a `Nat` below `2 ^ 32`, every shift to the left
  reduced modulo `2 ^ 32`.
* Locking is a matter of program order: each function that touches the channel
  array is also given as the list of its lock, unlock and access operations.
-/

namespace PiXL

/-! ## Machine integers -/

/-- Reduction of an integer to the range of a 32 bit two's complement `int`. -/
def wrap32 (x : Int) : Int := (x + 2147483648) % 4294967296 - 2147483648

/-- Reduction of an integer to the range of a `Sint8`. -/
def wrap8 (x : Int) : Int := (x + 128) % 256 - 128

/-! ## Floating point -/

/-- Round to the nearest integer, ties to the even one. -/
def roundEven (x : ℚ) : Int :=
  let f := ⌊x⌋
  let r := x - f
  if r < 1 / 2 then f
  else if 1 / 2 < r then f + 1
  else if f % 2 = 0 then f else f + 1

/-- The binary logarithm of `n`, rounded down, when `n ≤ fuel`. -/
def log2Fuel : Nat → Nat → Nat
  | 0, _ => 0
  | fuel + 1, n => if 2 ≤ n then log2Fuel fuel (n / 2) + 1 else 0

/-- The binary logarithm of a natural number, rounded down (`0` for `0`). -/
def natLog2 (n : Nat) : Nat := log2Fuel n n

/-- The exponent `e` with `2 ^ e ≤ |x| < 2 ^ (e + 1)`, for `x ≠ 0`. -/
def binade (x : ℚ) : Int :=
  let a : Int := natLog2 x.num.natAbs
  let b : Int := natLog2 x.den
  if (2 : ℚ) ^ (a - b) ≤ |x| then a - b else a - b - 1

/-- Rounding to a binary floating-point format with a `p` bit significand and
least normal exponent `emin` (gradual underflow below it, no overflow). -/
def roundTo (p : Nat) (emin : Int) (x : ℚ) : ℚ :=
  if x = 0 then 0
  else
    let e := max (binade x) emin
    let q : ℚ := (2 : ℚ) ^ (e - (p - 1 : Nat))
    roundEven (x / q) * q

/-- Rounding to IEEE 754 binary32, the C `float`. -/
def f32 (x : ℚ) : ℚ := roundTo 24 (-126) x

/-- Rounding to IEEE 754 binary64, the C `double`. -/
def f64 (x : ℚ) : ℚ := roundTo 53 (-1022) x

/-- What can go wrong in the C code other than not terminating. -/
inductive Fault where
  /-- a read through a NULL pointer -/
  | nullDeref
  /-- a read outside the allocation of the command text or the noise table -/
  | overrun
  /-- a floating-point division by zero, whose result is then converted to `int` -/
  | nonFinite
  /-- a floating-point value converted to an integer type that cannot hold it -/
  | castRange
  deriving DecidableEq, Repr

deriving instance DecidableEq for Except

/-- Single precision multiplication. -/
def f32_mul (a b : ℚ) : ℚ := f32 (a * b)

/-- Single precision addition. -/
def f32_add (a b : ℚ) : ℚ := f32 (a + b)

/-- Single precision subtraction. -/
def f32_sub (a b : ℚ) : ℚ := f32 (a - b)

/-- Single precision division. -/
def f32_div (a b : ℚ) : Except Fault ℚ :=
  if b = 0 then .error .nonFinite else .ok (f32 (a / b))

/-- Truncation toward zero. -/
def trunc (x : ℚ) : Int := if 0 ≤ x then ⌊x⌋ else ⌈x⌉

/-- The conversion `(int)x` of a float. -/
def f32_to_int (x : ℚ) : Except Fault Int :=
  let n := trunc x
  if -2147483648 ≤ n ∧ n ≤ 2147483647 then .ok n else .error .castRange

/-- The conversion `(Sint8)x` of a float. -/
def f32_to_sint8 (x : ℚ) : Except Fault Int :=
  let n := trunc x
  if -128 ≤ n ∧ n ≤ 127 then .ok n else .error .castRange

/-! ## Characters -/

/-- The string terminator. -/
def NUL : Char := Char.ofNat 0

/-- The C locale `isspace`: space, `\t`, `\n`, `\v`, `\f`, `\r`. -/
def SDL_isspace (c : Char) : Bool := c.toNat = 32 || (9 ≤ c.toNat && c.toNat ≤ 13)

/-- The decimal digits. -/
def SDL_isdigit (c : Char) : Bool := 48 ≤ c.toNat && c.toNat ≤ 57

/-- The copy `SDL_strdup` makes: the characters before the first NUL. -/
def SDL_strdup : List Char → List Char
  | [] => []
  | c :: cs => if c = NUL then [] else c :: SDL_strdup cs

/-! ## Channel state -/

/-- The waveform enumeration (`PX_WAVEFORM_*`; the source spells `TRIANLGE`). -/
inductive Waveform where
  | SILENCE | PULSE_12 | PULSE_25 | PULSE_50 | SAWTOOTH | TRIANLGE | NOISE
  deriving DecidableEq, Repr

/-- The struct `AudioChannel`.  `source` is `none` for a NULL pointer, `in_`
(the field `in`) is the offset of the parse pointer into `source`. -/
structure AudioChannel where
  source : Option (List Char)
  in_ : Option Nat
  looping : Bool
  t : ℚ
  frequency : ℚ
  waveform : Waveform
  duration : Int
  silence : Int
  tempo : Int
  octave : Int
  default_length : Int
  deriving DecidableEq

/-- An all-zero channel, what `SDL_zerop` leaves. -/
def zeroChannel : AudioChannel :=
  { source := none, in_ := none, looping := false, t := 0, frequency := 0,
    waveform := .SILENCE, duration := 0, silence := 0, tempo := 0, octave := 0,
    default_length := 0 }

/-- The function `mml_reset_channel`: free the text, zero the channel, set the defaults. -/
def mml_reset_channel (_channel : AudioChannel) : AudioChannel :=
  { zeroChannel with tempo := 140, octave := 3, waveform := .PULSE_50, default_length := 4 }

/-! ## The MML parser -/

/-- The character `*channel->in`. -/
def peek (channel : AudioChannel) : Except Fault Char :=
  match channel.source, channel.in_ with
  | some s, some i =>
    if i < s.length then .ok (s.getD i NUL)
    else if i = s.length then .ok NUL
    else .error .overrun
  | _, _ => .error .nullDeref

/-- The number of leading characters of a text that satisfy `p`. -/
def countWhile (p : Char → Bool) : List Char → Nat
  | [] => 0
  | c :: cs => if p c then countWhile p cs + 1 else 0

/-- The function `mml_skip_spaces`: `while (SDL_isspace(*channel->in)) ++channel->in;`. -/
def mml_skip_spaces (channel : AudioChannel) : Except Fault AudioChannel :=
  match channel.source, channel.in_ with
  | some s, some i =>
    if i ≤ s.length then
      .ok { channel with in_ := some (i + countWhile SDL_isspace (s.drop i)) }
    else .error .overrun
  | _, _ => .error .nullDeref

/-- The expression `*channel->in++`: the character read, and the channel with the
pointer moved on. -/
def readInc (channel : AudioChannel) : Except Fault (Char × AudioChannel) :=
  match peek channel with
  | .error f => .error f
  | .ok c => .ok (c, { channel with in_ := channel.in_.map (· + 1) })

/-- The function `mml_is_next`. -/
def mml_is_next (channel : AudioChannel) (ch : Char) : Except Fault (Bool × AudioChannel) :=
  match mml_skip_spaces channel with
  | .error f => .error f
  | .ok c1 =>
    match peek c1 with
    | .error f => .error f
    | .ok c => if c = ch then .ok (true, { c1 with in_ := c1.in_.map (· + 1) }) else .ok (false, c1)

/-- The digit loop of `mml_parse_number` over the unread text: the value so far
and the number of digits consumed so far go in, the final ones come out. -/
def digitsLoop : List Char → Int → Nat → Int × Nat
  | [], value, k => (value, k)
  | c :: cs, value, k =>
    if SDL_isdigit c then digitsLoop cs (wrap32 (wrap32 (value * 10) + ((c.toNat : Int) - 48))) (k + 1)
    else (value, k)

/-- The function `mml_parse_number`. -/
def mml_parse_number (channel : AudioChannel) : Except Fault (Int × AudioChannel) :=
  match mml_skip_spaces channel with
  | .error f => .error f
  | .ok c1 =>
    match c1.source, c1.in_ with
    | some s, some i =>
      let r := digitsLoop (s.drop i) 0 0
      .ok (r.1, { c1 with in_ := some (i + r.2) })
    | _, _ => .error .nullDeref

/-- The function `mml_parse_duration`; `mixing_frequency` is the global of that name. -/
def mml_parse_duration (mixing_frequency : ℚ) (channel : AudioChannel) : Except Fault AudioChannel := do
  let (n, c1) ← mml_parse_number channel
  let lit : ℚ := f32 n
  let len : ℚ := if lit = 0 then f32 c1.default_length else lit
  let beat ← f32_div (f32_mul (f32 c1.tempo) (1 / 4)) 60
  let whole ← f32_div mixing_frequency beat
  let inv ← f32_div 1 len
  let duration := f32_mul whole inv
  let (dot, c2) ← mml_is_next c1 '.'
  let duration := if dot then f32_mul duration (3 / 2) else duration
  let d ← f32_to_int duration
  let c3 := { c2 with duration := d }
  let (tie, c4) ← mml_is_next c3 '&'
  if tie then pure { c4 with silence := 0 }
  else do
    let s ← f32_to_int (f32_mul duration (1 / 8))
    pure { c4 with silence := s }

/-- The frequency `(float)SDL_pow(2.0, ((double)key - 49.0) / 12.0) * 440.0f`. -/
def keyFrequency (pow : ℚ → ℚ → ℚ) (key : Int) : ℚ :=
  f32_mul (f32 (pow 2 (f64 (f64 ((key : ℚ) - 49) / 12)))) 440

/-- The function `mml_parse_note`. -/
def mml_parse_note (pow : ℚ → ℚ → ℚ) (mixing_frequency : ℚ) (channel : AudioChannel) (key : Int) :
    Except Fault AudioChannel := do
  let (sharp, c1) ← mml_is_next channel '#'
  let (key, c2) ←
    if sharp then pure (wrap32 (key + 1), c1)
    else do
      let (plus, c1) ← mml_is_next c1 '+'
      if plus then pure (wrap32 (key + 1), c1)
      else do
        let (minus, c1) ← mml_is_next c1 '-'
        if minus then pure (wrap32 (key - 1), c1) else pure (key, c1)
  let key := wrap32 (key + wrap32 (wrap32 (c2.octave - 1) * 12))
  mml_parse_duration mixing_frequency { c2 with frequency := keyFrequency pow key, t := 0 }

/-- What one pass through the body of the loop in `mml_parse_next` does. -/
inductive Step where
  /-- the `switch` was left with `break`: the loop goes round again -/
  | next (channel : AudioChannel)
  /-- the function returned -/
  | done (channel : AudioChannel)
  /-- undefined behaviour -/
  | fail (f : Fault)

/-- The result of a call that returns as a loop step. -/
def Step.ofReturn : Except Fault AudioChannel → Step
  | .ok c => .done c
  | .error f => .fail f

/-- The waveform selected by the character after `W`, if any. -/
def waveformOf (c : Char) : Option Waveform :=
  if c = '1' then some .PULSE_12
  else if c = '2' then some .PULSE_25
  else if c = '5' then some .PULSE_50
  else if c = 'T' ∨ c = 't' then some .TRIANLGE
  else if c = 'S' ∨ c = 's' then some .SAWTOOTH
  else if c = 'N' ∨ c = 'n' then some .NOISE
  else none

/-- One pass through the body of `for (;;)` in `mml_parse_next`. -/
def mml_parse_iter (pow : ℚ → ℚ → ℚ) (mixing_frequency : ℚ) (channel : AudioChannel) : Step :=
  match channel.in_ with
  | none => .done channel
  | some _ =>
    match mml_skip_spaces channel with
    | .error f => .fail f
    | .ok c0 =>
      match readInc c0 with
      | .error f => .fail f
      | .ok (ch, c) =>
        if ch = NUL then
          if c.looping then .next { c with in_ := c.source.map (fun _ => 0) }
          else .next (mml_reset_channel c)
        else if ch = 'T' ∨ ch = 't' then
          match mml_parse_number c with
          | .error f => .fail f
          | .ok (v, c1) => .next { c1 with tempo := v }
        else if ch = 'L' ∨ ch = 'l' then
          match mml_parse_number c with
          | .error f => .fail f
          | .ok (v, c1) => .next { c1 with default_length := v }
        else if ch = 'O' ∨ ch = 'o' then
          match mml_parse_number c with
          | .error f => .fail f
          | .ok (v, c1) => .next { c1 with octave := v }
        else if ch = '<' then .next { c with octave := wrap32 (c.octave - 1) }
        else if ch = '>' then .next { c with octave := wrap32 (c.octave + 1) }
        else if ch = 'R' ∨ ch = 'r' ∨ ch = 'P' ∨ ch = 'p' then
          match mml_parse_duration mixing_frequency c with
          | .error f => .fail f
          | .ok c1 => .done { c1 with silence := c1.duration }
        else if ch = 'C' ∨ ch = 'c' then Step.ofReturn (mml_parse_note pow mixing_frequency c 4)
        else if ch = 'D' ∨ ch = 'd' then Step.ofReturn (mml_parse_note pow mixing_frequency c 6)
        else if ch = 'E' ∨ ch = 'e' then Step.ofReturn (mml_parse_note pow mixing_frequency c 8)
        else if ch = 'F' ∨ ch = 'f' then Step.ofReturn (mml_parse_note pow mixing_frequency c 9)
        else if ch = 'G' ∨ ch = 'g' then Step.ofReturn (mml_parse_note pow mixing_frequency c 11)
        else if ch = 'A' ∨ ch = 'a' then Step.ofReturn (mml_parse_note pow mixing_frequency c 13)
        else if ch = 'B' ∨ ch = 'b' then Step.ofReturn (mml_parse_note pow mixing_frequency c 15)
        else if ch = 'W' ∨ ch = 'w' then
          match readInc c with
          | .error f => .fail f
          | .ok (sel, c1) =>
            match waveformOf sel with
            | some w => .next { c1 with waveform := w }
            | none => .next c1
        else .next c

/-- The function `mml_parse_next`, with at most `fuel` passes through its loop:
`none` when the loop has not been left by then. -/
def mml_parse_next (pow : ℚ → ℚ → ℚ) (mixing_frequency : ℚ) :
    Nat → AudioChannel → Option (Except Fault AudioChannel)
  | 0, _ => none
  | fuel + 1, channel =>
    match mml_parse_iter pow mixing_frequency channel with
    | .next c => mml_parse_next pow mixing_frequency fuel c
    | .done c => some (.ok c)
    | .fail f => some (.error f)

/-! ## The mixer -/

/-- The number of channels, `PX_AUDIO_CHANNELS`. -/
def PX_AUDIO_CHANNELS : Nat := 8

/-- The size of the noise table, `PX_AUDIO_NOISE`. -/
def PX_AUDIO_NOISE : Nat := 1024

/-- The statement `value += x` on the `Sint8` accumulator. -/
def addSample (value x : Int) : Int := wrap8 (value + x)

/-- The `switch (waveform)` of the mixer: the accumulator after the channel's
contribution at phase `t` has been added. -/
def mix_waveform (audio_noise : List Int) (waveform : Waveform) (t : ℚ) (value : Int) :
    Except Fault Int :=
  match waveform with
  | .SILENCE => .ok value
  | .PULSE_12 => .ok (addSample value (if t ≤ 1 / 8 then 4 else -4))
  | .PULSE_25 => .ok (addSample value (if t ≤ 1 / 4 then 4 else -4))
  | .PULSE_50 => .ok (addSample value (if t ≤ 1 / 2 then 4 else -4))
  | .SAWTOOTH =>
    match f32_to_sint8 (f32_mul (f32_add (-1) (f32_mul t 2)) 4) with
    | .error f => .error f
    | .ok x => .ok (addSample value x)
  | .TRIANLGE =>
    let v : ℚ :=
      if t < 1 / 4 then f32_mul t 4
      else if t < 3 / 4 then f32_sub 1 (f32_mul (f32_sub t (1 / 4)) 4)
      else f32_add (-1) (f32_mul (f32_sub t (3 / 4)) 4)
    match f32_to_sint8 (f32_mul v 8) with
    | .error f => .error f
    | .ok x => .ok (addSample value x)
  | .NOISE =>
    match f32_to_int (f32_mul t (PX_AUDIO_NOISE : ℚ)) with
    | .error f => .error f
    | .ok i =>
      if 0 ≤ i ∧ i.toNat < audio_noise.length then .ok (addSample value (audio_noise.getD i.toNat 0))
      else .error .overrun

/-- The body of the inner loop of `px_audio_mixer_callback` for one channel: the
accumulator and the channel go in, the updated ones come out.  `none` when the
parser does not return within `fuel` passes through its loop. -/
def mix_channel (pow : ℚ → ℚ → ℚ) (mixing_frequency : ℚ) (audio_noise : List Int) (fuel : Nat)
    (value : Int) (channel : AudioChannel) : Option (Except Fault (Int × AudioChannel)) :=
  let c0 := { channel with duration := wrap32 (channel.duration - 1) }
  let parsed := if c0.duration < 0 then mml_parse_next pow mixing_frequency fuel c0 else some (.ok c0)
  match parsed with
  | none => none
  | some (.error f) => some (.error f)
  | some (.ok c1) =>
    let waveform := if c1.duration > c1.silence then c1.waveform else Waveform.SILENCE
    match f32_div 1 mixing_frequency with
    | .error f => some (.error f)
    | .ok step =>
      let t1 := f32_add c1.t (f32_mul step c1.frequency)
      match f32_to_int t1 with
      | .error f => some (.error f)
      | .ok n =>
        let t2 := f32_sub t1 (f32 n)
        match mix_waveform audio_noise waveform t2 value with
        | .error f => some (.error f)
        | .ok v => some (.ok (v, { c1 with t := t2 }))

/-- The inner loop `for (j = 0; j < PX_AUDIO_CHANNELS; ++j)` over the channels
still to be mixed, in slot order. -/
def mix_loop (pow : ℚ → ℚ → ℚ) (mixing_frequency : ℚ) (audio_noise : List Int) (fuel : Nat) :
    List (Fin 8) → Int → (Fin 8 → AudioChannel) → Option (Except Fault (Int × (Fin 8 → AudioChannel)))
  | [], value, channels => some (.ok (value, channels))
  | j :: js, value, channels =>
    match mix_channel pow mixing_frequency audio_noise fuel value (channels j) with
    | none => none
    | some (.error f) => some (.error f)
    | some (.ok (v, c)) =>
      mix_loop pow mixing_frequency audio_noise fuel js v (Function.update channels j c)

/-- One pass through the outer loop of `px_audio_mixer_callback`: the sample
written to the stream and the channels afterwards. -/
def mix_sample (pow : ℚ → ℚ → ℚ) (mixing_frequency : ℚ) (audio_noise : List Int) (fuel : Nat)
    (channels : Fin 8 → AudioChannel) : Option (Except Fault (Int × (Fin 8 → AudioChannel))) :=
  mix_loop pow mixing_frequency audio_noise fuel (List.finRange 8) 0 channels

/-- The function `px_audio_mixer_callback` for a stream of `len` bytes: the
samples written, in order, and the channels afterwards. -/
def px_audio_mixer_callback (pow : ℚ → ℚ → ℚ) (mixing_frequency : ℚ) (audio_noise : List Int)
    (fuel : Nat) : Nat → (Fin 8 → AudioChannel) →
    Option (Except Fault (List Int × (Fin 8 → AudioChannel)))
  | 0, channels => some (.ok ([], channels))
  | len + 1, channels =>
    match mix_sample pow mixing_frequency audio_noise fuel channels with
    | none => none
    | some (.error f) => some (.error f)
    | some (.ok (v, cs)) =>
      match px_audio_mixer_callback pow mixing_frequency audio_noise fuel len cs with
      | none => none
      | some (.error f) => some (.error f)
      | some (.ok (vs, cs1)) => some (.ok (v :: vs, cs1))

/-! ## The random generator and the globals -/

/-- The function `px_rand` on the `Uint32` global `seed`: the new seed, which is
also the value returned. -/
def px_rand (seed : Nat) : Nat :=
  let s1 := seed ^^^ ((seed <<< 13) % 4294967296)
  let s2 := s1 ^^^ (s1 >>> 17)
  s2 ^^^ ((s2 <<< 5) % 4294967296)

/-- The function `px_randomseed`: the seed it leaves. -/
def px_randomseed (s : Nat) : Nat := px_rand^[1024] (if s = 0 then 47 else s)

/-- The values returned by `n` successive calls of `px_rand`, the first on the
seed `seed`. -/
def px_rand_draws : Nat → Nat → List Nat
  | 0, _ => []
  | n + 1, seed => px_rand seed :: px_rand_draws n (px_rand seed)

/-- The loop `audio_noise[i] = px_rand() % 8 - 4` for `n` entries: the entries
and the seed afterwards. -/
def fill_noise : Nat → Nat → List Int × Nat
  | 0, seed => ([], seed)
  | n + 1, seed =>
    let s := px_rand seed
    let r := fill_noise n s
    (wrap8 ((((s % 8 : Nat) : Int) - 4) % 4294967296) :: r.1, r.2)

/-- The globals of the audio engine. -/
structure Engine where
  /-- the device id, `0` when no device is open -/
  audio_device : Nat
  mixing_frequency : ℚ
  channels : Fin 8 → AudioChannel
  audio_noise : List Int
  seed : Nat

/-- The globals as `px_lua_init` leaves them when `SDL_OpenAudioDevice` has
returned the device `audio_device` with the sample rate `freq`. -/
def px_lua_init (audio_device : Nat) (freq : Int) : Engine :=
  { audio_device := audio_device
    mixing_frequency := f32 freq
    channels := fun _ => zeroChannel
    audio_noise := (fill_noise PX_AUDIO_NOISE (px_randomseed 4096)).1
    seed := px_randomseed (47 * 1024) }

/-! ## The script commands -/

/-- An error raised into the script by `luaL_argcheck`. -/
inductive LuaError where
  | argError (arg : Nat) (msg : String)
  deriving DecidableEq, Repr

/-- The command `f_play`.  `i` is the script's integer, `str` its string and `loop`
the truth value of its third argument. -/
def f_play (e : Engine) (i : Int) (str : List Char) (loop : Bool) : Except LuaError Engine :=
  let n := wrap32 i
  if h : 0 ≤ n ∧ n < (PX_AUDIO_CHANNELS : Int) then
    if e.audio_device ≠ 0 then
      let j : Fin 8 := ⟨n.toNat, by simp [PX_AUDIO_CHANNELS] at h; omega⟩
      let c : AudioChannel :=
        { mml_reset_channel (e.channels j) with
          source := some (SDL_strdup str), in_ := some 0, looping := loop }
      .ok { e with channels := Function.update e.channels j c }
    else .ok e
  else .error (.argError 1 "invalid channel")

/-- The command `f_stop`. -/
def f_stop (e : Engine) (i : Int) : Except LuaError Engine :=
  let n := wrap32 i
  if h : 0 ≤ n ∧ n < (PX_AUDIO_CHANNELS : Int) then
    if e.audio_device ≠ 0 then
      let j : Fin 8 := ⟨n.toNat, by simp [PX_AUDIO_CHANNELS] at h; omega⟩
      .ok { e with channels := Function.update e.channels j (mml_reset_channel (e.channels j)) }
    else .ok e
  else .error (.argError 1 "invalid channel")

/-- The command `f_randomseed`: with an argument it reseeds the generator with that
integer converted to `Uint32`; in both cases it returns the global `seed`. -/
def f_randomseed (e : Engine) (arg : Option Int) : Engine × Int :=
  match arg with
  | some x =>
    let e1 := { e with seed := px_randomseed (x % 4294967296).toNat }
    (e1, (e1.seed : Int))
  | none => (e, (e.seed : Int))

/-- The channel `f_play` leaves in the slot it starts. -/
def started (str : List Char) (loop : Bool) : AudioChannel :=
  { mml_reset_channel zeroChannel with
    source := some (SDL_strdup str), in_ := some 0, looping := loop }

/-! ## The device lock

The calls of `SDL_LockAudioDevice` and `SDL_UnlockAudioDevice` and the accesses to
the channel array, in program order, for each function that touches the channels. -/

/-- The operations on the audio device and on the channel array that matter for
the locking discipline. -/
inductive AudioOp where
  /-- the call of `SDL_OpenAudioDevice`, which leaves the device paused -/
  | open_device
  /-- the call `SDL_PauseAudioDevice(audio_device, SDL_FALSE)`: from here on the audio
  thread may run the mixer callback -/
  | unpause
  /-- the call `SDL_LockAudioDevice(audio_device)` -/
  | lock
  /-- the call `SDL_UnlockAudioDevice(audio_device)` -/
  | unlock
  /-- the loop that fills `audio_noise` -/
  | write_noise
  /-- a read or write of `channels[j]` -/
  | touch (j : Fin 8)
  deriving DecidableEq

/-- The audio operations of `px_lua_init` in program order; `nosound` tells whether
the `-nosound` parameter was given. -/
def px_lua_init_ops (nosound : Bool) : List AudioOp :=
  (if nosound then [] else [.open_device, .unpause]) ++
    [.write_noise] ++ (List.finRange 8).map .touch

/-- The audio operations of `f_play` in program order: the reset of the channel,
the assignment of `source` and `in`, the assignment of `looping`. -/
def f_play_ops (audio_device : Nat) (i : Int) : List AudioOp :=
  let n := wrap32 i
  if h : 0 ≤ n ∧ n < (PX_AUDIO_CHANNELS : Int) then
    if audio_device ≠ 0 then
      let j : Fin 8 := ⟨n.toNat, by simp [PX_AUDIO_CHANNELS] at h; omega⟩
      [.lock, .touch j, .touch j, .touch j, .unlock]
    else []
  else []

/-- The audio operations of `f_stop` in program order. -/
def f_stop_ops (audio_device : Nat) (i : Int) : List AudioOp :=
  let n := wrap32 i
  if h : 0 ≤ n ∧ n < (PX_AUDIO_CHANNELS : Int) then
    if audio_device ≠ 0 then
      let j : Fin 8 := ⟨n.toNat, by simp [PX_AUDIO_CHANNELS] at h; omega⟩
      [.lock, .touch j, .unlock]
    else []
  else []

/-- The audio operations of `px_audio_mixer_callback` for `len` samples: every
channel is read and written for every sample, and the function itself neither
takes nor releases the lock. -/
def px_audio_mixer_callback_ops : Nat → List AudioOp
  | 0 => []
  | len + 1 => (List.finRange 8).map .touch ++ px_audio_mixer_callback_ops len

/-- The channels a thread touches without holding the device lock while the audio
thread may be running the callback.  `running` and `held` give the state before
the operations: whether the device has been unpaused, whether this thread holds
the lock. -/
def unlocked_touches : Bool → Bool → List AudioOp → List (Fin 8)
  | _, _, [] => []
  | _, held, .unpause :: ops => unlocked_touches true held ops
  | running, _, .lock :: ops => unlocked_touches running true ops
  | running, _, .unlock :: ops => unlocked_touches running false ops
  | running, held, .touch j :: ops =>
    if running && !held then j :: unlocked_touches running held ops
    else unlocked_touches running held ops
  | running, held, .open_device :: ops => unlocked_touches running held ops
  | running, held, .write_noise :: ops => unlocked_touches running held ops

/-! ## States and observations used in the theorems -/

/-- The channels after `f_stop` on slot 0 of the freshly initialised engine, once
every duration counter has been brought to `d`. -/
def idleChannels (d : Int) : Fin 8 → AudioChannel :=
  fun j => if j = 0 then { mml_reset_channel zeroChannel with duration := d }
           else { zeroChannel with duration := d }

/-- A channel without text, at phase and frequency zero, on pulse 50% or silent. -/
def Quiet (c : AudioChannel) : Prop :=
  c.in_ = none ∧ c.t = 0 ∧ c.frequency = 0 ∧
    (c.waveform = Waveform.PULSE_50 ∨ c.waveform = Waveform.SILENCE)

/-- A quiet channel after one mixer tick. -/
def tickQuiet (c : AudioChannel) : AudioChannel :=
  { c with duration := wrap32 (c.duration - 1) }

/-- The accumulator after the mixer has added a quiet channel to it. -/
def quietOut (c : AudioChannel) (v : Int) : Int :=
  if wrap32 (c.duration - 1) > c.silence ∧ c.waveform = Waveform.PULSE_50 then addSample v 4 else v

/-- The offset `mml_skip_spaces` moves the cursor to from offset `i` of the text `s`. -/
def skipSpaces (s : List Char) (i : Nat) : Nat := i + countWhile SDL_isspace (s.drop i)

/-- What `mml_is_next` finds at offset `i` of `s`: whether the next character after
the whitespace is `ch`, and the offset afterwards. -/
def isNextAt (s : List Char) (i : Nat) (ch : Char) : Bool × Nat :=
  if s.getD (skipSpaces s i) NUL = ch then (true, skipSpaces s i + 1) else (false, skipSpaces s i)

/-- What `mml_parse_number` reads at offset `i` of `s`: the value and the offset afterwards. -/
def numberAt (s : List Char) (i : Nat) : Int × Nat :=
  ((digitsLoop (s.drop (skipSpaces s i)) 0 0).1,
   skipSpaces s i + (digitsLoop (s.drop (skipSpaces s i)) 0 0).2)

/-- The float `duration` of `mml_parse_duration` before it is converted to `int`, for
the tempo, the default length, the length literal read and the presence of a dot. -/
def durationValue (mixing_frequency : ℚ) (tempo default_length lit : Int) (dot : Bool) :
    Except Fault ℚ := do
  let len : ℚ := if f32 lit = 0 then f32 default_length else f32 lit
  let beat ← f32_div (f32_mul (f32 tempo) (1 / 4)) 60
  let whole ← f32_div mixing_frequency beat
  let inv ← f32_div 1 len
  let duration := f32_mul whole inv
  pure (if dot then f32_mul duration (3 / 2) else duration)

/-- What `mml_parse_duration` computes at offset `i` of `s`: the duration, the
silence and the offset afterwards. -/
def durationAt (mixing_frequency : ℚ) (tempo default_length : Int) (s : List Char) (i : Nat) :
    Except Fault (Int × Int × Nat) := do
  let n := numberAt s i
  let dot := isNextAt s n.2 '.'
  let v ← durationValue mixing_frequency tempo default_length n.1 dot.1
  let d ← f32_to_int v
  let tie := isNextAt s dot.2 '&'
  if tie.1 then pure (d, 0, tie.2)
  else do
    let sl ← f32_to_int (f32_mul v (1 / 8))
    pure (d, sl, tie.2)

/-- What `mml_parse_note` finds at offset `i` of `s` before the duration: the
change of the key by the accidental and the offset afterwards. -/
def accidentalAt (s : List Char) (i : Nat) : Int × Nat :=
  if s.getD (skipSpaces s i) NUL = '#' then (1, skipSpaces s i + 1)
  else if s.getD (skipSpaces s i) NUL = '+' then (1, skipSpaces s i + 1)
  else if s.getD (skipSpaces s i) NUL = '-' then (-1, skipSpaces s i + 1)
  else (0, skipSpaces s i)

/-- The key `mml_parse_note` computes from the key of the letter, the change by
the accidental and the octave. -/
def noteKey (key delta octave : Int) : Int :=
  wrap32 (wrap32 (key + delta) + wrap32 (wrap32 (octave - 1) * 12))

/-- The key of a note letter. -/
def letterKey (ch : Char) : Option Int :=
  if ch = 'C' ∨ ch = 'c' then some 4
  else if ch = 'D' ∨ ch = 'd' then some 6
  else if ch = 'E' ∨ ch = 'e' then some 8
  else if ch = 'F' ∨ ch = 'f' then some 9
  else if ch = 'G' ∨ ch = 'g' then some 11
  else if ch = 'A' ∨ ch = 'a' then some 13
  else if ch = 'B' ∨ ch = 'b' then some 15
  else none

/-- One pass through the loop of `mml_parse_next` for a channel whose text is `s`
and whose cursor is at offset `i`, in terms of the text. -/
def iterAt (pow : ℚ → ℚ → ℚ) (mf : ℚ) (c : AudioChannel) (s : List Char) (i : Nat) : Step :=
  let j := skipSpaces s i
  let ch := s.getD j NUL
  if ch = NUL then
    if c.looping then .next { c with in_ := some 0 } else .next (mml_reset_channel c)
  else if ch = 'T' ∨ ch = 't' then
    .next { c with in_ := some (numberAt s (j + 1)).2, tempo := (numberAt s (j + 1)).1 }
  else if ch = 'L' ∨ ch = 'l' then
    .next { c with in_ := some (numberAt s (j + 1)).2, default_length := (numberAt s (j + 1)).1 }
  else if ch = 'O' ∨ ch = 'o' then
    .next { c with in_ := some (numberAt s (j + 1)).2, octave := (numberAt s (j + 1)).1 }
  else if ch = '<' then .next { c with in_ := some (j + 1), octave := wrap32 (c.octave - 1) }
  else if ch = '>' then .next { c with in_ := some (j + 1), octave := wrap32 (c.octave + 1) }
  else if ch = 'R' ∨ ch = 'r' ∨ ch = 'P' ∨ ch = 'p' then
    match durationAt mf c.tempo c.default_length s (j + 1) with
    | .error e => .fail e
    | .ok r => .done { c with in_ := some r.2.2, duration := r.1, silence := r.1 }
  else
    match letterKey ch with
    | some key =>
      match durationAt mf c.tempo c.default_length s (accidentalAt s (j + 1)).2 with
      | .error e => .fail e
      | .ok r =>
        .done { c with
          in_ := some r.2.2, t := 0
          frequency := keyFrequency pow (noteKey key (accidentalAt s (j + 1)).1 c.octave)
          duration := r.1, silence := r.2.1 }
    | none =>
      if ch = 'W' ∨ ch = 'w' then
        match waveformOf (s.getD (j + 1) NUL) with
        | some w => .next { c with in_ := some (j + 2), waveform := w }
        | none => .next { c with in_ := some (j + 2) }
      else .next { c with in_ := some (j + 1) }

/-- The spacing of the floating-point numbers around `x`. -/
def ulp (p : Nat) (emin : Int) (x : ℚ) : ℚ := (2 : ℚ) ^ (max (binade x) emin - (p - 1 : Nat))

/-- The single precision numbers (of any magnitude): the `m * 2 ^ k` with a
significand of at most 24 bits and an exponent not below that of the least subnormal. -/
def IsF32 (x : ℚ) : Prop :=
  ∃ (m k : Int), |m| < 16777216 ∧ -149 ≤ k ∧ x = (m : ℚ) * (2 : ℚ) ^ k

/-- The single precision evaluation of `mixing_frequency / (T * 0.25f / 60.0f) * (1.0f / n)`,
the length in samples of an undotted note of length `n` at tempo `T`. -/
def noteSamples (mixing_frequency : ℚ) (T n : Int) : ℚ :=
  f32_mul (f32 (mixing_frequency / f32 (f32_mul (f32 T) (1 / 4) / 60))) (f32 (1 / f32 n))

/-- The length in samples of a note, dotted or not. -/
def dottedSamples (mixing_frequency : ℚ) (T n : Int) (dot : Bool) : ℚ :=
  if dot then f32_mul (noteSamples mixing_frequency T n) (3 / 2) else noteSamples mixing_frequency T n

/-- The duration suffix of a note or rest as the text spells it. -/
structure DurationText where
  /-- the length literal, `0` when there is none -/
  lit : Int
  /-- whether a dot follows the length -/
  dot : Bool
  /-- whether a tie mark `&` follows -/
  tie : Bool
  /-- the offset after the suffix -/
  stop : Nat
  deriving DecidableEq

/-- The duration suffix at offset `i` of `s`: a number, then `.` if it comes next,
then `&` if it comes next, whitespace skipped before each. -/
def durationTextAt (s : List Char) (i : Nat) : DurationText :=
  { lit := (numberAt s i).1
    dot := (isNextAt s (numberAt s i).2 '.').1
    tie := (isNextAt s (isNextAt s (numberAt s i).2 '.').2 '&').1
    stop := (isNextAt s (isNextAt s (numberAt s i).2 '.').2 '&').2 }

/-- The note length in force: the literal, or the default length when the literal
is absent or `0`. -/
def effectiveLength (default_length lit : Int) : Int := if lit = 0 then default_length else lit

/-- Whether a character is one of the rest commands. -/
def isRestChar (ch : Char) : Bool := ch = 'R' || ch = 'r' || ch = 'P' || ch = 'p'

/-- Two channels agree on what the parser reads: the text, the cursor, the loop
flag and the parse context (waveform, tempo, octave, default length). -/
def SameContext (c c1 : AudioChannel) : Prop :=
  c1.source = c.source ∧ c1.in_ = c.in_ ∧ c1.looping = c.looping ∧ c1.waveform = c.waveform ∧
    c1.tempo = c.tempo ∧ c1.octave = c.octave ∧ c1.default_length = c.default_length

/-- The relation the parser preserves between two channels: the same context, the
same frequency unless `anyFreq` is set, and equality when there is no text. -/
def Sim (anyFreq : Bool) (c c1 : AudioChannel) : Prop :=
  SameContext c c1 ∧ (anyFreq = false → c1.frequency = c.frequency) ∧ (c.in_ = none → c1 = c)

/-- The relation between the results of two parser invocations on related channels. -/
def SimDone (anyFreq : Bool) (r r1 : AudioChannel) : Prop :=
  Sim anyFreq r r1 ∧ r1.duration = r.duration ∧ r1.silence = r.silence ∧
    (r.silence < r.duration → r1.frequency = r.frequency)

/-- Related outcomes of one pass through the parser loop. -/
def StepSim (anyFreq : Bool) : Step → Step → Prop
  | .next r, .next r1 => Sim anyFreq r r1
  | .done r, .done r1 => SimDone anyFreq r r1
  | .fail f, .fail f1 => f1 = f
  | _, _ => False

/-- Related outcomes of a parser invocation. -/
def ParseSim (anyFreq : Bool) :
    Option (Except Fault AudioChannel) → Option (Except Fault AudioChannel) → Prop
  | none, none => True
  | some (.error f), some (.error f1) => f1 = f
  | some (.ok r), some (.ok r1) => SimDone anyFreq r r1
  | _, _ => False

/-- The channel after each of `n` successive parser invocations, the first on `c`,
each with at most `fuel` passes through the loop. -/
def parse_run (pow : ℚ → ℚ → ℚ) (mf : ℚ) (fuel : Nat) :
    Nat → AudioChannel → Option (Except Fault (List AudioChannel))
  | 0, _ => some (.ok [])
  | n + 1, c =>
    match mml_parse_next pow mf fuel c with
    | none => none
    | some (.error f) => some (.error f)
    | some (.ok r) =>
      match parse_run pow mf fuel n r with
      | none => none
      | some (.error f) => some (.error f)
      | some (.ok rs) => some (.ok (r :: rs))

/-- The event a parser invocation leaves in the channel: frequency, waveform,
duration and silence. -/
def eventOf (r : AudioChannel) : ℚ × Waveform × Int × Int :=
  (r.frequency, r.waveform, r.duration, r.silence)

/-- What the mixer plays for an event: the frequency and waveform if it sounds at
all (`duration > silence`), the duration and the silence. -/
def soundOf (r : AudioChannel) : Option (ℚ × Waveform) × Int × Int :=
  (if r.silence < r.duration then some (r.frequency, r.waveform) else none, r.duration, r.silence)

/-- Related outcomes of a run of parser invocations. -/
def RunSim (anyFreq : Bool) :
    Option (Except Fault (List AudioChannel)) → Option (Except Fault (List AudioChannel)) → Prop
  | none, none => True
  | some (.error f), some (.error f1) => f1 = f
  | some (.ok rs), some (.ok rs1) => List.Forall₂ (SimDone anyFreq) rs rs1
  | _, _ => False

/-! ## The event at the cursor -/

/-- The cursor of `c` is at a note or rest command of the text `s`, possibly after
whitespace, and `dt` is the duration suffix of that command. -/
def AtEvent (c : AudioChannel) (s : List Char) (i : Nat) (dt : DurationText) : Prop :=
  c.source = some s ∧ c.in_ = some i ∧ i ≤ s.length ∧
    ((∃ key, letterKey (s.getD (skipSpaces s i) NUL) = some key ∧
        dt = durationTextAt s (accidentalAt s (skipSpaces s i + 1)).2) ∨
      (isRestChar (s.getD (skipSpaces s i) NUL) = true ∧
        dt = durationTextAt s (skipSpaces s i + 1)))

/-- The cursor of `c` is at a note letter of the text `s`, possibly after
whitespace: `key` is the key of the letter, `acc` the character that follows it
(after whitespace) and `dt` the duration suffix of the note. -/
def AtNote (c : AudioChannel) (s : List Char) (i : Nat) (key : Int) (acc : Char)
    (dt : DurationText) : Prop :=
  c.source = some s ∧ c.in_ = some i ∧ i ≤ s.length ∧
    letterKey (s.getD (skipSpaces s i) NUL) = some key ∧
    acc = s.getD (skipSpaces s (skipSpaces s i + 1)) NUL ∧
    dt = durationTextAt s (accidentalAt s (skipSpaces s i + 1)).2

/-! ## The stages of a mixer tick -/

/-- The statement `if (--channel->duration < 0) mml_parse_next(channel);` of the mixer. -/
def tick_parse (pow : ℚ → ℚ → ℚ) (mixing_frequency : ℚ) (fuel : Nat) (channel : AudioChannel) :
    Option (Except Fault AudioChannel) :=
  let c0 := { channel with duration := wrap32 (channel.duration - 1) }
  if c0.duration < 0 then mml_parse_next pow mixing_frequency fuel c0 else some (.ok c0)

/-- The local `waveform` of the mixer: the channel's waveform while the event
sounds, silence otherwise. -/
def sounding (c : AudioChannel) : Waveform :=
  if c.duration > c.silence then c.waveform else Waveform.SILENCE

/-- The phase after `t += 1.0f / mixing_frequency * frequency; t -= (int)t;`. -/
def phase_next (mixing_frequency t frequency : ℚ) : ℚ :=
  f32_sub (f32_add t (f32_mul (f32 (1 / mixing_frequency)) frequency))
    (f32 (trunc (f32_add t (f32_mul (f32 (1 / mixing_frequency)) frequency))))

/-- The range of the value each waveform adds to the accumulator. -/
def WaveRange (w : Waveform) (x : Int) : Prop :=
  match w with
  | .SILENCE => x = 0
  | .PULSE_12 => x = 4 ∨ x = -4
  | .PULSE_25 => x = 4 ∨ x = -4
  | .PULSE_50 => x = 4 ∨ x = -4
  | .SAWTOOTH => -4 ≤ x ∧ x ≤ 3
  | .TRIANLGE => -8 ≤ x ∧ x ≤ 8
  | .NOISE => -4 ≤ x ∧ x ≤ 3

/-- The body of the inner loop of the mixer applied to one channel on successive
samples: `vs` are the values of the accumulator when the channel's turn comes, the
result lists the accumulator after the channel's contribution has been added. -/
def mix_channel_run (pow : ℚ → ℚ → ℚ) (mixing_frequency : ℚ) (audio_noise : List Int)
    (fuel : Nat) : List Int → AudioChannel → Option (Except Fault (List Int × AudioChannel))
  | [], channel => some (.ok ([], channel))
  | v :: vs, channel =>
    match mix_channel pow mixing_frequency audio_noise fuel v channel with
    | none => none
    | some (.error f) => some (.error f)
    | some (.ok (v1, c1)) =>
      match mix_channel_run pow mixing_frequency audio_noise fuel vs c1 with
      | none => none
      | some (.error f) => some (.error f)
      | some (.ok (outs, c2)) => some (.ok (v1 :: outs, c2))

/-- The cursor of `c` is at a rest command of the text `s`, possibly after
whitespace, and `dt` is the duration suffix of that command. -/
def AtRest (c : AudioChannel) (s : List Char) (i : Nat) (dt : DurationText) : Prop :=
  c.source = some s ∧ c.in_ = some i ∧ i ≤ s.length ∧
    isRestChar (s.getD (skipSpaces s i) NUL) = true ∧
    dt = durationTextAt s (skipSpaces s i + 1)

/-! ## Relating two texts -/

/-- The cases of the `switch` in `mml_parse_next`. -/
inductive Cmd where
  | stop | tempo | length | octave | down | up | rest
  | note (key : Int)
  | wave | other
  deriving DecidableEq

/-- The case of the `switch` in `mml_parse_next` a character selects. -/
def cmdOf (ch : Char) : Cmd :=
  if ch = NUL then .stop
  else if ch = 'T' ∨ ch = 't' then .tempo
  else if ch = 'L' ∨ ch = 'l' then .length
  else if ch = 'O' ∨ ch = 'o' then .octave
  else if ch = '<' then .down
  else if ch = '>' then .up
  else if ch = 'R' ∨ ch = 'r' ∨ ch = 'P' ∨ ch = 'p' then .rest
  else
    match letterKey ch with
    | some key => .note key
    | none => if ch = 'W' ∨ ch = 'w' then .wave else .other

/-- One pass through the loop of `mml_parse_next` once whitespace has been skipped up
to offset `j` of the text `s` and the character there selects the case `cmd`. -/
def iterCmd (pow : ℚ → ℚ → ℚ) (mf : ℚ) (c : AudioChannel) (s : List Char) (j : Nat) :
    Cmd → Step
  | .stop => if c.looping then .next { c with in_ := some 0 } else .next (mml_reset_channel c)
  | .tempo =>
    .next { c with in_ := some (numberAt s (j + 1)).2, tempo := (numberAt s (j + 1)).1 }
  | .length =>
    .next { c with in_ := some (numberAt s (j + 1)).2, default_length := (numberAt s (j + 1)).1 }
  | .octave =>
    .next { c with in_ := some (numberAt s (j + 1)).2, octave := (numberAt s (j + 1)).1 }
  | .down => .next { c with in_ := some (j + 1), octave := wrap32 (c.octave - 1) }
  | .up => .next { c with in_ := some (j + 1), octave := wrap32 (c.octave + 1) }
  | .rest =>
    match durationAt mf c.tempo c.default_length s (j + 1) with
    | .error e => .fail e
    | .ok r => .done { c with in_ := some r.2.2, duration := r.1, silence := r.1 }
  | .note key =>
    match durationAt mf c.tempo c.default_length s (accidentalAt s (j + 1)).2 with
    | .error e => .fail e
    | .ok r =>
      .done { c with
        in_ := some r.2.2, t := 0
        frequency := keyFrequency pow (noteKey key (accidentalAt s (j + 1)).1 c.octave)
        duration := r.1, silence := r.2.1 }
  | .wave =>
    match waveformOf (s.getD (j + 1) NUL) with
    | some w => .next { c with in_ := some (j + 2), waveform := w }
    | none => .next { c with in_ := some (j + 2) }
  | .other => .next { c with in_ := some (j + 1) }

/-- Outcomes of one pass through the parser loop related by `R`. -/
def StepRel (R : AudioChannel → AudioChannel → Prop) : Step → Step → Prop
  | .next r, .next r1 => R r r1
  | .done r, .done r1 => R r r1
  | .fail f, .fail f1 => f1 = f
  | _, _ => False

/-- Outcomes of a parser invocation related by `R`. -/
def ParseRel (R : AudioChannel → AudioChannel → Prop) :
    Option (Except Fault AudioChannel) → Option (Except Fault AudioChannel) → Prop
  | none, none => True
  | some (.error f), some (.error f1) => f1 = f
  | some (.ok r), some (.ok r1) => R r r1
  | _, _ => False

/-- Outcomes of a run of parser invocations related by `R`. -/
def RunRel (R : AudioChannel → AudioChannel → Prop) :
    Option (Except Fault (List AudioChannel)) → Option (Except Fault (List AudioChannel)) → Prop
  | none, none => True
  | some (.error f), some (.error f1) => f1 = f
  | some (.ok rs), some (.ok rs1) => List.Forall₂ R rs rs1
  | _, _ => False

/-- Two channels in the same state except for their texts `s` and `s1` and their
cursors, which are related by `A`; or two equal channels without text. -/
def TextRel (s s1 : List Char) (A : Nat → Nat → Prop) (c c1 : AudioChannel) : Prop :=
  ((c.source = some s ∧ c1.source = some s1 ∧
      ∃ i i1, c.in_ = some i ∧ c1.in_ = some i1 ∧ A i i1) ∨
    (c.in_ = none ∧ c1 = c)) ∧
  c1.looping = c.looping ∧ c1.t = c.t ∧ c1.frequency = c.frequency ∧
  c1.waveform = c.waveform ∧ c1.duration = c.duration ∧ c1.silence = c.silence ∧
  c1.tempo = c.tempo ∧ c1.octave = c.octave ∧ c1.default_length = c.default_length

/-- The texts `s` and `s1` read alike from cursors related by `A`: every read of the
parser finds the same thing in both and leaves related cursors. -/
structure Aligned (s s1 : List Char) (A : Nat → Nat → Prop) : Prop where
  start : A 0 0
  bound : ∀ i i1, A i i1 → (i ≤ s.length ↔ i1 ≤ s1.length)
  cmd : ∀ i i1, A i i1 →
    cmdOf (s1.getD (skipSpaces s1 i1) NUL) = cmdOf (s.getD (skipSpaces s i) NUL)
  step : ∀ i i1, A i i1 → cmdOf (s.getD (skipSpaces s i) NUL) ≠ Cmd.stop →
    A (skipSpaces s i + 1) (skipSpaces s1 i1 + 1)
  wave : ∀ i i1, A i i1 → cmdOf (s.getD (skipSpaces s i) NUL) = Cmd.wave →
    waveformOf (s1.getD (skipSpaces s1 i1 + 1) NUL) =
      waveformOf (s.getD (skipSpaces s i + 1) NUL) ∧
    A (skipSpaces s i + 2) (skipSpaces s1 i1 + 2)
  number : ∀ p p1, A p p1 →
    (numberAt s1 p1).1 = (numberAt s p).1 ∧ A (numberAt s p).2 (numberAt s1 p1).2
  isNext : ∀ p p1 ch, ch ∈ ['.', '&', '#', '+', '-'] → A p p1 →
    (isNextAt s1 p1 ch).1 = (isNextAt s p ch).1 ∧ A (isNextAt s p ch).2 (isNextAt s1 p1 ch).2

/-- The parse context and cursor-free state of a channel: everything but the text
and the cursor. -/
def contextOf (c : AudioChannel) :
    Bool × ℚ × ℚ × Waveform × Int × Int × Int × Int × Int :=
  (c.looping, c.t, c.frequency, c.waveform, c.duration, c.silence, c.tempo, c.octave,
   c.default_length)

/-- The lower case form of an ASCII upper case letter, any other character unchanged. -/
def asciiLower (c : Char) : Char :=
  if 65 ≤ c.toNat ∧ c.toNat ≤ 90 then Char.ofNat (c.toNat + 32) else c

/-- The ASCII upper case letters. -/
def upperLetters : List Char :=
  ['A', 'B', 'C', 'D', 'E', 'F', 'G', 'H', 'I', 'J', 'K', 'L', 'M', 'N', 'O', 'P', 'Q', 'R', 'S',
   'T', 'U', 'V', 'W', 'X', 'Y', 'Z']

/-- The cursors `i` into `a ++ b` and `i1` into `a ++ w ++ b` point at the same
place, where `n` is the length of `a` and `k` the length of `w`. -/
def Shifted (n k i i1 : Nat) : Prop := (i ≤ n ∧ i1 = i) ∨ (n ≤ i ∧ i1 = i + k)

/-- The last character of a text, the terminator for the empty text. -/
def lastChar (a : List Char) : Char := a.getD (a.length - 1) NUL

/-- The first character of a text, the terminator for the empty text. -/
def firstChar (b : List Char) : Char := b.getD 0 NUL

/-- The channel of every `next` or `done` outcome satisfies `P`. -/
def StepAll (P : AudioChannel → Prop) : Step → Prop
  | .next r => P r
  | .done r => P r
  | .fail _ => True

/-- The cursor of `c` is NULL, or `c` reads the text `s` and its cursor is at an
offset of at most `s.length`, that of the terminator. -/
def CursorIn (s : List Char) (c : AudioChannel) : Prop :=
  c.in_ = none ∨ (c.source = some s ∧ ∃ i, c.in_ = some i ∧ i ≤ s.length)

/-- A pass of the parser loop that leaves the cursor in `s`, or fails otherwise than
by a read outside the text or through a NULL pointer. -/
def StepIn (s : List Char) : Step → Prop
  | .next r => CursorIn s r
  | .done r => CursorIn s r
  | .fail f => f ≠ .overrun ∧ f ≠ .nullDeref

/-- No character `W` or `w` stands right before the terminator of `s`. -/
def NoFinalW (s : List Char) : Prop :=
  ∀ j, j + 1 = s.length → s.getD j NUL ≠ 'W' ∧ s.getD j NUL ≠ 'w'

/-- The phase after `k` ticks at the frequency `frequency`, from the phase `t`. -/
def phase_at (mixing_frequency frequency : ℚ) : Nat → ℚ → ℚ
  | 0, t => t
  | k + 1, t => phase_at mixing_frequency frequency k (phase_next mixing_frequency t frequency)

/-! ## Basic facts -/

theorem wrap32_of_range {x : Int} (h1 : -2147483648 ≤ x) (h2 : x ≤ 2147483647) : wrap32 x = x := by
  unfold wrap32; omega

theorem SDL_strdup_of_no_nul : ∀ s : List Char, (∀ c ∈ s, c ≠ NUL) → SDL_strdup s = s
  | [], _ => rfl
  | c :: cs, h => by
    have hc : c ≠ NUL := h c (List.mem_cons_self c cs)
    have ih := SDL_strdup_of_no_nul cs (fun d hd => h d (List.mem_cons_of_mem c hd))
    simp [SDL_strdup, hc, ih]

/-! ## Start -/

/-- C1 (the code departs from it): a script index outside `[0, 8)` that the
narrowing to `int` maps into the range is accepted.  With a device open,
`play(4294967296, "C", false)` raises no error and restarts channel 0. -/
theorem f_play_accepts_narrowed_index :
    ∃ e, f_play (px_lua_init 1 44100) 4294967296 ['C'] false = .ok e ∧
      e.channels 0 = started ['C'] false ∧
      e.channels 0 ≠ (px_lua_init 1 44100).channels 0 := by
  refine ⟨{ px_lua_init 1 44100 with
            channels := Function.update (px_lua_init 1 44100).channels 0 (started ['C'] false) },
          ?_, ?_, ?_⟩
  · have hw : wrap32 4294967296 = 0 := by decide
    simp [f_play, hw, PX_AUDIO_CHANNELS, px_lua_init, started, mml_reset_channel]
  · simp
  · simp [px_lua_init, started, mml_reset_channel, zeroChannel]

/-- C2: for an index in `[0, 8)` and a command text `s`, `f_play` with a device
open leaves the channel with the text `s`, the cursor at its first character, the
given loop flag and the defaults (tempo 140, octave 3, length 4, pulse 50%,
phase, frequency, duration and silence 0), and leaves the other channels and
globals as they were; with no device open it succeeds and changes nothing. -/
theorem f_play_starts_channel (e : Engine) (k : Fin 8) (s : List Char) (b : Bool)
    (hs : ∀ c ∈ s, c ≠ NUL) :
    (e.audio_device ≠ 0 →
      ∃ e1, f_play e (k : Nat) s b = .ok e1 ∧
        e1.channels k =
          { source := some s, in_ := some 0, looping := b, t := 0, frequency := 0,
            waveform := .PULSE_50, duration := 0, silence := 0, tempo := 140, octave := 3,
            default_length := 4 } ∧
        (∀ j : Fin 8, j ≠ k → e1.channels j = e.channels j) ∧
        e1.audio_device = e.audio_device ∧ e1.mixing_frequency = e.mixing_frequency ∧
        e1.audio_noise = e.audio_noise ∧ e1.seed = e.seed) ∧
    (e.audio_device = 0 → f_play e (k : Nat) s b = .ok e) := by
  have hk : wrap32 ((k : Nat) : Int) = ((k : Nat) : Int) :=
    wrap32_of_range (by omega) (by omega)
  have hr : (0 : Int) ≤ ((k : Nat) : Int) ∧ ((k : Nat) : Int) < (PX_AUDIO_CHANNELS : Int) := by
    simp [PX_AUDIO_CHANNELS]
  constructor
  · intro hd
    refine ⟨{ e with channels := Function.update e.channels k (started s b) }, ?_, ?_, ?_, rfl, rfl, rfl, rfl⟩
    · simp [f_play, hk, hr, hd, started, mml_reset_channel]
    · simp [started, mml_reset_channel, zeroChannel, SDL_strdup_of_no_nul s hs]
    · intro j hj
      simp [Function.update, hj]
  · intro hd
    simp [f_play, hk, hr, hd]

theorem f_play_starts_channel_witness :
    (∀ c ∈ ['C', '4'], c ≠ NUL) ∧
    (∃ e1, f_play (px_lua_init 1 44100) ((3 : Fin 8) : Nat) ['C', '4'] true = .ok e1 ∧
      e1.channels 3 =
        { source := some ['C', '4'], in_ := some 0, looping := true, t := 0, frequency := 0,
          waveform := .PULSE_50, duration := 0, silence := 0, tempo := 140, octave := 3,
          default_length := 4 } ∧
      ∀ j : Fin 8, j ≠ 3 → e1.channels j = (px_lua_init 1 44100).channels j) ∧
    f_play (px_lua_init 0 0) ((3 : Fin 8) : Nat) ['C', '4'] true = .ok (px_lua_init 0 0) :=
  have h1 := f_play_starts_channel (px_lua_init 1 44100) 3 ['C', '4'] true (by decide)
  have h0 := f_play_starts_channel (px_lua_init 0 0) 3 ['C', '4'] true (by decide)
  ⟨by decide,
   (h1.1 Nat.one_ne_zero).imp fun _ h => ⟨h.1, h.2.1, h.2.2.1⟩,
   h0.2 rfl⟩

/-! ## The parser loop -/

theorem drop_eq_getD_cons (s : List Char) (i : Nat) (h : i < s.length) :
    s.drop i = s.getD i NUL :: s.drop (i + 1) := by
  rw [List.getD_eq_getElem _ _ h]
  exact List.drop_eq_getElem_cons h

theorem parse_next_succ (pow : ℚ → ℚ → ℚ) (mf : ℚ) (fuel : Nat) (c : AudioChannel) :
    mml_parse_next pow mf (fuel + 1) c =
      match mml_parse_iter pow mf c with
      | .next c1 => mml_parse_next pow mf fuel c1
      | .done c1 => some (.ok c1)
      | .fail f => some (.error f) := rfl

theorem peek_eq (c : AudioChannel) (s : List Char) (i : Nat) (hsrc : c.source = some s)
    (hin : c.in_ = some i) (hi : i ≤ s.length) : peek c = .ok (s.getD i NUL) := by
  unfold peek
  rw [hsrc, hin]
  rcases Nat.lt_or_ge i s.length with h | h
  · simp [h]
  · have : i = s.length := Nat.le_antisymm hi h
    subst this
    simp [List.getD]

theorem mml_skip_spaces_eq (c : AudioChannel) (s : List Char) (i : Nat) (hsrc : c.source = some s)
    (hin : c.in_ = some i) (hi : i ≤ s.length) :
    mml_skip_spaces c = .ok { c with in_ := some (i + countWhile SDL_isspace (s.drop i)) } := by
  unfold mml_skip_spaces
  rw [hsrc, hin]
  simp [hi]

theorem countWhile_drop_of_not (p : Char → Bool) (s : List Char) (i : Nat)
    (h : p (s.getD i NUL) = false) : countWhile p (s.drop i) = 0 := by
  rcases Nat.lt_or_ge i s.length with h1 | h1
  · rw [drop_eq_getD_cons s i h1]
    simp only [countWhile, h, Bool.false_eq_true, if_false]
  · rw [List.drop_of_length_le h1]
    rfl

/-- C6: when the cursor is at a character that is not the terminator, not
whitespace and not a command character, one pass of the parser loop only moves
the cursor one character on, without any fault, so a parser invocation gives
exactly what an invocation started one character further on gives. -/
theorem mml_parse_next_skips_unrecognized (pow : ℚ → ℚ → ℚ) (mf : ℚ) (c : AudioChannel)
    (s : List Char) (i : Nat) (hsrc : c.source = some s) (hin : c.in_ = some i)
    (hi : i < s.length) (hnul : s.getD i NUL ≠ NUL) (hsp : SDL_isspace (s.getD i NUL) = false)
    (hcmd : s.getD i NUL ∉
      ['T', 't', 'L', 'l', 'O', 'o', '<', '>', 'R', 'r', 'P', 'p', 'C', 'c', 'D', 'd', 'E', 'e',
       'F', 'f', 'G', 'g', 'A', 'a', 'B', 'b', 'W', 'w']) :
    mml_parse_iter pow mf c = .next { c with in_ := some (i + 1) } ∧
    ∀ fuel, mml_parse_next pow mf (fuel + 1) c =
      mml_parse_next pow mf fuel { c with in_ := some (i + 1) } := by
  have hstep : mml_parse_iter pow mf c = .next { c with in_ := some (i + 1) } := by
    have hskip := mml_skip_spaces_eq c s i hsrc hin (Nat.le_of_lt hi)
    rw [countWhile_drop_of_not _ s i hsp] at hskip
    have hpk : peek { c with in_ := some (i + 0) } = .ok (s.getD i NUL) :=
      peek_eq _ s i hsrc rfl (Nat.le_of_lt hi)
    generalize s.getD i NUL = ch at hnul hsp hcmd hpk
    simp only [List.mem_cons, List.mem_singleton, not_or, List.not_mem_nil, or_false] at hcmd
    obtain ⟨h1, h2, h3, h4, h5, h6, h7, h8, h9, h10, h11, h12, h13, h14, h15, h16, h17, h18,
      h19, h20, h21, h22, h23, h24, h25, h26, h27, h28⟩ := hcmd
    unfold mml_parse_iter
    rw [hin]
    simp only [hskip, readInc, hpk]
    simp [hnul, h1, h2, h3, h4, h5, h6, h7, h8, h9, h10,
      h11, h12, h13, h14, h15, h16, h17, h18, h19, h20, h21, h22, h23, h24, h25, h26, h27, h28]
  refine ⟨hstep, fun fuel => ?_⟩
  rw [parse_next_succ, hstep]

theorem mml_parse_iter_empty_loop (pow : ℚ → ℚ → ℚ) (mf : ℚ) (c : AudioChannel)
    (hsrc : c.source = some []) (hin : c.in_ = some 0) (hl : c.looping = true) :
    mml_parse_iter pow mf c = .next c := by
  obtain ⟨src, cur, lp, t, fr, w, d, sl, tp, oc, dl⟩ := c
  simp only at hsrc hin hl
  subst hsrc hin hl
  simp [mml_parse_iter, mml_skip_spaces, readInc, peek, countWhile]

theorem mml_parse_next_empty_loop (pow : ℚ → ℚ → ℚ) (mf : ℚ) (c : AudioChannel)
    (hsrc : c.source = some []) (hin : c.in_ = some 0) (hl : c.looping = true) :
    ∀ fuel, mml_parse_next pow mf fuel c = none
  | 0 => rfl
  | fuel + 1 => by
    rw [parse_next_succ, mml_parse_iter_empty_loop pow mf c hsrc hin hl]
    exact mml_parse_next_empty_loop pow mf c hsrc hin hl fuel

theorem f_play_ok (e : Engine) (k : Fin 8) (s : List Char) (b : Bool) (hd : e.audio_device ≠ 0) :
    f_play e (k : Nat) s b =
      .ok { e with channels := Function.update e.channels k (started s b) } := by
  have hk : wrap32 ((k : Nat) : Int) = ((k : Nat) : Int) :=
    wrap32_of_range (by omega) (by omega)
  have hr : (0 : Int) ≤ ((k : Nat) : Int) ∧ ((k : Nat) : Int) < (PX_AUDIO_CHANNELS : Int) := by
    simp [PX_AUDIO_CHANNELS]
  simp [f_play, hk, hr, hd, started, mml_reset_channel]

theorem px_lua_init_device (d : Nat) (f : Int) : (px_lua_init d f).audio_device = d := rfl

/-- C3 (the code departs from it): after `play(0, "", true)` the parser never
leaves its loop, whatever the number of passes allowed, so the mixer tick that
invokes it does not terminate and writes no sample. -/
theorem mixer_tick_diverges_on_empty_loop :
    ∃ e, f_play (px_lua_init 1 44100) 0 [] true = .ok e ∧
      ∀ (pow : ℚ → ℚ → ℚ) (mf : ℚ) (noise : List Int) (fuel : Nat),
        mml_parse_next pow mf fuel (e.channels 0) = none ∧
        mix_sample pow mf noise fuel e.channels = none := by
  have hd : (px_lua_init 1 44100).audio_device ≠ 0 := by
    rw [px_lua_init_device]; decide
  refine ⟨_, f_play_ok (px_lua_init 1 44100) 0 [] true hd, fun pow mf noise fuel => ⟨?_, ?_⟩⟩
  · simp only [Function.update_same]
    exact mml_parse_next_empty_loop pow _ _ rfl rfl rfl fuel
  · have hfin : List.finRange 8 = (0 : Fin 8) :: (List.finRange 8).tail := by decide
    unfold mix_sample
    rw [hfin]
    simp only [mix_loop, Function.update_same, mix_channel]
    have hd : wrap32 ((started [] true).duration - 1) < 0 := by decide
    rw [if_pos hd, mml_parse_next_empty_loop pow _ _ rfl rfl rfl fuel]

/-! ## Idle channels -/

theorem roundTo_zero (p : Nat) (emin : Int) : roundTo p emin 0 = 0 := by
  simp [roundTo]

theorem f32_zero : f32 0 = 0 := roundTo_zero _ _

theorem trunc_zero : trunc 0 = 0 := by simp [trunc]

theorem mml_parse_next_null (pow : ℚ → ℚ → ℚ) (mf : ℚ) (fuel : Nat) (c : AudioChannel)
    (hin : c.in_ = none) : mml_parse_next pow mf (fuel + 1) c = some (.ok c) := by
  rw [parse_next_succ]
  unfold mml_parse_iter
  rw [hin]

theorem mix_channel_idle (pow : ℚ → ℚ → ℚ) (mf : ℚ) (noise : List Int) (fuel : Nat) (v : Int)
    (c : AudioChannel) (hmf : mf ≠ 0) (hin : c.in_ = none) (ht : c.t = 0)
    (hf : c.frequency = 0) :
    mix_channel pow mf noise (fuel + 1) v c =
      match mix_waveform noise
          (if wrap32 (c.duration - 1) > c.silence then c.waveform else Waveform.SILENCE) 0 v with
      | .error f => some (.error f)
      | .ok v1 => some (.ok (v1, { c with duration := wrap32 (c.duration - 1) })) := by
  obtain ⟨src, cur, lp, t, fr, w, d, sl, tp, oc, dl⟩ := c
  simp only at hin ht hf
  subst hin ht hf
  unfold mix_channel
  simp only [mml_parse_next_null, ite_self]
  simp [f32_div, hmf, f32_add, f32_mul, f32_sub, f32_zero, f32_to_int, trunc_zero]

theorem mix_waveform_silence (noise : List Int) (t : ℚ) (v : Int) :
    mix_waveform noise Waveform.SILENCE t v = .ok v := rfl

theorem mix_waveform_pulse_50_zero (noise : List Int) (v : Int) :
    mix_waveform noise Waveform.PULSE_50 0 v = .ok (addSample v 4) := by
  show Except.ok (addSample v (if (0 : ℚ) ≤ 1 / 2 then 4 else -4)) = _
  rw [if_pos (by norm_num)]

theorem mix_channel_quiet (pow : ℚ → ℚ → ℚ) (mf : ℚ) (noise : List Int) (fuel : Nat) (v : Int)
    (c : AudioChannel) (hmf : mf ≠ 0) (hq : Quiet c) :
    mix_channel pow mf noise (fuel + 1) v c = some (.ok (quietOut c v, tickQuiet c)) := by
  obtain ⟨hin, ht, hf, hw⟩ := hq
  rw [mix_channel_idle pow mf noise fuel v c hmf hin ht hf]
  unfold quietOut tickQuiet
  by_cases hd : wrap32 (c.duration - 1) > c.silence
  · rcases hw with hw | hw
    · rw [if_pos hd, hw, mix_waveform_pulse_50_zero, if_pos ⟨hd, rfl⟩]
    · rw [if_pos hd, hw, mix_waveform_silence, if_neg (by simp)]
  · rw [if_neg hd, mix_waveform_silence, if_neg (fun h => hd h.1)]

theorem tickQuiet_quiet (c : AudioChannel) (hq : Quiet c) : Quiet (tickQuiet c) := hq

theorem mix_loop_quiet (pow : ℚ → ℚ → ℚ) (mf : ℚ) (noise : List Int) (fuel : Nat) (hmf : mf ≠ 0) :
    ∀ (js : List (Fin 8)) (v : Int) (ch : Fin 8 → AudioChannel), (∀ j, Quiet (ch j)) → js.Nodup →
      mix_loop pow mf noise (fuel + 1) js v ch =
        some (.ok (js.foldl (fun v j => quietOut (ch j) v) v,
                   fun k => if k ∈ js then tickQuiet (ch k) else ch k))
  | [], v, ch, _, _ => by simp [mix_loop]
  | j :: js, v, ch, hq, hnd => by
    have hj : j ∉ js := (List.nodup_cons.mp hnd).1
    have hq1 : ∀ k, Quiet (Function.update ch j (tickQuiet (ch j)) k) := by
      intro k
      by_cases hk : k = j
      · subst hk
        rw [Function.update_same]
        exact tickQuiet_quiet _ (hq k)
      · rw [Function.update_noteq hk]
        exact hq k
    simp only [mix_loop]
    rw [mix_channel_quiet pow mf noise fuel v (ch j) hmf (hq j)]
    simp only
    rw [mix_loop_quiet pow mf noise fuel hmf js _ _ hq1 (List.nodup_cons.mp hnd).2]
    congr 3
    · simp only [List.foldl_cons]
      apply List.foldl_ext
      intro a k hk
      have : k ≠ j := fun h => hj (h ▸ hk)
      rw [Function.update_noteq this]
    · funext k
      by_cases hk : k = j
      · subst hk
        simp [hj]
      · simp [hk, Function.update_noteq hk]

theorem mix_sample_idle (pow : ℚ → ℚ → ℚ) (mf : ℚ) (noise : List Int) (fuel : Nat) (d : Int)
    (hmf : mf ≠ 0) :
    mix_sample pow mf noise (fuel + 1) (idleChannels d) =
      some (.ok (if wrap32 (d - 1) > 0 then 4 else 0, idleChannels (wrap32 (d - 1)))) := by
  have hfin : List.finRange 8 = [0, 1, 2, 3, 4, 5, 6, 7] := by decide
  have h4 : addSample 0 4 = 4 := by decide
  have hq : ∀ j, Quiet (idleChannels d j) := by
    intro j
    unfold idleChannels Quiet
    split <;> simp [mml_reset_channel, zeroChannel]
  unfold mix_sample
  rw [mix_loop_quiet pow mf noise fuel hmf _ _ _ hq (List.nodup_finRange 8)]
  congr 3
  · rw [hfin]
    simp [quietOut, idleChannels, mml_reset_channel, zeroChannel, h4]
  · funext k
    simp only [List.mem_finRange, if_true]
    unfold idleChannels tickQuiet
    split <;> rfl

theorem callback_idle (pow : ℚ → ℚ → ℚ) (mf : ℚ) (noise : List Int) (fuel : Nat) (hmf : mf ≠ 0)
    (len : Nat) : ∀ d : Int, d ≤ 0 → d - len = -2147483648 →
      px_audio_mixer_callback pow mf noise (fuel + 1) (len + 1) (idleChannels d) =
        some (.ok (List.replicate len 0 ++ [4], idleChannels 2147483647)) := by
  induction len with
  | zero =>
    intro d _ h
    have hd : d = -2147483648 := by simpa using h
    subst hd
    have hw : wrap32 (-2147483648 - 1) = 2147483647 := by decide
    have hpos : wrap32 (-2147483648 - 1) > 0 := by decide
    rw [px_audio_mixer_callback, mix_sample_idle pow mf noise fuel _ hmf, if_pos hpos, hw]
    rfl
  | succ len ih =>
    intro d h0 h
    push_cast at h
    have hw : wrap32 (d - 1) = d - 1 := wrap32_of_range (by omega) (by omega)
    have hneg : ¬ (d - 1 > 0) := by omega
    rw [px_audio_mixer_callback, mix_sample_idle pow mf noise fuel _ hmf, hw, if_neg hneg]
    simp only
    rw [ih (d - 1) (by omega) (by omega)]
    rfl

theorem f_stop_ok (e : Engine) (k : Fin 8) (hd : e.audio_device ≠ 0) :
    f_stop e (k : Nat) =
      .ok { e with channels := Function.update e.channels k (mml_reset_channel (e.channels k)) } := by
  have hk : wrap32 ((k : Nat) : Int) = ((k : Nat) : Int) :=
    wrap32_of_range (by omega) (by omega)
  have hr : (0 : Int) ≤ ((k : Nat) : Int) ∧ ((k : Nat) : Int) < (PX_AUDIO_CHANNELS : Int) := by
    simp [PX_AUDIO_CHANNELS]
  simp [f_stop, hk, hr, hd]

theorem px_lua_init_channels (d : Nat) (f : Int) :
    (px_lua_init d f).channels = fun _ => zeroChannel := rfl

/-- C4 (the code departs from it): after `stop(0)` on the freshly initialised
engine the stopped channel is silent for 2147483648 samples only.  Its duration
counter, decremented on every tick, then wraps from the least `int` to the
greatest, and sample number 2147483649 is 4, the pulse of the idle channel. -/
theorem stopped_channel_sounds_after_counter_wraps :
    ∃ e, f_stop (px_lua_init 1 44100) 0 = .ok e ∧
      ∀ (pow : ℚ → ℚ → ℚ) (noise : List Int) (fuel : Nat),
        ∃ chans, px_audio_mixer_callback pow 44100 noise (fuel + 1) 2147483649 e.channels =
          some (.ok (List.replicate 2147483648 0 ++ [4], chans)) := by
  have hd : (px_lua_init 1 44100).audio_device ≠ 0 := by
    rw [px_lua_init_device]; decide
  refine ⟨_, f_stop_ok (px_lua_init 1 44100) 0 hd, fun pow noise fuel => ⟨idleChannels 2147483647, ?_⟩⟩
  have hch : Function.update (px_lua_init 1 44100).channels 0
      (mml_reset_channel ((px_lua_init 1 44100).channels 0)) = idleChannels 0 := by
    funext j
    rw [px_lua_init_channels]
    unfold idleChannels
    by_cases hj : j = 0
    · subst hj
      simp [mml_reset_channel, zeroChannel]
    · simp [Function.update_noteq hj, hj, zeroChannel]
  show px_audio_mixer_callback pow 44100 noise (fuel + 1) (2147483648 + 1)
    (Function.update (px_lua_init 1 44100).channels 0
      (mml_reset_channel ((px_lua_init 1 44100).channels 0))) = _
  rw [hch]
  exact callback_idle pow 44100 noise fuel (by norm_num) 2147483648 0 (by norm_num) (by norm_num)

/-! ## The text at the cursor -/

theorem countWhile_le (p : Char → Bool) : ∀ l : List Char, countWhile p l ≤ l.length
  | [] => Nat.le_refl 0
  | c :: cs => by
    unfold countWhile
    split
    · simpa using countWhile_le p cs
    · exact Nat.zero_le _

theorem countWhile_drop_self (p : Char → Bool) :
    ∀ l : List Char, countWhile p (l.drop (countWhile p l)) = 0
  | [] => rfl
  | c :: cs => by
    by_cases h : p c
    · simp only [countWhile, h, if_true, List.drop_succ_cons]
      exact countWhile_drop_self p cs
    · simp [countWhile, h]

theorem skipSpaces_le (s : List Char) (i : Nat) (h : i ≤ s.length) : skipSpaces s i ≤ s.length := by
  have := countWhile_le SDL_isspace (s.drop i)
  simp only [List.length_drop] at this
  unfold skipSpaces
  omega

theorem skipSpaces_ge (s : List Char) (i : Nat) : i ≤ skipSpaces s i := Nat.le_add_right _ _

theorem skipSpaces_idem (s : List Char) (i : Nat) : skipSpaces s (skipSpaces s i) = skipSpaces s i := by
  unfold skipSpaces
  rw [← List.drop_drop, countWhile_drop_self]
  rfl

theorem digitsLoop_le : ∀ (l : List Char) (v : Int) (k : Nat), (digitsLoop l v k).2 ≤ k + l.length
  | [], v, k => by simp [digitsLoop]
  | c :: cs, v, k => by
    unfold digitsLoop
    split
    · have := digitsLoop_le cs (wrap32 (wrap32 (v * 10) + ((c.toNat : Int) - 48))) (k + 1)
      simp only [List.length_cons]
      omega
    · simp

theorem isNextAt_le (s : List Char) (i : Nat) (ch : Char) (hch : ch ≠ NUL) (h : i ≤ s.length) :
    (isNextAt s i ch).2 ≤ s.length := by
  have h1 := skipSpaces_le s i h
  unfold isNextAt
  split
  · rename_i heq
    rcases Nat.lt_or_ge (skipSpaces s i) s.length with h2 | h2
    · exact h2
    · exfalso
      apply hch
      rw [← heq]
      simp [List.getD, List.getElem?_eq_none h2]
  · exact h1

theorem numberAt_le (s : List Char) (i : Nat) (h : i ≤ s.length) : (numberAt s i).2 ≤ s.length := by
  have h1 := skipSpaces_le s i h
  have h2 := digitsLoop_le (s.drop (skipSpaces s i)) 0 0
  simp only [List.length_drop] at h2
  unfold numberAt
  simp only
  omega

theorem mml_skip_spaces_at (c : AudioChannel) (s : List Char) (i : Nat) (hsrc : c.source = some s)
    (hin : c.in_ = some i) (hi : i ≤ s.length) :
    mml_skip_spaces c = .ok { c with in_ := some (skipSpaces s i) } :=
  mml_skip_spaces_eq c s i hsrc hin hi

theorem mml_is_next_at (c : AudioChannel) (s : List Char) (i : Nat) (ch : Char)
    (hsrc : c.source = some s) (hin : c.in_ = some i) (hi : i ≤ s.length) :
    mml_is_next c ch = .ok ((isNextAt s i ch).1, { c with in_ := some (isNextAt s i ch).2 }) := by
  unfold mml_is_next
  rw [mml_skip_spaces_at c s i hsrc hin hi]
  simp only
  rw [peek_eq { c with in_ := some (skipSpaces s i) } s (skipSpaces s i) hsrc rfl
    (skipSpaces_le s i hi)]
  unfold isNextAt
  simp only
  split <;> simp

theorem mml_parse_number_at (c : AudioChannel) (s : List Char) (i : Nat)
    (hsrc : c.source = some s) (hin : c.in_ = some i) (hi : i ≤ s.length) :
    mml_parse_number c = .ok ((numberAt s i).1, { c with in_ := some (numberAt s i).2 }) := by
  unfold mml_parse_number
  rw [mml_skip_spaces_at c s i hsrc hin hi]
  simp only [hsrc]
  rfl

theorem mml_is_next_mk (s : List Char) (i : Nat) (ch : Char) (hi : i ≤ s.length) (lp : Bool)
    (t f : ℚ) (w : Waveform) (d sl tp oc dl : Int) :
    mml_is_next ⟨some s, some i, lp, t, f, w, d, sl, tp, oc, dl⟩ ch =
      .ok ((isNextAt s i ch).1, ⟨some s, some (isNextAt s i ch).2, lp, t, f, w, d, sl, tp, oc, dl⟩) :=
  mml_is_next_at _ s i ch rfl rfl hi

theorem mml_parse_number_mk (s : List Char) (i : Nat) (hi : i ≤ s.length) (lp : Bool)
    (t f : ℚ) (w : Waveform) (d sl tp oc dl : Int) :
    mml_parse_number ⟨some s, some i, lp, t, f, w, d, sl, tp, oc, dl⟩ =
      .ok ((numberAt s i).1, ⟨some s, some (numberAt s i).2, lp, t, f, w, d, sl, tp, oc, dl⟩) :=
  mml_parse_number_at _ s i rfl rfl hi

theorem mml_parse_duration_mk (mf : ℚ) (s : List Char) (i : Nat) (hi : i ≤ s.length) (lp : Bool)
    (t f : ℚ) (w : Waveform) (d sl tp oc dl : Int) :
    mml_parse_duration mf ⟨some s, some i, lp, t, f, w, d, sl, tp, oc, dl⟩ =
      match durationAt mf tp dl s i with
      | .error e => .error e
      | .ok r => .ok ⟨some s, some r.2.2, lp, t, f, w, r.1, r.2.1, tp, oc, dl⟩ := by
  have h1 := numberAt_le s i hi
  have h2 := isNextAt_le s (numberAt s i).2 '.' (by decide) h1
  unfold mml_parse_duration durationAt durationValue
  simp only [bind, Except.bind, pure, Except.pure, mml_parse_number_mk s i hi,
    mml_is_next_mk s _ '.' h1]
  cases f32_div (f32_mul (f32 tp) (1 / 4)) 60 with
  | error e => rfl
  | ok b =>
    simp only
    cases f32_div mf b with
    | error e => rfl
    | ok wh =>
      simp only
      cases f32_div 1 (if f32 (numberAt s i).1 = 0 then f32 dl else f32 (numberAt s i).1) with
      | error e => rfl
      | ok inv =>
        simp only
        cases f32_to_int (if (isNextAt s (numberAt s i).2 '.').1 = true
            then f32_mul (f32_mul wh inv) (3 / 2) else f32_mul wh inv) with
        | error e => rfl
        | ok dv =>
          simp only [mml_is_next_mk s _ '&' h2]
          split
          · rfl
          · cases f32_to_int (f32_mul (if (isNextAt s (numberAt s i).2 '.').1 = true
                then f32_mul (f32_mul wh inv) (3 / 2) else f32_mul wh inv) (1 / 8)) with
            | error e => rfl
            | ok sv => rfl

theorem isNextAt_skip (s : List Char) (i : Nat) (ch : Char) :
    isNextAt s (skipSpaces s i) ch = isNextAt s i ch := by
  unfold isNextAt
  rw [skipSpaces_idem]

theorem isNextAt_false (s : List Char) (i : Nat) (ch : Char) (h : (isNextAt s i ch).1 = false) :
    (isNextAt s i ch).2 = skipSpaces s i ∧ s.getD (skipSpaces s i) NUL ≠ ch := by
  unfold isNextAt at h ⊢
  by_cases hc : s.getD (skipSpaces s i) NUL = ch
  · rw [if_pos hc] at h
    exact Bool.noConfusion h
  · rw [if_neg hc]
    exact ⟨rfl, hc⟩

theorem isNextAt_true (s : List Char) (i : Nat) (ch : Char) (h : (isNextAt s i ch).1 = true) :
    (isNextAt s i ch).2 = skipSpaces s i + 1 ∧ s.getD (skipSpaces s i) NUL = ch := by
  unfold isNextAt at h ⊢
  by_cases hc : s.getD (skipSpaces s i) NUL = ch
  · rw [if_pos hc]
    exact ⟨rfl, hc⟩
  · rw [if_neg hc] at h
    exact Bool.noConfusion h

theorem mml_parse_note_mk (pow : ℚ → ℚ → ℚ) (mf : ℚ) (s : List Char) (i : Nat) (key : Int)
    (hi : i ≤ s.length) (hk1 : -2147483648 ≤ key) (hk2 : key ≤ 2147483647) (lp : Bool)
    (t f : ℚ) (w : Waveform) (d sl tp oc dl : Int) :
    mml_parse_note pow mf ⟨some s, some i, lp, t, f, w, d, sl, tp, oc, dl⟩ key =
      match durationAt mf tp dl s (accidentalAt s i).2 with
      | .error e => .error e
      | .ok r => .ok ⟨some s, some r.2.2, lp, 0,
          keyFrequency pow (noteKey key (accidentalAt s i).1 oc), w, r.1, r.2.1, tp, oc, dl⟩ := by
  have hs := skipSpaces_le s i hi
  have hk0 : wrap32 (key + 0) = key := by rw [Int.add_zero]; exact wrap32_of_range hk1 hk2
  unfold mml_parse_note
  simp only [bind, Except.bind, pure, Except.pure, mml_is_next_mk s i '#' hi]
  by_cases h1 : (isNextAt s i '#').1 = true
  · obtain ⟨e1, c1⟩ := isNextAt_true s i '#' h1
    have ha : accidentalAt s i = (1, skipSpaces s i + 1) := by
      unfold accidentalAt; rw [if_pos c1]
    have hle : skipSpaces s i + 1 ≤ s.length := e1 ▸ isNextAt_le s i '#' (by decide) hi
    simp only [h1, if_true, ha, e1, mml_parse_duration_mk mf s _ hle, noteKey]
  · have h1f : (isNextAt s i '#').1 = false := by simpa using h1
    obtain ⟨e1, c1⟩ := isNextAt_false s i '#' h1f
    simp only [h1f, e1, mml_is_next_mk s _ '+' hs, isNextAt_skip, Bool.false_eq_true, if_false]
    by_cases h2 : (isNextAt s i '+').1 = true
    · obtain ⟨e2, c2⟩ := isNextAt_true s i '+' h2
      have ha : accidentalAt s i = (1, skipSpaces s i + 1) := by
        unfold accidentalAt; rw [if_neg c1, if_pos c2]
      have hle : skipSpaces s i + 1 ≤ s.length := e2 ▸ isNextAt_le s i '+' (by decide) hi
      simp only [h2, if_true, ha, e2, mml_parse_duration_mk mf s _ hle, noteKey]
    · have h2f : (isNextAt s i '+').1 = false := by simpa using h2
      obtain ⟨e2, c2⟩ := isNextAt_false s i '+' h2f
      simp only [h2f, e2, mml_is_next_mk s _ '-' hs, isNextAt_skip, Bool.false_eq_true, if_false]
      by_cases h3 : (isNextAt s i '-').1 = true
      · obtain ⟨e3, c3⟩ := isNextAt_true s i '-' h3
        have ha : accidentalAt s i = (-1, skipSpaces s i + 1) := by
          unfold accidentalAt; rw [if_neg c1, if_neg c2, if_pos c3]
        have hle : skipSpaces s i + 1 ≤ s.length := e3 ▸ isNextAt_le s i '-' (by decide) hi
        simp only [h3, if_true, ha, e3, mml_parse_duration_mk mf s _ hle, noteKey]
        rfl
      · have h3f : (isNextAt s i '-').1 = false := by simpa using h3
        obtain ⟨e3, c3⟩ := isNextAt_false s i '-' h3f
        have ha : accidentalAt s i = (0, skipSpaces s i) := by
          unfold accidentalAt; rw [if_neg c1, if_neg c2, if_neg c3]
        simp only [h3f, e3, Bool.false_eq_true, if_false, ha, mml_parse_duration_mk mf s _ hs,
          noteKey, hk0]

theorem mml_skip_spaces_mk (s : List Char) (i : Nat) (hi : i ≤ s.length) (lp : Bool)
    (t f : ℚ) (w : Waveform) (d sl tp oc dl : Int) :
    mml_skip_spaces ⟨some s, some i, lp, t, f, w, d, sl, tp, oc, dl⟩ =
      .ok ⟨some s, some (skipSpaces s i), lp, t, f, w, d, sl, tp, oc, dl⟩ :=
  mml_skip_spaces_at _ s i rfl rfl hi

theorem readInc_mk (s : List Char) (i : Nat) (hi : i ≤ s.length) (lp : Bool)
    (t f : ℚ) (w : Waveform) (d sl tp oc dl : Int) :
    readInc ⟨some s, some i, lp, t, f, w, d, sl, tp, oc, dl⟩ =
      .ok (s.getD i NUL, ⟨some s, some (i + 1), lp, t, f, w, d, sl, tp, oc, dl⟩) := by
  unfold readInc
  rw [peek_eq _ s i rfl rfl hi]
  rfl

theorem getD_ne_nul_lt (s : List Char) (j : Nat) (h : s.getD j NUL ≠ NUL) : j < s.length := by
  rcases Nat.lt_or_ge j s.length with h1 | h1
  · exact h1
  · exfalso
    apply h
    rw [List.getD_eq_getElem?_getD, List.getElem?_eq_none h1]
    rfl

theorem letterKey_range (ch : Char) (k : Int) (h : letterKey ch = some k) :
    -2147483648 ≤ k ∧ k ≤ 2147483647 := by
  unfold letterKey at h
  split_ifs at h <;> simp at h <;> omega

theorem note_step (pow : ℚ → ℚ → ℚ) (mf : ℚ) (s : List Char) (i : Nat) (key : Int)
    (hi : i ≤ s.length) (hk1 : -2147483648 ≤ key) (hk2 : key ≤ 2147483647) (lp : Bool)
    (t f : ℚ) (w : Waveform) (d sl tp oc dl : Int) :
    Step.ofReturn (mml_parse_note pow mf ⟨some s, some i, lp, t, f, w, d, sl, tp, oc, dl⟩ key) =
      match durationAt mf tp dl s (accidentalAt s i).2 with
      | .error e => .fail e
      | .ok r => .done ⟨some s, some r.2.2, lp, 0,
          keyFrequency pow (noteKey key (accidentalAt s i).1 oc), w, r.1, r.2.1, tp, oc, dl⟩ := by
  rw [mml_parse_note_mk pow mf s i key hi hk1 hk2]
  cases durationAt mf tp dl s (accidentalAt s i).2 <;> rfl

set_option maxHeartbeats 1000000 in
theorem mml_parse_iter_at (pow : ℚ → ℚ → ℚ) (mf : ℚ) (c : AudioChannel) (s : List Char) (i : Nat)
    (hsrc : c.source = some s) (hin : c.in_ = some i) (hi : i ≤ s.length) :
    mml_parse_iter pow mf c = iterAt pow mf c s i := by
  obtain ⟨src, cur, lp, t, f, w, d, sl, tp, oc, dl⟩ := c
  simp only at hsrc hin
  subst hsrc hin
  have hj := skipSpaces_le s i hi
  unfold mml_parse_iter iterAt
  simp only [mml_skip_spaces_mk s i hi, readInc_mk s _ hj]
  generalize hch : s.getD (skipSpaces s i) NUL = ch
  by_cases h0 : ch = NUL
  · simp only [h0, if_true]
    split <;> rfl
  · have hlt : skipSpaces s i + 1 ≤ s.length := getD_ne_nul_lt s _ (hch ▸ h0)
    simp only [h0, if_false, mml_parse_number_mk s _ hlt, mml_parse_duration_mk mf s _ hlt,
      readInc_mk s _ hlt,
      note_step pow mf s _ 4 hlt (by norm_num) (by norm_num),
      note_step pow mf s _ 6 hlt (by norm_num) (by norm_num),
      note_step pow mf s _ 8 hlt (by norm_num) (by norm_num),
      note_step pow mf s _ 9 hlt (by norm_num) (by norm_num),
      note_step pow mf s _ 11 hlt (by norm_num) (by norm_num),
      note_step pow mf s _ 13 hlt (by norm_num) (by norm_num),
      note_step pow mf s _ 15 hlt (by norm_num) (by norm_num)]
    by_cases hT : ch = 'T' ∨ ch = 't'
    · simp only [hT, if_true]
    simp only [hT, if_false]
    by_cases hL : ch = 'L' ∨ ch = 'l'
    · simp only [hL, if_true]
    simp only [hL, if_false]
    by_cases hO : ch = 'O' ∨ ch = 'o'
    · simp only [hO, if_true]
    simp only [hO, if_false]
    by_cases hlt1 : ch = '<'
    · simp only [hlt1, if_true]
    simp only [hlt1, if_false]
    by_cases hgt1 : ch = '>'
    · simp only [hgt1, if_true]
    simp only [hgt1, if_false]
    by_cases hR : ch = 'R' ∨ ch = 'r' ∨ ch = 'P' ∨ ch = 'p'
    · simp only [hR, if_true]
      cases durationAt mf tp dl s (skipSpaces s i + 1) <;> rfl
    simp only [hR, if_false]
    unfold letterKey
    by_cases hC : ch = 'C' ∨ ch = 'c'
    · simp only [hC, if_true]
    simp only [hC, if_false]
    by_cases hD : ch = 'D' ∨ ch = 'd'
    · simp only [hD, if_true]
    simp only [hD, if_false]
    by_cases hE : ch = 'E' ∨ ch = 'e'
    · simp only [hE, if_true]
    simp only [hE, if_false]
    by_cases hF : ch = 'F' ∨ ch = 'f'
    · simp only [hF, if_true]
    simp only [hF, if_false]
    by_cases hG : ch = 'G' ∨ ch = 'g'
    · simp only [hG, if_true]
    simp only [hG, if_false]
    by_cases hA : ch = 'A' ∨ ch = 'a'
    · simp only [hA, if_true]
    simp only [hA, if_false]
    by_cases hB : ch = 'B' ∨ ch = 'b'
    · simp only [hB, if_true]
    simp only [hB, if_false]

theorem log2Fuel_spec : ∀ fuel n : Nat, n ≤ fuel → n ≠ 0 →
    2 ^ log2Fuel fuel n ≤ n ∧ n < 2 ^ (log2Fuel fuel n + 1)
  | 0, n, h, h0 => absurd (Nat.le_zero.mp h) h0
  | fuel + 1, n, h, h0 => by
    unfold log2Fuel
    split
    · rename_i h2
      have ih := log2Fuel_spec fuel (n / 2) (by omega) (by omega)
      obtain ⟨l, u⟩ := ih
      constructor
      · rw [pow_succ]; omega
      · rw [pow_succ]; omega
    · constructor <;> simp <;> omega

theorem natLog2_spec (n : Nat) (h0 : n ≠ 0) : 2 ^ natLog2 n ≤ n ∧ n < 2 ^ (natLog2 n + 1) :=
  log2Fuel_spec n n (Nat.le_refl n) h0

theorem binade_spec (x : ℚ) (hx : x ≠ 0) :
    (2 : ℚ) ^ binade x ≤ |x| ∧ |x| < (2 : ℚ) ^ (binade x + 1) := by
  have hnum : x.num.natAbs ≠ 0 := by
    simpa using hx
  have hden : x.den ≠ 0 := x.den_nz
  obtain ⟨la, ua⟩ := natLog2_spec _ hnum
  obtain ⟨lb, ub⟩ := natLog2_spec _ hden
  have habs : |x| = (x.num.natAbs : ℚ) / (x.den : ℚ) := by
    have h1 : |x| = |(x.num : ℚ)| / |(x.den : ℚ)| := by
      rw [← abs_div, Rat.num_div_den]
    rw [h1, Nat.abs_cast, ← Int.cast_abs, Int.abs_eq_natAbs, Int.cast_natCast]
  have hdpos : (0 : ℚ) < x.den := by exact_mod_cast Nat.pos_of_ne_zero hden
  have la' : (2 : ℚ) ^ (natLog2 x.num.natAbs : Int) ≤ (x.num.natAbs : ℚ) := by
    rw [zpow_natCast]; exact_mod_cast la
  have ua' : (x.num.natAbs : ℚ) < (2 : ℚ) ^ ((natLog2 x.num.natAbs : Int) + 1) := by
    rw [show ((natLog2 x.num.natAbs : Int) + 1) = ((natLog2 x.num.natAbs + 1 : Nat) : Int) by simp,
      zpow_natCast]
    exact_mod_cast ua
  have lb' : (2 : ℚ) ^ (natLog2 x.den : Int) ≤ (x.den : ℚ) := by
    rw [zpow_natCast]; exact_mod_cast lb
  have ub' : (x.den : ℚ) < (2 : ℚ) ^ ((natLog2 x.den : Int) + 1) := by
    rw [show ((natLog2 x.den : Int) + 1) = ((natLog2 x.den + 1 : Nat) : Int) by simp, zpow_natCast]
    exact_mod_cast ub
  unfold binade
  simp only
  generalize (natLog2 x.num.natAbs : Int) = a at la' ua' ⊢
  generalize (natLog2 x.den : Int) = b at lb' ub' ⊢
  have h2 : (0 : ℚ) < 2 := by norm_num
  have hpb : (0 : ℚ) < (2 : ℚ) ^ b := zpow_pos h2 b
  have hpb1 : (0 : ℚ) < (2 : ℚ) ^ (b + 1) := zpow_pos h2 _
  -- 2^(a-b-1) < |x| < 2^(a-b+1)
  have lower : (2 : ℚ) ^ (a - b - 1) < |x| := by
    rw [habs, lt_div_iff₀ hdpos]
    calc (2 : ℚ) ^ (a - b - 1) * x.den < (2 : ℚ) ^ (a - b - 1) * (2 : ℚ) ^ (b + 1) := by
          apply mul_lt_mul_of_pos_left ub' (zpow_pos h2 _)
      _ = (2 : ℚ) ^ a := by rw [← zpow_add₀ (by norm_num : (2 : ℚ) ≠ 0)]; congr 1; ring
      _ ≤ x.num.natAbs := la'
  have upper : |x| < (2 : ℚ) ^ (a - b + 1) := by
    rw [habs, div_lt_iff₀ hdpos]
    calc (x.num.natAbs : ℚ) < (2 : ℚ) ^ (a + 1) := ua'
      _ = (2 : ℚ) ^ (a - b + 1) * (2 : ℚ) ^ b := by
          rw [← zpow_add₀ (by norm_num : (2 : ℚ) ≠ 0)]; congr 1; ring
      _ ≤ (2 : ℚ) ^ (a - b + 1) * x.den := by
          apply mul_le_mul_of_nonneg_left lb' (le_of_lt (zpow_pos h2 _))
  split
  · rename_i h
    exact ⟨h, upper⟩
  · rename_i h
    refine ⟨le_of_lt lower, ?_⟩
    rw [show a - b - 1 + 1 = a - b by ring]
    exact lt_of_not_le h

theorem roundEven_intCast (n : Int) : roundEven (n : ℚ) = n := by
  unfold roundEven
  simp

theorem roundEven_sub_le (x : ℚ) : |(roundEven x : ℚ) - x| ≤ 1 / 2 := by
  have h1 := Int.floor_le x
  have h2 := Int.lt_floor_add_one x
  unfold roundEven
  simp only
  split_ifs with ha hb hc
  · rw [abs_le]; constructor <;> linarith
  · rw [abs_le]; push_cast; constructor <;> linarith
  · have : x - ⌊x⌋ = 1 / 2 := le_antisymm (not_lt.mp hb) (not_lt.mp ha)
    rw [abs_le]; constructor <;> linarith
  · have : x - ⌊x⌋ = 1 / 2 := le_antisymm (not_lt.mp hb) (not_lt.mp ha)
    rw [abs_le]; push_cast; constructor <;> linarith

theorem ulp_pos (p : Nat) (emin : Int) (x : ℚ) : 0 < ulp p emin x :=
  zpow_pos (by norm_num) _

theorem roundTo_eq (p : Nat) (emin : Int) (x : ℚ) (hx : x ≠ 0) :
    roundTo p emin x = roundEven (x / ulp p emin x) * ulp p emin x := by
  unfold roundTo ulp
  rw [if_neg hx]

theorem roundTo_sub_le (p : Nat) (emin : Int) (x : ℚ) (hx : x ≠ 0) :
    |roundTo p emin x - x| ≤ ulp p emin x / 2 := by
  have hq := ulp_pos p emin x
  rw [roundTo_eq p emin x hx]
  have h := roundEven_sub_le (x / ulp p emin x)
  have e : (roundEven (x / ulp p emin x) : ℚ) * ulp p emin x - x =
      ((roundEven (x / ulp p emin x) : ℚ) - x / ulp p emin x) * ulp p emin x := by
    field_simp
  rw [e, abs_mul, abs_of_pos hq]
  calc |(roundEven (x / ulp p emin x) : ℚ) - x / ulp p emin x| * ulp p emin x
      ≤ 1 / 2 * ulp p emin x := mul_le_mul_of_nonneg_right h (le_of_lt hq)
    _ = ulp p emin x / 2 := by ring

theorem binade_ge_of_le (x : ℚ) (e : Int) (h : (2 : ℚ) ^ e ≤ |x|) : e ≤ binade x := by
  have hx : x ≠ 0 := by
    intro h0
    rw [h0, abs_zero] at h
    exact absurd h (not_le.mpr (zpow_pos (by norm_num) e))
  have h2 := (binade_spec x hx).2
  have h3 : (2 : ℚ) ^ e < (2 : ℚ) ^ (binade x + 1) := lt_of_le_of_lt h h2
  have := (zpow_lt_zpow_iff_right₀ (by norm_num : (1 : ℚ) < 2)).mp h3
  omega

theorem binade_lt_of_lt (x : ℚ) (e : Int) (hx : x ≠ 0) (h : |x| < (2 : ℚ) ^ e) : binade x < e := by
  have h1 := (binade_spec x hx).1
  have h3 : (2 : ℚ) ^ binade x < (2 : ℚ) ^ e := lt_of_le_of_lt h1 h
  exact (zpow_lt_zpow_iff_right₀ (by norm_num : (1 : ℚ) < 2)).mp h3

/-- The relative error of rounding to single precision in the normal range. -/
theorem f32_rel_error (x : ℚ) (hx : (2 : ℚ) ^ (-126 : Int) ≤ |x|) :
    |f32 x - x| ≤ |x| / 16777216 := by
  have hx0 : x ≠ 0 := by
    intro h0
    rw [h0, abs_zero] at hx
    exact absurd hx (not_le.mpr (zpow_pos (by norm_num) _))
  have hb : (-126 : Int) ≤ binade x := binade_ge_of_le x _ hx
  have h := roundTo_sub_le 24 (-126) x hx0
  have hu : ulp 24 (-126) x = (2 : ℚ) ^ binade x / 8388608 := by
    unfold ulp
    rw [max_eq_left hb, zpow_sub₀ (by norm_num : (2 : ℚ) ≠ 0)]
    norm_num
  have hl := (binade_spec x hx0).1
  unfold f32
  calc |roundTo 24 (-126) x - x| ≤ ulp 24 (-126) x / 2 := h
    _ = (2 : ℚ) ^ binade x / 16777216 := by rw [hu]; ring
    _ ≤ |x| / 16777216 := by
      apply div_le_div_of_nonneg_right hl (by norm_num)

theorem f32_of_isF32 (x : ℚ) (h : IsF32 x) : f32 x = x := by
  obtain ⟨m, k, hm, hk, rfl⟩ := h
  by_cases hx : (m : ℚ) * (2 : ℚ) ^ k = 0
  · rw [hx]; exact roundTo_zero _ _
  unfold f32
  rw [roundTo_eq _ _ _ hx]
  have h2 : (2 : ℚ) ≠ 0 := by norm_num
  have hm0 : (m : ℚ) ≠ 0 := fun h => hx (by rw [h, zero_mul])
  -- the binade is below `k + 24`
  have hlt : |(m : ℚ) * (2 : ℚ) ^ k| < (2 : ℚ) ^ (k + 24) := by
    rw [abs_mul, abs_of_pos (zpow_pos (by norm_num : (0 : ℚ) < 2) k), zpow_add₀ h2, mul_comm]
    apply mul_lt_mul_of_pos_left _ (zpow_pos (by norm_num) k)
    have : |(m : ℚ)| < 16777216 := by exact_mod_cast hm
    calc |(m : ℚ)| < 16777216 := this
      _ = (2 : ℚ) ^ (24 : Int) := by norm_num
  have hb := binade_lt_of_lt _ _ hx hlt
  have hd : max (binade ((m : ℚ) * (2 : ℚ) ^ k)) (-126) - ((24 - 1 : Nat) : Int) ≤ k := by
    have : ((24 - 1 : Nat) : Int) = 23 := by norm_num
    rw [this]
    rcases max_cases (binade ((m : ℚ) * (2 : ℚ) ^ k)) (-126) with ⟨e, _⟩ | ⟨e, _⟩ <;> rw [e] <;> omega
  unfold ulp
  generalize max (binade ((m : ℚ) * (2 : ℚ) ^ k)) (-126) - ((24 - 1 : Nat) : Int) = j at hd
  obtain ⟨n, hn⟩ : ∃ n : Nat, k = j + n := ⟨(k - j).toNat, by omega⟩
  have e1 : (m : ℚ) * (2 : ℚ) ^ k / (2 : ℚ) ^ j = ((m * 2 ^ n : Int) : ℚ) := by
    rw [hn, zpow_add₀ h2, zpow_natCast]
    have : (2 : ℚ) ^ j ≠ 0 := zpow_ne_zero _ h2
    field_simp
    ring
  rw [e1, roundEven_intCast, hn, zpow_add₀ h2, zpow_natCast]
  push_cast
  ring

theorem roundEven_abs_le (x : ℚ) (n : Int) (h : |x| ≤ n) : |roundEven x| ≤ n := by
  have hn : (0 : ℚ) ≤ n := le_trans (abs_nonneg x) h
  have h1 := Int.floor_le x
  have h2 := Int.lt_floor_add_one x
  obtain ⟨hl, hu⟩ := abs_le.mp h
  have hfl : -n ≤ ⌊x⌋ := by
    apply Int.le_floor.mpr
    push_cast
    exact hl
  have hfu : ⌊x⌋ ≤ n := by
    have : (⌊x⌋ : ℚ) ≤ n := le_trans h1 hu
    exact_mod_cast this
  unfold roundEven
  simp only
  split_ifs with ha hb hc
  · exact abs_le.mpr ⟨hfl, hfu⟩
  · -- fractional part above one half: the floor is below `n`
    have : (⌊x⌋ : ℚ) < n := by linarith
    have : ⌊x⌋ < n := by exact_mod_cast this
    exact abs_le.mpr ⟨by omega, by omega⟩
  · exact abs_le.mpr ⟨hfl, hfu⟩
  · have hr : x - ⌊x⌋ = 1 / 2 := le_antisymm (not_lt.mp hb) (not_lt.mp ha)
    have : (⌊x⌋ : ℚ) < n := by linarith
    have : ⌊x⌋ < n := by exact_mod_cast this
    exact abs_le.mpr ⟨by omega, by omega⟩

theorem f32_isF32 (y : ℚ) : IsF32 (f32 y) := by
  by_cases hy : y = 0
  · rw [hy, f32_zero]
    exact ⟨0, 0, by norm_num, by norm_num, by simp⟩
  have h2 : (2 : ℚ) ≠ 0 := by norm_num
  have hs := (binade_spec y hy).2
  unfold f32
  rw [roundTo_eq _ _ _ hy]
  have hq := ulp_pos 24 (-126) y
  -- the scaled value is below `2 ^ 24` in magnitude
  have hk : ((24 - 1 : Nat) : Int) = 23 := by norm_num
  have hle : |y / ulp 24 (-126) y| ≤ ((16777216 : Int) : ℚ) := by
    rw [abs_div, abs_of_pos hq, div_le_iff₀ hq]
    unfold ulp
    rw [hk]
    have : (((16777216 : Int) : ℚ)) * (2 : ℚ) ^ (max (binade y) (-126) - 23) =
        (2 : ℚ) ^ (max (binade y) (-126) + 1) := by
      rw [zpow_sub₀ h2, zpow_add₀ h2]
      norm_num
      ring
    rw [this]
    apply le_of_lt
    apply lt_of_lt_of_le hs
    apply zpow_le_zpow_right₀ (by norm_num)
    have := le_max_left (binade y) (-126)
    omega
  have hm := roundEven_abs_le _ _ hle
  have hkk : -149 ≤ max (binade y) (-126) - ((24 - 1 : Nat) : Int) := by
    rw [hk]
    have := le_max_right (binade y) (-126)
    omega
  unfold ulp at hm ⊢
  generalize max (binade y) (-126) - ((24 - 1 : Nat) : Int) = j at hm hkk ⊢
  generalize roundEven (y / (2 : ℚ) ^ j) = m at hm ⊢
  by_cases hlt : |m| < 16777216
  · exact ⟨m, j, hlt, hkk, rfl⟩
  · have habs : |m| = 16777216 := le_antisymm hm (not_lt.mp hlt)
    rcases abs_eq (by norm_num : (0 : Int) ≤ 16777216) |>.mp habs with e | e
    · refine ⟨1, j + 24, by norm_num, by omega, ?_⟩
      rw [e, zpow_add₀ h2]
      norm_num
      ring
    · refine ⟨-1, j + 24, by norm_num, by omega, ?_⟩
      rw [e, zpow_add₀ h2]
      norm_num
      ring

theorem two_zpow_neg_126_le : (2 : ℚ) ^ (-126 : Int) ≤ 1 / 10 ^ 37 := by
  rw [zpow_neg, zpow_ofNat]
  norm_num

/-- Rounding to single precision keeps a positive normal value within a thousandth. -/
theorem f32_between (x lo hi : ℚ) (hlo : 1 / 10 ^ 37 ≤ lo) (h1 : lo ≤ x) (h2 : x ≤ hi) :
    lo * (999 / 1000) ≤ f32 x ∧ f32 x ≤ hi * (1001 / 1000) := by
  have hpos : 0 < lo := lt_of_lt_of_le (by norm_num) hlo
  have hx : 0 < x := lt_of_lt_of_le hpos h1
  have hn : (2 : ℚ) ^ (-126 : Int) ≤ |x| := by
    rw [abs_of_pos hx]
    exact le_trans two_zpow_neg_126_le (le_trans hlo h1)
  have h := f32_rel_error x hn
  rw [abs_of_pos hx] at h
  obtain ⟨l, u⟩ := abs_le.mp h
  constructor
  · nlinarith
  · nlinarith

theorem floor_div_eight (x : ℚ) : ⌊x / 8⌋ = ⌊x⌋ / 8 := by
  rw [Int.floor_eq_iff]
  have h1 := Int.floor_le x
  have h2 := Int.lt_floor_add_one x
  have hd : (8 : Int) * (⌊x⌋ / 8) ≤ ⌊x⌋ := Int.mul_ediv_self_le (by norm_num)
  have hm : ⌊x⌋ < 8 * (⌊x⌋ / 8) + 8 := by
    have := Int.lt_ediv_add_one_mul_self ⌊x⌋ (by norm_num : (0 : Int) < 8)
    linarith
  have hd' : (8 : ℚ) * ((⌊x⌋ / 8 : Int) : ℚ) ≤ (⌊x⌋ : ℚ) := by exact_mod_cast hd
  have hm' : (⌊x⌋ : ℚ) + 1 ≤ 8 * ((⌊x⌋ / 8 : Int) : ℚ) + 8 := by exact_mod_cast hm
  constructor
  · linarith
  · linarith

theorem trunc_of_nonneg (x : ℚ) (h : 0 ≤ x) : trunc x = ⌊x⌋ := by
  unfold trunc
  rw [if_pos h]

theorem trunc_div_eight (x : ℚ) (h : 0 ≤ x) : trunc (x / 8) = trunc x / 8 := by
  rw [trunc_of_nonneg x h, trunc_of_nonneg (x / 8) (by positivity), floor_div_eight]

theorem trunc_nonneg (x : ℚ) (h : 0 ≤ x) : 0 ≤ trunc x := by
  rw [trunc_of_nonneg x h]
  exact Int.floor_nonneg.mpr h

theorem trunc_le (x : ℚ) (n : Int) (h0 : 0 ≤ x) (h : x ≤ n) : trunc x ≤ n := by
  rw [trunc_of_nonneg x h0]
  exact Int.floor_le_iff.mpr (by linarith [Int.lt_floor_add_one x, Int.floor_le x] : x < n + 1)

theorem f32_to_int_of_range (x : ℚ) (h0 : 0 ≤ x) (h : x ≤ 2147483647) :
    f32_to_int x = .ok (trunc x) := by
  have h1 := trunc_nonneg x h0
  have h2 := trunc_le x 2147483647 h0 (by exact_mod_cast h)
  unfold f32_to_int
  simp only
  rw [if_pos ⟨by omega, h2⟩]

/-- An eighth of a single precision number that is not tiny is a single precision number. -/
theorem isF32_div_eight (x : ℚ) (h : IsF32 x) (hx : 1 / 10 ^ 30 ≤ x) : IsF32 (x / 8) := by
  obtain ⟨m, k, hm, hk, rfl⟩ := h
  have h2 : (2 : ℚ) ≠ 0 := by norm_num
  refine ⟨m, k - 3, hm, ?_, ?_⟩
  · -- `m * 2 ^ k ≥ 10 ^ (-30)` with `m < 2 ^ 24` forces `k` well above `-146`
    by_contra hcon
    have hk2 : k ≤ -147 := by omega
    have hp : (2 : ℚ) ^ k ≤ (2 : ℚ) ^ (-147 : Int) :=
      zpow_le_zpow_right₀ (by norm_num) hk2
    have hm' : (m : ℚ) < 16777216 := by
      have : m < 16777216 := lt_of_le_of_lt (le_abs_self m) hm
      exact_mod_cast this
    have hpk : (0 : ℚ) < (2 : ℚ) ^ k := zpow_pos (by norm_num) k
    have hsmall : (2 : ℚ) ^ (-147 : Int) * 16777216 < 1 / 10 ^ 30 := by
      rw [zpow_neg, zpow_ofNat]
      norm_num
    have hmpos : (0 : ℚ) < m := by
      by_contra hneg
      have : (m : ℚ) * (2 : ℚ) ^ k ≤ 0 :=
        mul_nonpos_of_nonpos_of_nonneg (not_lt.mp hneg) (le_of_lt hpk)
      have : (1 : ℚ) / 10 ^ 30 ≤ 0 := le_trans hx this
      norm_num at this
    have : (m : ℚ) * (2 : ℚ) ^ k < 1 / 10 ^ 30 := by
      calc (m : ℚ) * (2 : ℚ) ^ k ≤ (m : ℚ) * (2 : ℚ) ^ (-147 : Int) :=
            mul_le_mul_of_nonneg_left hp (le_of_lt hmpos)
        _ ≤ 16777216 * (2 : ℚ) ^ (-147 : Int) :=
            mul_le_mul_of_nonneg_right (le_of_lt hm') (le_of_lt (zpow_pos (by norm_num) _))
        _ = (2 : ℚ) ^ (-147 : Int) * 16777216 := by ring
        _ < 1 / 10 ^ 30 := hsmall
    exact absurd hx (not_le.mpr this)
  · rw [zpow_sub₀ h2]
    norm_num
    ring

theorem f32_int_bounds (n : Int) (h1 : 1 ≤ n) (h2 : n ≤ 2147483647) :
    999 / 1000 ≤ f32 n ∧ f32 n ≤ 2149631131 := by
  have hl : (1 : ℚ) ≤ n := by exact_mod_cast h1
  have hu : (n : ℚ) ≤ 2147483647 := by exact_mod_cast h2
  have := f32_between (n : ℚ) 1 2147483647 (by norm_num) hl hu
  constructor
  · linarith [this.1]
  · linarith [this.2]

theorem noteSamples_bounds (mf : ℚ) (T n : Int) (hmf1 : 1 ≤ mf) (hmf2 : mf ≤ 1000000)
    (hT1 : 1 ≤ T) (hT2 : T ≤ 2147483647) (hn1 : 1 ≤ n) (hn2 : n ≤ 2147483647) :
    f32 n ≠ 0 ∧ f32 (f32_mul (f32 T) (1 / 4) / 60) ≠ 0 ∧
    1 / 10 ^ 20 ≤ noteSamples mf T n ∧ noteSamples mf T n ≤ 250000000 := by
  obtain ⟨tl, tu⟩ := f32_int_bounds T hT1 hT2
  obtain ⟨nl, nu⟩ := f32_int_bounds n hn1 hn2
  -- T * 0.25f
  obtain ⟨ql, qu⟩ := f32_between (f32 T * (1 / 4)) (249 / 1000) 537407783 (by norm_num)
    (by linarith) (by linarith)
  -- ... / 60.0f
  obtain ⟨bl, bu⟩ := f32_between (f32 (f32 T * (1 / 4)) / 60) (41 / 10000) 8965754 (by norm_num)
    (by rw [le_div_iff₀ (by norm_num)]; linarith) (by rw [div_le_iff₀ (by norm_num)]; linarith)
  have bpos : 0 < f32 (f32 (f32 T * (1 / 4)) / 60) := by linarith
  -- mixing_frequency / ...
  obtain ⟨wl, wu⟩ := f32_between (mf / f32 (f32 (f32 T * (1 / 4)) / 60)) (1 / 10 ^ 7) 244200000
    (by norm_num)
    (by rw [le_div_iff₀ bpos]; nlinarith)
    (by rw [div_le_iff₀ bpos]; nlinarith)
  have npos : 0 < f32 n := by linarith
  -- 1.0f / n
  obtain ⟨il, iu⟩ := f32_between (1 / f32 n) (1 / 10 ^ 10) (1002 / 1000) (by norm_num)
    (by rw [le_div_iff₀ npos]; nlinarith)
    (by rw [div_le_iff₀ npos]; nlinarith)
  have wpos : 0 < f32 (mf / f32 (f32 (f32 T * (1 / 4)) / 60)) := by linarith
  have ipos : 0 < f32 (1 / f32 n) := by linarith
  obtain ⟨vl, vu⟩ := f32_between
    (f32 (mf / f32 (f32 (f32 T * (1 / 4)) / 60)) * f32 (1 / f32 n)) (1 / 10 ^ 19) 245200000
    (by norm_num) (by nlinarith) (by nlinarith)
  refine ⟨ne_of_gt npos, ne_of_gt bpos, ?_, ?_⟩
  · unfold noteSamples f32_mul
    linarith
  · unfold noteSamples f32_mul
    linarith

theorem dottedSamples_bounds (mf : ℚ) (T n : Int) (dot : Bool) (hmf1 : 1 ≤ mf)
    (hmf2 : mf ≤ 1000000) (hT1 : 1 ≤ T) (hT2 : T ≤ 2147483647) (hn1 : 1 ≤ n)
    (hn2 : n ≤ 2147483647) :
    IsF32 (dottedSamples mf T n dot) ∧ 1 / 10 ^ 30 ≤ dottedSamples mf T n dot ∧
      dottedSamples mf T n dot ≤ 400000000 := by
  obtain ⟨_, _, vl, vu⟩ := noteSamples_bounds mf T n hmf1 hmf2 hT1 hT2 hn1 hn2
  unfold dottedSamples
  cases dot with
  | false =>
    simp only [Bool.false_eq_true, if_false]
    refine ⟨f32_isF32 _, by linarith [show (1 : ℚ) / 10 ^ 30 ≤ 1 / 10 ^ 20 by norm_num], by linarith⟩
  | true =>
    simp only [if_true]
    obtain ⟨dl, du⟩ := f32_between (noteSamples mf T n * (3 / 2)) (1 / 10 ^ 20) 375000000
      (by norm_num) (by linarith) (by linarith)
    refine ⟨f32_isF32 _, ?_, ?_⟩
    · unfold f32_mul
      linarith [show (1 : ℚ) / 10 ^ 30 ≤ 1 / 10 ^ 20 * (999 / 1000) by norm_num]
    · unfold f32_mul
      linarith

theorem f32_intCast_eq_zero (n : Int) (h : n = 0 ∨ 1 ≤ n) (h2 : n ≤ 2147483647) :
    f32 (n : ℚ) = 0 ↔ n = 0 := by
  constructor
  · intro hf
    rcases h with h | h
    · exact h
    · have := (f32_int_bounds n h h2).1
      rw [hf] at this
      norm_num at this
  · intro hn
    rw [hn, Int.cast_zero, f32_zero]

/-- With a positive tempo and a positive note length the float `duration` of
`mml_parse_duration` is the single precision value `dottedSamples`, and no division
by zero occurs. -/
theorem durationValue_eq (mf : ℚ) (T dl lit : Int) (dot : Bool) (hmf1 : 1 ≤ mf)
    (hmf2 : mf ≤ 1000000) (hT1 : 1 ≤ T) (hT2 : T ≤ 2147483647) (hlit : lit = 0 ∨ 1 ≤ lit)
    (hlit2 : lit ≤ 2147483647) (hn1 : 1 ≤ (if lit = 0 then dl else lit))
    (hn2 : (if lit = 0 then dl else lit) ≤ 2147483647) :
    durationValue mf T dl lit dot = .ok (dottedSamples mf T (if lit = 0 then dl else lit) dot) := by
  obtain ⟨hnz, hbz, _, _⟩ := noteSamples_bounds mf T _ hmf1 hmf2 hT1 hT2 hn1 hn2
  have hlen : (if f32 (lit : ℚ) = 0 then f32 (dl : ℚ) else f32 (lit : ℚ)) =
      f32 ((if lit = 0 then dl else lit : Int) : ℚ) := by
    by_cases h0 : lit = 0
    · rw [if_pos h0, if_pos ((f32_intCast_eq_zero lit hlit hlit2).mpr h0)]
    · rw [if_neg h0, if_neg (fun h => h0 ((f32_intCast_eq_zero lit hlit hlit2).mp h))]
  unfold durationValue
  simp only [bind, Except.bind, pure, Except.pure, hlen]
  unfold f32_div
  rw [if_neg (by norm_num : (60 : ℚ) ≠ 0)]
  simp only
  unfold f32_mul at hbz ⊢
  rw [if_neg hbz]
  simp only
  rw [if_neg hnz]
  simp only [dottedSamples, noteSamples, f32_mul]

/-- With a positive tempo and note length `mml_parse_duration` computes, without
fault, the truncated single precision length as duration and an eighth of it, or `0`
after a tie mark, as silence. -/
theorem durationAt_eq (mf : ℚ) (T dl : Int) (s : List Char) (i : Nat) (hmf1 : 1 ≤ mf)
    (hmf2 : mf ≤ 1000000) (hT1 : 1 ≤ T) (hT2 : T ≤ 2147483647)
    (hn1 : 1 ≤ effectiveLength dl (durationTextAt s i).lit)
    (hn2 : effectiveLength dl (durationTextAt s i).lit ≤ 2147483647) :
    durationAt mf T dl s i =
      .ok (trunc (dottedSamples mf T (effectiveLength dl (durationTextAt s i).lit)
              (durationTextAt s i).dot),
           if (durationTextAt s i).tie then 0
           else trunc (dottedSamples mf T (effectiveLength dl (durationTextAt s i).lit)
              (durationTextAt s i).dot) / 8,
           (durationTextAt s i).stop) := by
  unfold effectiveLength durationTextAt at *
  simp only at hn1 hn2 ⊢
  have hlit : (numberAt s i).1 = 0 ∨ 1 ≤ (numberAt s i).1 := by
    by_cases h0 : (numberAt s i).1 = 0
    · exact Or.inl h0
    · rw [if_neg h0] at hn1
      exact Or.inr hn1
  have hlit2 : (numberAt s i).1 ≤ 2147483647 := by
    by_cases h0 : (numberAt s i).1 = 0
    · rw [h0]; norm_num
    · rw [if_neg h0] at hn2
      exact hn2
  obtain ⟨hf, hl, hu⟩ := dottedSamples_bounds mf T _ (isNextAt s (numberAt s i).2 '.').1
    hmf1 hmf2 hT1 hT2 hn1 hn2
  have hv0 : 0 ≤ dottedSamples mf T (if (numberAt s i).1 = 0 then dl else (numberAt s i).1)
      (isNextAt s (numberAt s i).2 '.').1 := le_trans (by norm_num) hl
  have h8 := f32_of_isF32 _ (isF32_div_eight _ hf hl)
  unfold durationAt
  simp only [bind, Except.bind, pure, Except.pure,
    durationValue_eq mf T dl _ _ hmf1 hmf2 hT1 hT2 hlit hlit2 hn1 hn2,
    f32_to_int_of_range _ hv0 (by linarith)]
  split
  · rfl
  · unfold f32_mul
    rw [show ∀ x : ℚ, x * (1 / 8) = x / 8 from fun x => by ring, h8,
      f32_to_int_of_range _ (by positivity) (by linarith), trunc_div_eight _ hv0]

theorem letterKey_some (ch : Char) (key : Int) (h : letterKey ch = some key) :
    ch ∈ ['C', 'c', 'D', 'd', 'E', 'e', 'F', 'f', 'G', 'g', 'A', 'a', 'B', 'b'] := by
  unfold letterKey at h
  simp only [List.mem_cons, List.mem_singleton, List.not_mem_nil, or_false]
  split_ifs at h with h1 h2 h3 h4 h5 h6 h7
  · rcases h1 with h | h <;> simp [h]
  · rcases h2 with h | h <;> simp [h]
  · rcases h3 with h | h <;> simp [h]
  · rcases h4 with h | h <;> simp [h]
  · rcases h5 with h | h <;> simp [h]
  · rcases h6 with h | h <;> simp [h]
  · rcases h7 with h | h <;> simp [h]

theorem iterAt_note (pow : ℚ → ℚ → ℚ) (mf : ℚ) (c : AudioChannel) (s : List Char) (i : Nat)
    (key : Int) (hkey : letterKey (s.getD (skipSpaces s i) NUL) = some key) :
    iterAt pow mf c s i =
      match durationAt mf c.tempo c.default_length s (accidentalAt s (skipSpaces s i + 1)).2 with
      | .error e => .fail e
      | .ok r =>
        .done { c with
          in_ := some r.2.2, t := 0
          frequency := keyFrequency pow (noteKey key (accidentalAt s (skipSpaces s i + 1)).1 c.octave)
          duration := r.1, silence := r.2.1 } := by
  have hmem := letterKey_some _ _ hkey
  unfold iterAt
  simp only
  generalize s.getD (skipSpaces s i) NUL = ch at hkey hmem
  simp only [List.mem_cons, List.mem_singleton, List.not_mem_nil, or_false] at hmem
  rcases hmem with h | h | h | h | h | h | h | h | h | h | h | h | h | h <;> subst h <;>
    (rw [hkey]; simp [NUL])

theorem iterAt_rest (pow : ℚ → ℚ → ℚ) (mf : ℚ) (c : AudioChannel) (s : List Char) (i : Nat)
    (hrest : isRestChar (s.getD (skipSpaces s i) NUL) = true) :
    iterAt pow mf c s i =
      match durationAt mf c.tempo c.default_length s (skipSpaces s i + 1) with
      | .error e => .fail e
      | .ok r => .done { c with in_ := some r.2.2, duration := r.1, silence := r.1 } := by
  unfold iterAt
  simp only
  generalize s.getD (skipSpaces s i) NUL = ch at hrest
  unfold isRestChar at hrest
  simp only [Bool.or_eq_true, decide_eq_true_eq] at hrest
  rcases hrest with ((h | h) | h) | h <;> subst h <;> simp [NUL]

theorem parse_next_at (pow : ℚ → ℚ → ℚ) (mf : ℚ) (fuel : Nat) (c : AudioChannel) (s : List Char)
    (i : Nat) (hsrc : c.source = some s) (hin : c.in_ = some i) (hi : i ≤ s.length) :
    mml_parse_next pow mf (fuel + 1) c =
      match iterAt pow mf c s i with
      | .next c1 => mml_parse_next pow mf fuel c1
      | .done c1 => some (.ok c1)
      | .fail f => some (.error f) := by
  rw [parse_next_succ, mml_parse_iter_at pow mf c s i hsrc hin hi]

/-- The result of a parser invocation with the cursor at a note letter, for a
positive tempo and note length. -/
theorem parse_note_result (pow : ℚ → ℚ → ℚ) (mf : ℚ) (fuel : Nat) (c : AudioChannel)
    (s : List Char) (i : Nat) (key : Int) (hsrc : c.source = some s) (hin : c.in_ = some i)
    (hi : i ≤ s.length) (hkey : letterKey (s.getD (skipSpaces s i) NUL) = some key)
    (hmf1 : 1 ≤ mf) (hmf2 : mf ≤ 1000000) (hT1 : 1 ≤ c.tempo) (hT2 : c.tempo ≤ 2147483647)
    (hn1 : 1 ≤ effectiveLength c.default_length
      (durationTextAt s (accidentalAt s (skipSpaces s i + 1)).2).lit)
    (hn2 : effectiveLength c.default_length
      (durationTextAt s (accidentalAt s (skipSpaces s i + 1)).2).lit ≤ 2147483647) :
    mml_parse_next pow mf (fuel + 1) c = some (.ok { c with
      in_ := some (durationTextAt s (accidentalAt s (skipSpaces s i + 1)).2).stop
      t := 0
      frequency := keyFrequency pow (noteKey key (accidentalAt s (skipSpaces s i + 1)).1 c.octave)
      duration := trunc (dottedSamples mf c.tempo
        (effectiveLength c.default_length
          (durationTextAt s (accidentalAt s (skipSpaces s i + 1)).2).lit)
        (durationTextAt s (accidentalAt s (skipSpaces s i + 1)).2).dot)
      silence :=
        if (durationTextAt s (accidentalAt s (skipSpaces s i + 1)).2).tie then 0
        else trunc (dottedSamples mf c.tempo
          (effectiveLength c.default_length
            (durationTextAt s (accidentalAt s (skipSpaces s i + 1)).2).lit)
          (durationTextAt s (accidentalAt s (skipSpaces s i + 1)).2).dot) / 8 }) := by
  rw [parse_next_at pow mf fuel c s i hsrc hin hi, iterAt_note pow mf c s i key hkey,
    durationAt_eq mf c.tempo c.default_length s _ hmf1 hmf2 hT1 hT2 hn1 hn2]

/-- The result of a parser invocation with the cursor at a rest command, for a
positive tempo and note length. -/
theorem parse_rest_result (pow : ℚ → ℚ → ℚ) (mf : ℚ) (fuel : Nat) (c : AudioChannel)
    (s : List Char) (i : Nat) (hsrc : c.source = some s) (hin : c.in_ = some i)
    (hi : i ≤ s.length) (hrest : isRestChar (s.getD (skipSpaces s i) NUL) = true)
    (hmf1 : 1 ≤ mf) (hmf2 : mf ≤ 1000000) (hT1 : 1 ≤ c.tempo) (hT2 : c.tempo ≤ 2147483647)
    (hn1 : 1 ≤ effectiveLength c.default_length (durationTextAt s (skipSpaces s i + 1)).lit)
    (hn2 : effectiveLength c.default_length (durationTextAt s (skipSpaces s i + 1)).lit
      ≤ 2147483647) :
    mml_parse_next pow mf (fuel + 1) c = some (.ok { c with
      in_ := some (durationTextAt s (skipSpaces s i + 1)).stop
      duration := trunc (dottedSamples mf c.tempo
        (effectiveLength c.default_length (durationTextAt s (skipSpaces s i + 1)).lit)
        (durationTextAt s (skipSpaces s i + 1)).dot)
      silence := trunc (dottedSamples mf c.tempo
        (effectiveLength c.default_length (durationTextAt s (skipSpaces s i + 1)).lit)
        (durationTextAt s (skipSpaces s i + 1)).dot) }) := by
  rw [parse_next_at pow mf fuel c s i hsrc hin hi, iterAt_rest pow mf c s i hrest,
    durationAt_eq mf c.tempo c.default_length s _ hmf1 hmf2 hT1 hT2 hn1 hn2]

theorem run_next (pow : ℚ → ℚ → ℚ) (mf : ℚ) (fuel : Nat) (c c1 : AudioChannel) (s : List Char)
    (i : Nat) (hsrc : c.source = some s) (hin : c.in_ = some i) (hi : i ≤ s.length)
    (h : iterAt pow mf c s i = .next c1) :
    mml_parse_next pow mf (fuel + 1) c = mml_parse_next pow mf fuel c1 := by
  rw [parse_next_at pow mf fuel c s i hsrc hin hi, h]

/-- C10: a note parsed at a positive tempo and note length is stored with silence 0
when a tie mark follows its duration, and otherwise with silence equal to its
stored duration divided by 8, dotted or not; the stored duration is not negative. -/
theorem note_silence_eighth_or_tied (pow : ℚ → ℚ → ℚ) (mf : ℚ) (fuel : Nat) (c : AudioChannel)
    (s : List Char) (i : Nat) (key : Int) (dt : DurationText)
    (hsrc : c.source = some s) (hin : c.in_ = some i) (hi : i ≤ s.length)
    (hkey : letterKey (s.getD (skipSpaces s i) NUL) = some key)
    (hdt : dt = durationTextAt s (accidentalAt s (skipSpaces s i + 1)).2)
    (hmf1 : 1 ≤ mf) (hmf2 : mf ≤ 1000000) (hT1 : 1 ≤ c.tempo) (hT2 : c.tempo ≤ 2147483647)
    (hn1 : 1 ≤ effectiveLength c.default_length dt.lit)
    (hn2 : effectiveLength c.default_length dt.lit ≤ 2147483647) :
    ∃ r, mml_parse_next pow mf (fuel + 1) c = some (.ok r) ∧ 0 ≤ r.duration ∧
      r.silence = if dt.tie then 0 else r.duration / 8 := by
  subst hdt
  refine ⟨_, parse_note_result pow mf fuel c s i key hsrc hin hi hkey hmf1 hmf2 hT1 hT2 hn1 hn2,
    ?_, rfl⟩
  have hb := dottedSamples_bounds mf c.tempo _
    (durationTextAt s (accidentalAt s (skipSpaces s i + 1)).2).dot hmf1 hmf2 hT1 hT2 hn1 hn2
  exact trunc_nonneg _ (le_trans (by norm_num) hb.2.1)

theorem note_silence_eighth_or_tied_witness :
    (∃ r, mml_parse_next (fun _ _ => 1) 44100 1 (started "C4&".toList false) = some (.ok r) ∧
      0 ≤ r.duration ∧ r.silence = if (true : Bool) then 0 else r.duration / 8) ∧
    (∃ r, mml_parse_next (fun _ _ => 1) 44100 1 (started "C4".toList false) = some (.ok r) ∧
      0 ≤ r.duration ∧ r.silence = if (false : Bool) then 0 else r.duration / 8) ∧
    (mml_parse_next (fun _ _ => 1) 44100 1 (started "C4&".toList false)).map
      (Except.map fun r => (r.duration, r.silence)) = some (.ok (18900, 0)) ∧
    (mml_parse_next (fun _ _ => 1) 44100 1 (started "C4".toList false)).map
      (Except.map fun r => (r.duration, r.silence)) = some (.ok (18900, 2362)) :=
  ⟨note_silence_eighth_or_tied (fun _ _ => 1) 44100 0 (started "C4&".toList false) "C4&".toList 0 4
      ⟨4, false, true, 3⟩ rfl rfl (by decide) (by decide) (by decide) (by norm_num) (by norm_num)
      (by decide) (by decide) (by decide) (by decide),
   note_silence_eighth_or_tied (fun _ _ => 1) 44100 0 (started "C4".toList false) "C4".toList 0 4
      ⟨4, false, false, 2⟩ rfl rfl (by decide) (by decide) (by decide) (by norm_num) (by norm_num)
      (by decide) (by decide) (by decide) (by decide),
   by decide!, by decide!⟩

/-- C7 as stated fails: for `"T64 C1"` at 44100 Hz the quotient
`44100 / (64 * 0.25 / 60) / 1` is exactly 165375, while the parser, which evaluates it
in single precision, stores the duration 165374. -/
theorem duration_T64_C1_one_sample_short :
    trunc (44100 / (64 * (1 / 4) / 60) / 1) = 165375 ∧
    ∀ pow : ℚ → ℚ → ℚ, ∃ r,
      mml_parse_next pow 44100 2 (started "T64 C1".toList false) = some (.ok r) ∧
      r.tempo = 64 ∧ r.duration = 165374 := by
  refine ⟨by decide!, fun pow => ?_⟩
  have h1 : iterAt pow 44100 (started "T64 C1".toList false) "T64 C1".toList 0 =
      .next { started "T64 C1".toList false with in_ := some 3, tempo := 64 } := rfl
  have h2 := parse_note_result pow 44100 0
    { started "T64 C1".toList false with in_ := some 3, tempo := 64 } "T64 C1".toList 3 4
    rfl rfl (by decide) (by decide) (by norm_num) (by norm_num) (by decide) (by decide)
    (by decide) (by decide)
  have h3 := (run_next pow 44100 1 _ _ "T64 C1".toList 0 rfl rfl (by decide) h1).trans h2
  refine ⟨_, h3, rfl, ?_⟩
  · show trunc (dottedSamples 44100 64 (effectiveLength 4
        (durationTextAt "T64 C1".toList (accidentalAt "T64 C1".toList
          (skipSpaces "T64 C1".toList 3 + 1)).2).lit)
        (durationTextAt "T64 C1".toList (accidentalAt "T64 C1".toList
          (skipSpaces "T64 C1".toList 3 + 1)).2).dot) = 165374
    decide!

/-- C7, amended: an undotted note or rest at tempo `T > 0` with note length `n > 0`
(the literal, or the default length when the literal is absent or 0) gets the
duration `mixing_frequency / (T * 0.25 / 60) * (1 / n)` evaluated in single
precision, every operation rounded, and truncated toward zero; for `"T120 L4 C"`
at 44100 Hz this is 22050, which is also the exact quotient. -/
theorem undotted_duration_single_precision (pow : ℚ → ℚ → ℚ) (mf : ℚ) (fuel : Nat)
    (c : AudioChannel) (s : List Char) (i a : Nat) (dt : DurationText)
    (hsrc : c.source = some s) (hin : c.in_ = some i) (hi : i ≤ s.length)
    (hstart : (∃ key, letterKey (s.getD (skipSpaces s i) NUL) = some key ∧
        a = (accidentalAt s (skipSpaces s i + 1)).2) ∨
      (isRestChar (s.getD (skipSpaces s i) NUL) = true ∧ a = skipSpaces s i + 1))
    (hdt : dt = durationTextAt s a) (hdot : dt.dot = false)
    (hmf1 : 1 ≤ mf) (hmf2 : mf ≤ 1000000) (hT1 : 1 ≤ c.tempo) (hT2 : c.tempo ≤ 2147483647)
    (hn1 : 1 ≤ effectiveLength c.default_length dt.lit)
    (hn2 : effectiveLength c.default_length dt.lit ≤ 2147483647) :
    (∃ r, mml_parse_next pow mf (fuel + 1) c = some (.ok r) ∧
      r.duration = trunc (noteSamples mf c.tempo (effectiveLength c.default_length dt.lit))) ∧
    (∀ p : ℚ → ℚ → ℚ, ∃ r,
      mml_parse_next p 44100 3 (started "T120 L4 C".toList false) = some (.ok r) ∧
      r.duration = 22050) ∧
    trunc (44100 / (120 * (1 / 4) / 60) / 4) = 22050 := by
  refine ⟨?_, fun p => ?_, by decide!⟩
  · subst hdt
    have hds : ∀ T n, dottedSamples mf T n (durationTextAt s a).dot = noteSamples mf T n := by
      intro T n
      unfold dottedSamples
      rw [hdot]
      rfl
    rcases hstart with ⟨key, hkey, ha⟩ | ⟨hrest, ha⟩
    · subst ha
      refine ⟨_, parse_note_result pow mf fuel c s i key hsrc hin hi hkey hmf1 hmf2 hT1 hT2
        hn1 hn2, ?_⟩
      exact congrArg trunc (hds _ _)
    · subst ha
      refine ⟨_, parse_rest_result pow mf fuel c s i hsrc hin hi hrest hmf1 hmf2 hT1 hT2
        hn1 hn2, ?_⟩
      exact congrArg trunc (hds _ _)
  · have h1 : iterAt p 44100 (started "T120 L4 C".toList false) "T120 L4 C".toList 0 =
        .next { started "T120 L4 C".toList false with in_ := some 4, tempo := 120 } := rfl
    have h2 : iterAt p 44100
        { started "T120 L4 C".toList false with in_ := some 4, tempo := 120 }
        "T120 L4 C".toList 4 =
        .next { started "T120 L4 C".toList false with
                in_ := some 7, tempo := 120, default_length := 4 } := rfl
    have h3 := parse_note_result p 44100 0
      { started "T120 L4 C".toList false with in_ := some 7, tempo := 120, default_length := 4 }
      "T120 L4 C".toList 7 4
      rfl rfl (by decide) (by decide) (by norm_num) (by norm_num) (by decide) (by decide)
      (by decide) (by decide)
    have h4 := ((run_next p 44100 2 _ _ "T120 L4 C".toList 0 rfl rfl (by decide) h1).trans
      (run_next p 44100 1 _ _ "T120 L4 C".toList 4 rfl rfl (by decide) h2)).trans h3
    refine ⟨_, h4, ?_⟩
    · show trunc (dottedSamples 44100 120 (effectiveLength 4
          (durationTextAt "T120 L4 C".toList (accidentalAt "T120 L4 C".toList
            (skipSpaces "T120 L4 C".toList 7 + 1)).2).lit)
          (durationTextAt "T120 L4 C".toList (accidentalAt "T120 L4 C".toList
            (skipSpaces "T120 L4 C".toList 7 + 1)).2).dot) = 22050
      decide!

theorem undotted_duration_single_precision_witness :
    (∃ r, mml_parse_next (fun _ _ => 1) 44100 1
        { started "T120 L4 C".toList false with in_ := some 7, tempo := 120 } = some (.ok r) ∧
      r.duration = trunc (noteSamples 44100 120 (effectiveLength 4 0))) ∧
    trunc (noteSamples 44100 120 (effectiveLength 4 0)) = 22050 :=
  ⟨(undotted_duration_single_precision (fun _ _ => 1) 44100 0
      { started "T120 L4 C".toList false with in_ := some 7, tempo := 120 }
      "T120 L4 C".toList 7 9 ⟨0, false, false, 9⟩ rfl rfl (by decide)
      (Or.inl ⟨4, by decide, by decide⟩) (by decide) rfl (by norm_num) (by norm_num)
      (by decide) (by decide) (by decide) (by decide)).1,
   by decide!⟩

theorem accidentalAt_delta (s : List Char) (i : Nat) :
    (accidentalAt s i).1 =
      if s.getD (skipSpaces s i) NUL = '#' ∨ s.getD (skipSpaces s i) NUL = '+' then 1
      else if s.getD (skipSpaces s i) NUL = '-' then -1 else 0 := by
  unfold accidentalAt
  generalize s.getD (skipSpaces s i) NUL = ch
  by_cases h1 : ch = '#'
  · simp [h1]
  · by_cases h2 : ch = '+'
    · simp [h1, h2]
    · by_cases h3 : ch = '-'
      · simp [h1, h2, h3]
      · simp [h1, h2, h3]

theorem accidentalAt_delta_range (s : List Char) (i : Nat) :
    -1 ≤ (accidentalAt s i).1 ∧ (accidentalAt s i).1 ≤ 1 := by
  rw [accidentalAt_delta]
  split_ifs <;> constructor <;> norm_num

theorem noteKey_eq (key delta octave : Int) (hk : 0 ≤ key ∧ key ≤ 15)
    (hd : -1 ≤ delta ∧ delta ≤ 1) (ho : -100000000 ≤ octave ∧ octave ≤ 100000000) :
    noteKey key delta octave = key + delta + 12 * (octave - 1) := by
  unfold noteKey
  rw [wrap32_of_range (x := key + delta) (by omega) (by omega),
    wrap32_of_range (x := octave - 1) (by omega) (by omega),
    wrap32_of_range (x := (octave - 1) * 12) (by omega) (by omega),
    wrap32_of_range (by omega) (by omega)]
  ring

theorem letterKey_range' (ch : Char) (key : Int) (h : letterKey ch = some key) :
    0 ≤ key ∧ key ≤ 15 := by
  unfold letterKey at h
  split_ifs at h <;> simp at h <;> omega

theorem keyFrequency_49 (pow : ℚ → ℚ → ℚ) (h : pow 2 0 = 1) : keyFrequency pow 49 = 440 := by
  have e1 : f32 1 = 1 := by decide!
  have e2 : f32 440 = 440 := by decide!
  unfold keyFrequency f32_mul
  have e0 : (((49 : Int) : ℚ) - 49) = 0 := by norm_num
  rw [e0]
  have z : f64 0 = 0 := roundTo_zero _ _
  rw [z, zero_div, z, h, e1, one_mul, e2]

/-- The fourth root of two is irrational, so no rational is `440 * 2 ^ (-21 / 12)`. -/
theorem rat_ne_freq_key_28 (q : ℚ) : (q : ℝ) ≠ 440 * (2 : ℝ) ^ (((28 : ℝ) - 49) / 12) := by
  intro h
  have hx : ((2 : ℝ) ^ ((1 : ℝ) / 4)) ^ 4 = ((2 : Int) : ℝ) := by
    rw [← Real.rpow_natCast, ← Real.rpow_mul (by norm_num)]
    norm_num
  have hirr : Irrational ((2 : ℝ) ^ ((1 : ℝ) / 4)) := by
    apply irrational_nrt_of_notint_nrt 4 2 hx _ (by norm_num)
    rintro ⟨y, hy⟩
    rw [hy] at hx
    have hy4 : y ^ 4 = 2 := by exact_mod_cast hx
    have hle : y ^ 2 ≤ 2 := by nlinarith [sq_nonneg (y ^ 2), sq_nonneg y]
    have hya : |y| ≤ 1 := by
      by_contra hc
      have : 2 ≤ |y| := by omega
      have : 4 ≤ y ^ 2 := by
        rw [← sq_abs]; nlinarith
      omega
    have hsq : y ^ 2 ≤ 1 := by
      rw [← sq_abs]; nlinarith [abs_nonneg y]
    nlinarith [sq_nonneg (y ^ 2)]
  have hsplit : (2 : ℝ) ^ (((28 : ℝ) - 49) / 12) = (2 : ℝ) ^ ((1 : ℝ) / 4) / 4 := by
    have : ((28 : ℝ) - 49) / 12 = (1 : ℝ) / 4 - 2 := by norm_num
    rw [this, Real.rpow_sub (by norm_num), Real.rpow_two]
    norm_num
  rw [hsplit] at h
  apply hirr
  refine ⟨q * 4 / 440, ?_⟩
  push_cast
  rw [h]
  ring

/-- C8 as stated fails: for a `C` parsed at octave 3 the key is 28, and the
frequency the parser stores, a single precision number whatever `SDL_pow`
returns, is not the real number `440 * 2 ^ ((28 - 49) / 12)`, which is irrational. -/
theorem stored_frequency_differs_from_real_power :
    (4 + 0 + 12 * (3 - 1) : Int) = 28 ∧
    ∀ pow : ℚ → ℚ → ℚ, ∃ r,
      mml_parse_next pow 44100 1 (started ['C'] false) = some (.ok r) ∧
      r.octave = 3 ∧ r.frequency = keyFrequency pow 28 ∧
      ((r.frequency : ℚ) : ℝ) ≠ 440 * (2 : ℝ) ^ (((28 : ℝ) - 49) / 12) := by
  refine ⟨by norm_num, fun pow => ?_⟩
  have h := parse_note_result pow 44100 0 (started ['C'] false) ['C'] 0 4
    rfl rfl (by decide) (by decide) (by norm_num) (by norm_num) (by decide) (by decide)
    (by decide) (by decide)
  refine ⟨_, h, rfl, ?_, rat_ne_freq_key_28 _⟩
  show keyFrequency pow (noteKey 4 (accidentalAt ['C'] (skipSpaces ['C'] 0 + 1)).1 3) = _
  have : noteKey 4 (accidentalAt ['C'] (skipSpaces ['C'] 0 + 1)).1 3 = 28 := by decide
  rw [this]

/-- C8, amended: for a note letter with key `base` (4, 6, 8, 9, 11, 13, 15 for C, D,
E, F, G, A, B), an accidental `acc` (+1 for `#` or `+`, -1 for `-`, 0 otherwise)
and an octave `o` whose key `k = base + acc + 12 * (o - 1)` does not overflow,
parsed at a positive tempo and note length, the parser stores the single precision
evaluation `(float)SDL_pow(2.0, (k - 49) / 12.0) * 440.0f` of `440 * 2 ^ ((k - 49) / 12)`;
for a plain A at octave 4 (`k = 49`) that is exactly 440, as `SDL_pow(2.0, 0.0)` is 1. -/
theorem note_frequency_single_precision (pow : ℚ → ℚ → ℚ) (mf : ℚ) (fuel : Nat)
    (c : AudioChannel) (s : List Char) (i : Nat) (key : Int) (dt : DurationText)
    (hsrc : c.source = some s) (hin : c.in_ = some i) (hi : i ≤ s.length)
    (hkey : letterKey (s.getD (skipSpaces s i) NUL) = some key)
    (hdt : dt = durationTextAt s (accidentalAt s (skipSpaces s i + 1)).2)
    (hoct : -100000000 ≤ c.octave ∧ c.octave ≤ 100000000)
    (hmf1 : 1 ≤ mf) (hmf2 : mf ≤ 1000000) (hT1 : 1 ≤ c.tempo) (hT2 : c.tempo ≤ 2147483647)
    (hn1 : 1 ≤ effectiveLength c.default_length dt.lit)
    (hn2 : effectiveLength c.default_length dt.lit ≤ 2147483647) :
    (∃ r, mml_parse_next pow mf (fuel + 1) c = some (.ok r) ∧
      r.frequency =
        keyFrequency pow (key + (accidentalAt s (skipSpaces s i + 1)).1 + 12 * (c.octave - 1))) ∧
    (accidentalAt s (skipSpaces s i + 1)).1 =
      (if s.getD (skipSpaces s (skipSpaces s i + 1)) NUL = '#' ∨
          s.getD (skipSpaces s (skipSpaces s i + 1)) NUL = '+' then 1
       else if s.getD (skipSpaces s (skipSpaces s i + 1)) NUL = '-' then -1 else 0) ∧
    (∀ k : Int, keyFrequency pow k = f32_mul (f32 (pow 2 (f64 (f64 ((k : ℚ) - 49) / 12)))) 440) ∧
    (pow 2 0 = 1 → keyFrequency pow (13 + 0 + 12 * (4 - 1)) = 440) := by
  subst hdt
  refine ⟨⟨_, parse_note_result pow mf fuel c s i key hsrc hin hi hkey hmf1 hmf2 hT1 hT2 hn1 hn2,
    ?_⟩, accidentalAt_delta s _, fun k => rfl, fun h => keyFrequency_49 pow h⟩
  show keyFrequency pow (noteKey key (accidentalAt s (skipSpaces s i + 1)).1 c.octave) = _
  rw [noteKey_eq key _ c.octave (letterKey_range' _ key hkey) (accidentalAt_delta_range s _) hoct]

theorem note_frequency_single_precision_witness :
    (∃ r, mml_parse_next (fun _ _ => 1) 44100 1
        { started ['A'] false with octave := 4 } = some (.ok r) ∧
      r.frequency = keyFrequency (fun _ _ => 1) (13 + 0 + 12 * (4 - 1))) ∧
    keyFrequency (fun _ _ => 1) (13 + 0 + 12 * (4 - 1)) = 440 :=
  have h := note_frequency_single_precision (fun _ _ => 1) 44100 0
    { started ['A'] false with octave := 4 } ['A'] 0 13 ⟨0, false, false, 1⟩ rfl rfl
    (by decide) (by decide) (by decide) (by decide) (by norm_num) (by norm_num) (by decide)
    (by decide) (by decide) (by decide)
  ⟨h.1, h.2.2.2 rfl⟩

theorem sim_refl (b : Bool) (c : AudioChannel) : Sim b c c :=
  ⟨⟨rfl, rfl, rfl, rfl, rfl, rfl, rfl⟩, fun _ => rfl, fun _ => rfl⟩

theorem simDone_refl (b : Bool) (c : AudioChannel) : SimDone b c c :=
  ⟨sim_refl b c, rfl, rfl, fun _ => rfl⟩

theorem stepSim_refl (b : Bool) (st : Step) : StepSim b st st := by
  cases st with
  | next r => exact sim_refl b r
  | done r => exact simDone_refl b r
  | fail f => exact rfl

theorem iterAt_sim (pow : ℚ → ℚ → ℚ) (mf : ℚ) (b : Bool) (s : List Char) (i : Nat) (lp : Bool)
    (w : Waveform) (tp oc dl : Int) (t f t1 f1 : ℚ) (d sl d1 sl1 : Int)
    (hf : b = false → f1 = f) :
    StepSim b (iterAt pow mf ⟨some s, some i, lp, t, f, w, d, sl, tp, oc, dl⟩ s i)
      (iterAt pow mf ⟨some s, some i, lp, t1, f1, w, d1, sl1, tp, oc, dl⟩ s i) := by
  unfold iterAt
  simp only
  generalize s.getD (skipSpaces s i) NUL = ch
  have hsim : ∀ (j : Nat) (w2 : Waveform) (tp2 oc2 dl2 : Int),
      Sim b ⟨some s, some j, lp, t, f, w2, d, sl, tp2, oc2, dl2⟩
        ⟨some s, some j, lp, t1, f1, w2, d1, sl1, tp2, oc2, dl2⟩ := by
    intro j w2 tp2 oc2 dl2
    exact ⟨⟨rfl, rfl, rfl, rfl, rfl, rfl, rfl⟩, hf, fun h => by simp at h⟩
  by_cases h0 : ch = NUL
  · simp only [h0, if_true]
    cases lp with
    | true => exact hsim 0 w tp oc dl
    | false => exact sim_refl b _
  simp only [h0, if_false]
  by_cases hT : ch = 'T' ∨ ch = 't'
  · simp only [hT, if_true]
    exact hsim _ _ _ _ _
  simp only [hT, if_false]
  by_cases hL : ch = 'L' ∨ ch = 'l'
  · simp only [hL, if_true]
    exact hsim _ _ _ _ _
  simp only [hL, if_false]
  by_cases hO : ch = 'O' ∨ ch = 'o'
  · simp only [hO, if_true]
    exact hsim _ _ _ _ _
  simp only [hO, if_false]
  by_cases hlt1 : ch = '<'
  · simp only [hlt1, if_true]
    exact hsim _ _ _ _ _
  simp only [hlt1, if_false]
  by_cases hgt1 : ch = '>'
  · simp only [hgt1, if_true]
    exact hsim _ _ _ _ _
  simp only [hgt1, if_false]
  by_cases hR : ch = 'R' ∨ ch = 'r' ∨ ch = 'P' ∨ ch = 'p'
  · simp only [hR, if_true]
    cases durationAt mf tp dl s (skipSpaces s i + 1) with
    | error e => exact rfl
    | ok r =>
      exact ⟨⟨⟨rfl, rfl, rfl, rfl, rfl, rfl, rfl⟩, hf, fun h => by simp at h⟩, rfl, rfl,
        fun h => absurd h (lt_irrefl _)⟩
  simp only [hR, if_false]
  cases letterKey ch with
  | some key =>
    simp only
    cases durationAt mf tp dl s (accidentalAt s (skipSpaces s i + 1)).2 with
    | error e => exact rfl
    | ok r =>
      exact ⟨⟨⟨rfl, rfl, rfl, rfl, rfl, rfl, rfl⟩, fun _ => rfl, fun h => by simp at h⟩, rfl, rfl,
        fun _ => rfl⟩
  | none =>
    simp only
    by_cases hW : ch = 'W' ∨ ch = 'w'
    · simp only [hW, if_true]
      cases waveformOf (s.getD (skipSpaces s i + 1) NUL) with
      | some w2 => exact hsim _ _ _ _ _
      | none => exact hsim _ _ _ _ _
    · simp only [hW, if_false]
      exact hsim _ _ _ _ _

theorem mml_parse_iter_overrun (pow : ℚ → ℚ → ℚ) (mf : ℚ) (c : AudioChannel) (s : List Char)
    (i : Nat) (hsrc : c.source = some s) (hin : c.in_ = some i) (hi : ¬ i ≤ s.length) :
    mml_parse_iter pow mf c = .fail .overrun := by
  unfold mml_parse_iter mml_skip_spaces
  simp only [hsrc, hin, hi, if_false]

theorem mml_parse_iter_no_source (pow : ℚ → ℚ → ℚ) (mf : ℚ) (c : AudioChannel)
    (i : Nat) (hsrc : c.source = none) (hin : c.in_ = some i) :
    mml_parse_iter pow mf c = .fail .nullDeref := by
  unfold mml_parse_iter mml_skip_spaces
  simp only [hsrc, hin]

theorem mml_parse_iter_sim (pow : ℚ → ℚ → ℚ) (mf : ℚ) (b : Bool) (c c1 : AudioChannel)
    (h : Sim b c c1) : StepSim b (mml_parse_iter pow mf c) (mml_parse_iter pow mf c1) := by
  obtain ⟨⟨hs, hi, hl, hw, ht, ho, hd⟩, hf, hnone⟩ := h
  cases hin : c.in_ with
  | none =>
    rw [hnone hin]
    exact stepSim_refl b _
  | some i =>
    have hin1 : c1.in_ = some i := by rw [hi, hin]
    cases hsrc : c.source with
    | none =>
      have hsrc1 : c1.source = none := by rw [hs, hsrc]
      rw [mml_parse_iter_no_source pow mf c i hsrc hin,
        mml_parse_iter_no_source pow mf c1 i hsrc1 hin1]
      exact rfl
    | some s =>
      have hsrc1 : c1.source = some s := by rw [hs, hsrc]
      by_cases hle : i ≤ s.length
      · rw [mml_parse_iter_at pow mf c s i hsrc hin hle,
          mml_parse_iter_at pow mf c1 s i hsrc1 hin1 hle]
        obtain ⟨src, cur, lp, t, f, w, d, sl, tp, oc, dl⟩ := c
        obtain ⟨src1, cur1, lp1, t1, f1, w1, d1, sl1, tp1, oc1, dl1⟩ := c1
        simp only at hs hi hl hw ht ho hd hf hin hsrc hin1 hsrc1
        subst hsrc hin hsrc1 hin1 hl hw ht ho hd
        exact iterAt_sim pow mf b s i lp1 w1 tp1 oc1 dl1 t f t1 f1 d sl d1 sl1 hf
      · rw [mml_parse_iter_overrun pow mf c s i hsrc hin hle,
          mml_parse_iter_overrun pow mf c1 s i hsrc1 hin1 hle]
        exact rfl

theorem mml_parse_next_sim (pow : ℚ → ℚ → ℚ) (mf : ℚ) (b : Bool) :
    ∀ (fuel : Nat) (c c1 : AudioChannel), Sim b c c1 →
      ParseSim b (mml_parse_next pow mf fuel c) (mml_parse_next pow mf fuel c1)
  | 0, _, _, _ => trivial
  | fuel + 1, c, c1, h => by
    have hstep := mml_parse_iter_sim pow mf b c c1 h
    rw [parse_next_succ, parse_next_succ]
    cases h1 : mml_parse_iter pow mf c with
    | next r =>
      cases h2 : mml_parse_iter pow mf c1 with
      | next r1 =>
        rw [h1, h2] at hstep
        exact mml_parse_next_sim pow mf b fuel r r1 hstep
      | done r1 => rw [h1, h2] at hstep; exact hstep.elim
      | fail f1 => rw [h1, h2] at hstep; exact hstep.elim
    | done r =>
      cases h2 : mml_parse_iter pow mf c1 with
      | next r1 => rw [h1, h2] at hstep; exact hstep.elim
      | done r1 => rw [h1, h2] at hstep; exact hstep
      | fail f1 => rw [h1, h2] at hstep; exact hstep.elim
    | fail f =>
      cases h2 : mml_parse_iter pow mf c1 with
      | next r1 => rw [h1, h2] at hstep; exact hstep.elim
      | done r1 => rw [h1, h2] at hstep; exact hstep.elim
      | fail f1 => rw [h1, h2] at hstep; exact hstep

theorem parse_run_sim (pow : ℚ → ℚ → ℚ) (mf : ℚ) (b : Bool) (fuel : Nat) :
    ∀ (n : Nat) (c c1 : AudioChannel), Sim b c c1 →
      RunSim b (parse_run pow mf fuel n c) (parse_run pow mf fuel n c1)
  | 0, _, _, _ => List.Forall₂.nil
  | n + 1, c, c1, h => by
    have hp := mml_parse_next_sim pow mf b fuel c c1 h
    unfold parse_run
    cases h1 : mml_parse_next pow mf fuel c with
    | none =>
      cases h2 : mml_parse_next pow mf fuel c1 with
      | none => trivial
      | some x => rw [h1, h2] at hp; cases x <;> exact hp.elim
    | some x =>
      cases x with
      | error f =>
        cases h2 : mml_parse_next pow mf fuel c1 with
        | none => rw [h1, h2] at hp; exact hp.elim
        | some y =>
          cases y with
          | error f1 => rw [h1, h2] at hp; exact hp
          | ok r1 => rw [h1, h2] at hp; exact hp.elim
      | ok r =>
        cases h2 : mml_parse_next pow mf fuel c1 with
        | none => rw [h1, h2] at hp; exact hp.elim
        | some y =>
          cases y with
          | error f1 => rw [h1, h2] at hp; exact hp.elim
          | ok r1 =>
            rw [h1, h2] at hp
            have hr : SimDone b r r1 := hp
            have ih := parse_run_sim pow mf b fuel n r r1 hr.1
            simp only
            cases h3 : parse_run pow mf fuel n r with
            | none =>
              cases h4 : parse_run pow mf fuel n r1 with
              | none => trivial
              | some z => rw [h3, h4] at ih; cases z <;> exact ih.elim
            | some z =>
              cases z with
              | error f =>
                cases h4 : parse_run pow mf fuel n r1 with
                | none => rw [h3, h4] at ih; exact ih.elim
                | some z1 =>
                  cases z1 with
                  | error f1 => rw [h3, h4] at ih; exact ih
                  | ok rs1 => rw [h3, h4] at ih; exact ih.elim
              | ok rs =>
                cases h4 : parse_run pow mf fuel n r1 with
                | none => rw [h3, h4] at ih; exact ih.elim
                | some z1 =>
                  cases z1 with
                  | error f1 => rw [h3, h4] at ih; exact ih.elim
                  | ok rs1 =>
                    rw [h3, h4] at ih
                    exact List.Forall₂.cons hr ih

theorem forall₂_map_eq {α : Type} (R : AudioChannel → AudioChannel → Prop)
    (g : AudioChannel → α) (hg : ∀ r r1, R r r1 → g r1 = g r) :
    ∀ (l l1 : List AudioChannel), List.Forall₂ R l l1 → l1.map g = l.map g
  | _, _, .nil => rfl
  | _, _, .cons h t => by
    simp only [List.map_cons]
    rw [hg _ _ h, forall₂_map_eq R g hg _ _ t]

theorem runSim_map_eq {α : Type} (b : Bool) (g : AudioChannel → α)
    (hg : ∀ r r1, SimDone b r r1 → g r1 = g r)
    (x y : Option (Except Fault (List AudioChannel))) (h : RunSim b x y) :
    y.map (Except.map (List.map g)) = x.map (Except.map (List.map g)) := by
  cases x with
  | none =>
    cases y with
    | none => rfl
    | some y => cases y <;> exact h.elim
  | some x =>
    cases x with
    | error f =>
      cases y with
      | none => exact h.elim
      | some y =>
        cases y with
        | error f1 =>
          have : f1 = f := h
          rw [this]
        | ok _ => exact h.elim
    | ok rs =>
      cases y with
      | none => exact h.elim
      | some y =>
        cases y with
        | error f1 => exact h.elim
        | ok rs1 =>
          have hl : List.Forall₂ (SimDone b) rs rs1 := h
          simp only [Option.map_some', Except.map]
          rw [forall₂_map_eq (SimDone b) g hg rs rs1 hl]

theorem soundOf_eq_of_simDone (b : Bool) (r r1 : AudioChannel) (h : SimDone b r r1) :
    soundOf r1 = soundOf r := by
  obtain ⟨⟨⟨_, _, _, hw, _, _, _⟩, _, _⟩, hd, hs, hf⟩ := h
  unfold soundOf
  rw [hd, hs, hw]
  by_cases hlt : r.silence < r.duration
  · rw [if_pos hlt, if_pos hlt, hf hlt]
  · rw [if_neg hlt, if_neg hlt]

theorem eventOf_eq_of_simDone (r r1 : AudioChannel) (h : SimDone false r r1) :
    eventOf r1 = eventOf r := by
  obtain ⟨⟨⟨_, _, _, hw, _, _, _⟩, hf, _⟩, hd, hs, _⟩ := h
  unfold eventOf
  rw [hd, hs, hw, hf rfl]

/-- The result of a parser invocation with the cursor at a note letter, from the
values the text and the context give. -/
theorem parse_note_value (pow : ℚ → ℚ → ℚ) (mf : ℚ) (fuel : Nat) (c : AudioChannel)
    (s : List Char) (i : Nat) (key k d sl tp oc dl : Int) (stop : Nat)
    (hsrc : c.source = some s) (hin : c.in_ = some i) (hi : i ≤ s.length)
    (htp : c.tempo = tp) (hoc : c.octave = oc) (hdl : c.default_length = dl)
    (hkey : letterKey (s.getD (skipSpaces s i) NUL) = some key)
    (hk : noteKey key (accidentalAt s (skipSpaces s i + 1)).1 oc = k)
    (hdur : durationAt mf tp dl s (accidentalAt s (skipSpaces s i + 1)).2 = .ok (d, sl, stop)) :
    mml_parse_next pow mf (fuel + 1) c = some (.ok { c with
      in_ := some stop, t := 0, frequency := keyFrequency pow k, duration := d, silence := sl }) := by
  subst htp hoc hdl
  rw [parse_next_at pow mf fuel c s i hsrc hin hi, iterAt_note pow mf c s i key hkey, hdur, hk]

theorem iterAt_rewind (pow : ℚ → ℚ → ℚ) (mf : ℚ) (c : AudioChannel) (s : List Char) (i : Nat)
    (hl : c.looping = true) (hend : s.getD (skipSpaces s i) NUL = NUL) :
    iterAt pow mf c s i = .next { c with in_ := some 0 } := by
  unfold iterAt
  simp only [hend, if_true, hl]

theorem parse_run_two (pow : ℚ → ℚ → ℚ) (mf : ℚ) (fuel : Nat) (c r1 r2 : AudioChannel)
    (h1 : mml_parse_next pow mf fuel c = some (.ok r1))
    (h2 : mml_parse_next pow mf fuel r1 = some (.ok r2)) :
    parse_run pow mf fuel 2 c = some (.ok [r1, r2]) := by
  unfold parse_run
  rw [h1]
  simp only
  unfold parse_run
  rw [h2]
  rfl

/-- C5 as stated fails: the looping text `"CL8"` has one note; on the first pass it
is parsed with the default length 4 (18900 samples at 44100 Hz), on the next
invocation the parser reads `L8`, reaches the end, rewinds, and parses the same
note with length 8 (9450 samples). -/
theorem second_pass_differs_for_CL8 :
    SDL_strdup "CL8".toList = "CL8".toList ∧
    ∀ pow : ℚ → ℚ → ℚ,
      (parse_run pow 44100 3 2 (started "CL8".toList true)).map
        (Except.map (List.map fun r => (r.in_, r.duration, r.silence))) =
      some (.ok [(some 1, 18900, 2362), (some 1, 9450, 1181)]) := by
  refine ⟨by decide, fun pow => ?_⟩
  have h1 := parse_note_value pow 44100 2 (started "CL8".toList true) "CL8".toList 0 4 28
    18900 2362 140 3 4 1 rfl rfl (by decide) rfl rfl rfl (by decide) (by decide) (by decide!)
  have ha : iterAt pow 44100
      { started "CL8".toList true with
        in_ := some 1, t := 0, frequency := keyFrequency pow 28, duration := 18900,
        silence := 2362 } "CL8".toList 1 =
      .next { started "CL8".toList true with
        in_ := some 3, t := 0, frequency := keyFrequency pow 28, duration := 18900,
        silence := 2362, default_length := 8 } := rfl
  have hb : iterAt pow 44100
      { started "CL8".toList true with
        in_ := some 3, t := 0, frequency := keyFrequency pow 28, duration := 18900,
        silence := 2362, default_length := 8 } "CL8".toList 3 =
      .next { started "CL8".toList true with
        in_ := some 0, t := 0, frequency := keyFrequency pow 28, duration := 18900,
        silence := 2362, default_length := 8 } := rfl
  have h3 := parse_note_value pow 44100 0
    { started "CL8".toList true with
      in_ := some 0, t := 0, frequency := keyFrequency pow 28, duration := 18900,
      silence := 2362, default_length := 8 } "CL8".toList 0 4 28
    9450 1181 140 3 8 1 rfl rfl (by decide) rfl rfl rfl (by decide) (by decide) (by decide!)
  have h2 := ((run_next pow 44100 2 _ _ "CL8".toList 1 rfl rfl (by decide) ha).trans
    (run_next pow 44100 1 _ _ "CL8".toList 3 rfl rfl (by decide) hb)).trans h3
  rw [parse_run_two pow 44100 3 _ _ _ h1 h2]
  rfl

/-- C5, amended: at the end of a looping text the parser sets the cursor back to the
first character and changes nothing else, so tempo, octave, default length and
waveform stay as the pass left them.  Two channels that agree on text, cursor, loop
flag and these four values produce, over any number of parser invocations, the
same durations and silences and, wherever an event sounds, the same frequency and
waveform; if they also agree on the frequency, the same events.  So the second
pass repeats the first whenever the first pass ends with the context it started with. -/
theorem loop_rewinds_and_replays (pow : ℚ → ℚ → ℚ) (mf : ℚ) (c c1 : AudioChannel)
    (hctx : SameContext c c1) (htext : c.in_ ≠ none) :
    (∀ fuel n, (parse_run pow mf fuel n c1).map (Except.map (List.map soundOf)) =
      (parse_run pow mf fuel n c).map (Except.map (List.map soundOf))) ∧
    (c1.frequency = c.frequency →
      ∀ fuel n, (parse_run pow mf fuel n c1).map (Except.map (List.map eventOf)) =
        (parse_run pow mf fuel n c).map (Except.map (List.map eventOf))) ∧
    (∀ (e : AudioChannel) (s : List Char) (i : Nat), e.source = some s → e.in_ = some i →
      i ≤ s.length → e.looping = true → s.getD (skipSpaces s i) NUL = NUL →
      mml_parse_iter pow mf e = .next { e with in_ := some 0 }) := by
  refine ⟨fun fuel n => ?_, fun hf fuel n => ?_, fun e s i hsrc hin hi hl hend => ?_⟩
  · exact runSim_map_eq true soundOf (soundOf_eq_of_simDone true) _ _
      (parse_run_sim pow mf true fuel n c c1
        ⟨hctx, fun h => Bool.noConfusion h, fun h => absurd h htext⟩)
  · exact runSim_map_eq false eventOf eventOf_eq_of_simDone _ _
      (parse_run_sim pow mf false fuel n c c1 ⟨hctx, fun _ => hf, fun h => absurd h htext⟩)
  · rw [mml_parse_iter_at pow mf e s i hsrc hin hi, iterAt_rewind pow mf e s i hl hend]

set_option synthInstance.maxSize 1024 in
theorem loop_rewinds_and_replays_witness :
    (∀ fuel n,
      (parse_run (fun _ _ => 1) 44100 fuel n
        { started "CR8".toList true with frequency := 440, duration := 9450, silence := 9450 }).map
          (Except.map (List.map soundOf)) =
      (parse_run (fun _ _ => 1) 44100 fuel n (started "CR8".toList true)).map
          (Except.map (List.map soundOf))) ∧
    (parse_run (fun _ _ => 1) 44100 3 4 (started "CR8".toList true)).map
        (Except.map (List.map soundOf)) =
      some (.ok [(some (440, .PULSE_50), 18900, 2362), (none, 9450, 9450),
                 (some (440, .PULSE_50), 18900, 2362), (none, 9450, 9450)]) :=
  ⟨(loop_rewinds_and_replays (fun _ _ => 1) 44100 (started "CR8".toList true)
      { started "CR8".toList true with frequency := 440, duration := 9450, silence := 9450 }
      ⟨rfl, rfl, rfl, rfl, rfl, rfl, rfl⟩ (by decide)).1,
   by decide!⟩

theorem mml_parse_next_skips_unrecognized_witness :
    SDL_isspace 'x' = false ∧
    mml_parse_iter (fun _ _ => 1) 44100 (started ['x', 'C'] false) =
      .next { started ['x', 'C'] false with in_ := some 1 } ∧
    mml_parse_next (fun _ _ => 1) 44100 2 (started ['x', 'C'] false) =
      mml_parse_next (fun _ _ => 1) 44100 1 { started ['x', 'C'] false with in_ := some 1 } :=
  have h := mml_parse_next_skips_unrecognized (fun _ _ => 1) 44100 (started ['x', 'C'] false)
    ['x', 'C'] 0 rfl rfl (by decide) (by decide) (by decide) (by decide)
  ⟨by decide, h.1, h.2 1⟩

/-! ## Rounding is monotone -/

theorem roundEven_le_int (x : ℚ) (n : Int) (h : x ≤ n) : roundEven x ≤ n := by
  have h1 := Int.floor_le x
  have h2 := Int.lt_floor_add_one x
  have hfu : ⌊x⌋ ≤ n := by
    have : (⌊x⌋ : ℚ) ≤ n := le_trans h1 h
    exact_mod_cast this
  unfold roundEven
  simp only
  split_ifs with ha hb hc
  · exact hfu
  · have : (⌊x⌋ : ℚ) < n := by linarith
    have : ⌊x⌋ < n := by exact_mod_cast this
    omega
  · exact hfu
  · have hr : x - ⌊x⌋ = 1 / 2 := le_antisymm (not_lt.mp hb) (not_lt.mp ha)
    have : (⌊x⌋ : ℚ) < n := by linarith
    have : ⌊x⌋ < n := by exact_mod_cast this
    omega

theorem int_le_roundEven (x : ℚ) (n : Int) (h : (n : ℚ) ≤ x) : n ≤ roundEven x := by
  have hfl : n ≤ ⌊x⌋ := Int.le_floor.mpr h
  unfold roundEven
  simp only
  split_ifs <;> omega

/-- A single precision number whose exponent is below the spacing at `x` is smaller
than `x` in magnitude, and `x` is in the normal range. -/
theorem isF32_fine_lt (x : ℚ) (m k : Int) (hm : |m| < 16777216) (hk : -149 ≤ k)
    (hx : x ≠ 0) (hlt : k < max (binade x) (-126) - 23) :
    max (binade x) (-126) = binade x ∧ |(m : ℚ) * (2 : ℚ) ^ k| < (2 : ℚ) ^ binade x ∧
      (2 : ℚ) ^ binade x ≤ |x| := by
  have h2 : (2 : ℚ) ≠ 0 := by norm_num
  have he : max (binade x) (-126) = binade x := by
    rcases max_cases (binade x) (-126) with ⟨e, _⟩ | ⟨e, _⟩
    · exact e
    · rw [e] at hlt; omega
  rw [he] at hlt
  refine ⟨he, ?_, (binade_spec x hx).1⟩
  rw [abs_mul, abs_of_pos (zpow_pos (by norm_num : (0 : ℚ) < 2) k)]
  have hm' : |(m : ℚ)| ≤ 16777216 := by
    have : |(m : ℚ)| < 16777216 := by exact_mod_cast hm
    exact le_of_lt this
  have hk2 : (2 : ℚ) ^ k ≤ (2 : ℚ) ^ (binade x - 24) :=
    zpow_le_zpow_right₀ (by norm_num) (by omega)
  have hpos : (0 : ℚ) < (2 : ℚ) ^ k := zpow_pos (by norm_num) k
  have e24 : (2 : ℚ) ^ (binade x - 24) * 16777216 = (2 : ℚ) ^ binade x := by
    rw [zpow_sub₀ h2]
    norm_num
  by_cases hm0 : m = 0
  · rw [hm0]; simp
    exact zpow_pos (by norm_num) _
  · have hmlt : |(m : ℚ)| < 16777216 := by exact_mod_cast hm
    calc |(m : ℚ)| * (2 : ℚ) ^ k < 16777216 * (2 : ℚ) ^ k :=
          mul_lt_mul_of_pos_right hmlt hpos
      _ ≤ 16777216 * (2 : ℚ) ^ (binade x - 24) := by
          apply mul_le_mul_of_nonneg_left hk2 (by norm_num)
      _ = (2 : ℚ) ^ binade x := by rw [mul_comm, e24]

/-- A single precision number whose exponent is not below the spacing at `x` is an
integer multiple of that spacing. -/
theorem isF32_coarse_mul (x : ℚ) (m k : Int) (hge : max (binade x) (-126) - 23 ≤ k) :
    ∃ N : Int, (m : ℚ) * (2 : ℚ) ^ k = (N : ℚ) * ulp 24 (-126) x := by
  have h2 : (2 : ℚ) ≠ 0 := by norm_num
  have hk : ((24 - 1 : Nat) : Int) = 23 := by norm_num
  unfold ulp
  rw [hk]
  generalize max (binade x) (-126) - 23 = j at hge
  obtain ⟨n, hn⟩ : ∃ n : Nat, k = j + n := ⟨(k - j).toNat, by omega⟩
  refine ⟨m * 2 ^ n, ?_⟩
  rw [hn, zpow_add₀ h2, zpow_natCast]
  push_cast
  ring

theorem two_pow_binade_eq (x : ℚ) (he : max (binade x) (-126) = binade x) :
    (2 : ℚ) ^ binade x = ((8388608 : Int) : ℚ) * ulp 24 (-126) x := by
  have h2 : (2 : ℚ) ≠ 0 := by norm_num
  have hk : ((24 - 1 : Nat) : Int) = 23 := by norm_num
  unfold ulp
  rw [hk, he, zpow_sub₀ h2]
  norm_num
  ring

/-- Rounding to single precision does not cross a single precision number above. -/
theorem f32_le_of_le (x h : ℚ) (hh : IsF32 h) (hx : x ≤ h) : f32 x ≤ h := by
  by_cases hx0 : x = 0
  · rw [hx0, f32_zero]; rw [hx0] at hx; exact hx
  obtain ⟨m, k, hm, hk, rfl⟩ := hh
  have hq := ulp_pos 24 (-126) x
  unfold f32
  rw [roundTo_eq _ _ _ hx0]
  by_cases hge : max (binade x) (-126) - 23 ≤ k
  · obtain ⟨N, hN⟩ := isF32_coarse_mul x m k hge
    rw [hN] at hx ⊢
    have : x / ulp 24 (-126) x ≤ N := by rw [div_le_iff₀ hq]; exact hx
    have := roundEven_le_int _ _ this
    have : (roundEven (x / ulp 24 (-126) x) : ℚ) ≤ N := by exact_mod_cast this
    exact mul_le_mul_of_nonneg_right this (le_of_lt hq)
  · obtain ⟨he, hl, hb⟩ := isF32_fine_lt x m k hm hk hx0 (not_le.mp hge)
    have hneg : x < 0 := by
      by_contra hc
      have hxp : 0 ≤ x := not_lt.mp hc
      rw [abs_of_nonneg hxp] at hb
      have := le_abs_self ((m : ℚ) * (2 : ℚ) ^ k)
      linarith
    rw [abs_of_neg hneg] at hb
    have e := two_pow_binade_eq x he
    have : x / ulp 24 (-126) x ≤ ((-8388608 : Int) : ℚ) := by
      rw [div_le_iff₀ hq]
      push_cast
      push_cast at e
      linarith
    have := roundEven_le_int _ _ this
    have h3 : (roundEven (x / ulp 24 (-126) x) : ℚ) ≤ ((-8388608 : Int) : ℚ) := by exact_mod_cast this
    have h4 := mul_le_mul_of_nonneg_right h3 (le_of_lt hq)
    have h5 := neg_abs_le ((m : ℚ) * (2 : ℚ) ^ k)
    push_cast at h4 e
    linarith

/-- Rounding to single precision does not cross a single precision number below. -/
theorem le_f32_of_le (x l : ℚ) (hl : IsF32 l) (hx : l ≤ x) : l ≤ f32 x := by
  by_cases hx0 : x = 0
  · rw [hx0, f32_zero]; rw [hx0] at hx; exact hx
  obtain ⟨m, k, hm, hk, rfl⟩ := hl
  have hq := ulp_pos 24 (-126) x
  unfold f32
  rw [roundTo_eq _ _ _ hx0]
  by_cases hge : max (binade x) (-126) - 23 ≤ k
  · obtain ⟨N, hN⟩ := isF32_coarse_mul x m k hge
    rw [hN] at hx ⊢
    have : (N : ℚ) ≤ x / ulp 24 (-126) x := by rw [le_div_iff₀ hq]; exact hx
    have := int_le_roundEven _ _ this
    have : (N : ℚ) ≤ (roundEven (x / ulp 24 (-126) x) : ℚ) := by exact_mod_cast this
    exact mul_le_mul_of_nonneg_right this (le_of_lt hq)
  · obtain ⟨he, hl, hb⟩ := isF32_fine_lt x m k hm hk hx0 (not_le.mp hge)
    have hpos : 0 < x := by
      by_contra hc
      have hxp : x ≤ 0 := not_lt.mp hc
      rw [abs_of_nonpos hxp] at hb
      have := neg_abs_le ((m : ℚ) * (2 : ℚ) ^ k)
      linarith
    rw [abs_of_pos hpos] at hb
    have e := two_pow_binade_eq x he
    have : ((8388608 : Int) : ℚ) ≤ x / ulp 24 (-126) x := by
      rw [le_div_iff₀ hq]
      push_cast
      push_cast at e
      linarith
    have := int_le_roundEven _ _ this
    have h3 : ((8388608 : Int) : ℚ) ≤ (roundEven (x / ulp 24 (-126) x) : ℚ) := by exact_mod_cast this
    have h4 := mul_le_mul_of_nonneg_right h3 (le_of_lt hq)
    have h5 := le_abs_self ((m : ℚ) * (2 : ℚ) ^ k)
    push_cast at h4 e
    linarith

theorem isF32_int (n : Int) (h : |n| < 16777216) : IsF32 (n : ℚ) :=
  ⟨n, 0, h, by norm_num, by simp⟩

theorem isF32_zero : IsF32 0 := ⟨0, 0, by norm_num, by norm_num, by simp⟩

theorem isF32_one : IsF32 1 := ⟨1, 0, by norm_num, by norm_num, by simp⟩

theorem f32_nonneg (x : ℚ) (h : 0 ≤ x) : 0 ≤ f32 x := le_f32_of_le x 0 isF32_zero h

/-! ## Dotted durations -/

/-- The duration stored by a parser invocation with the cursor at a note or rest. -/
theorem parse_event_duration (pow : ℚ → ℚ → ℚ) (mf : ℚ) (fuel : Nat) (c : AudioChannel)
    (s : List Char) (i : Nat) (dt : DurationText) (h : AtEvent c s i dt)
    (hmf1 : 1 ≤ mf) (hmf2 : mf ≤ 1000000) (hT1 : 1 ≤ c.tempo) (hT2 : c.tempo ≤ 2147483647)
    (hn1 : 1 ≤ effectiveLength c.default_length dt.lit)
    (hn2 : effectiveLength c.default_length dt.lit ≤ 2147483647) :
    ∃ r, mml_parse_next pow mf (fuel + 1) c = some (.ok r) ∧
      r.duration =
        trunc (dottedSamples mf c.tempo (effectiveLength c.default_length dt.lit) dt.dot) := by
  obtain ⟨hsrc, hin, hi, ⟨key, hkey, hdt⟩ | ⟨hrest, hdt⟩⟩ := h
  · subst hdt
    exact ⟨_, parse_note_result pow mf fuel c s i key hsrc hin hi hkey hmf1 hmf2 hT1 hT2 hn1 hn2,
      rfl⟩
  · subst hdt
    exact ⟨_, parse_rest_result pow mf fuel c s i hsrc hin hi hrest hmf1 hmf2 hT1 hT2 hn1 hn2,
      rfl⟩

/-- Truncating three halves of a value, rounded to single precision, against three
halves of the truncated value, below `2 ^ 22`. -/
theorem dotted_trunc_bounds (v : ℚ) (hv : 0 ≤ v) (hd : trunc v < 4194303) :
    3 * trunc v - 1 ≤ 2 * trunc (f32_mul v (3 / 2)) ∧
      2 * trunc (f32_mul v (3 / 2)) ≤ 3 * trunc v + 3 := by
  rw [trunc_of_nonneg v hv] at hd ⊢
  have h1 := Int.floor_le v
  have h2 := Int.lt_floor_add_one v
  have h0 : 0 ≤ ⌊v⌋ := Int.floor_nonneg.mpr hv
  have hlo : IsF32 ((⌊v⌋ : ℚ) * (3 / 2)) := by
    refine ⟨3 * ⌊v⌋, -1, ?_, by norm_num, ?_⟩
    · rw [abs_of_nonneg (by omega)]; omega
    · push_cast; rw [zpow_neg_one]; ring
  have hhi : IsF32 (((⌊v⌋ : ℚ) + 1) * (3 / 2)) := by
    refine ⟨3 * (⌊v⌋ + 1), -1, ?_, by norm_num, ?_⟩
    · rw [abs_of_nonneg (by omega)]; omega
    · push_cast; rw [zpow_neg_one]; ring
  have hl := le_f32_of_le (v * (3 / 2)) _ hlo (by linarith)
  have hu := f32_le_of_le (v * (3 / 2)) _ hhi (by linarith)
  have hf0 : 0 ≤ f32 (v * (3 / 2)) := f32_nonneg _ (by positivity)
  unfold f32_mul
  rw [trunc_of_nonneg _ hf0]
  have g1 := Int.floor_le (f32 (v * (3 / 2)))
  have g2 := Int.lt_floor_add_one (f32 (v * (3 / 2)))
  constructor
  · have : ((3 * ⌊v⌋ - 1 : Int) : ℚ) < ((2 * ⌊f32 (v * (3 / 2))⌋ + 1 : Int) : ℚ) := by
      push_cast; linarith
    have : 3 * ⌊v⌋ - 1 < 2 * ⌊f32 (v * (3 / 2))⌋ + 1 := by exact_mod_cast this
    omega
  · have : ((2 * ⌊f32 (v * (3 / 2))⌋ : Int) : ℚ) ≤ ((3 * ⌊v⌋ + 3 : Int) : ℚ) := by
      push_cast; linarith
    exact_mod_cast this

/-- C11 as stated fails: at 44100 Hz and the default tempo 140 the note `"C16"` is
stored with duration 4725 and the dotted `"C16."` with 7087, the truncation of
7087.5, which is not 1.5 times 4725. -/
theorem dotted_C16_truncates :
    (3 / 2 : ℚ) * 4725 = 14175 / 2 ∧
    ∀ pow : ℚ → ℚ → ℚ, ∃ r r1,
      mml_parse_next pow 44100 1 (started "C16".toList false) = some (.ok r) ∧
      mml_parse_next pow 44100 1 (started "C16.".toList false) = some (.ok r1) ∧
      r.duration = 4725 ∧ r1.duration = 7087 ∧ (r1.duration : ℚ) ≠ 3 / 2 * r.duration := by
  refine ⟨by norm_num, fun pow => ?_⟩
  have h1 := parse_note_result pow 44100 0 (started "C16".toList false) "C16".toList 0 4
    rfl rfl (by decide) (by decide) (by norm_num) (by norm_num) (by decide) (by decide)
    (by decide) (by decide)
  have h2 := parse_note_result pow 44100 0 (started "C16.".toList false) "C16.".toList 0 4
    rfl rfl (by decide) (by decide) (by norm_num) (by norm_num) (by decide) (by decide)
    (by decide) (by decide)
  have e1 : trunc (dottedSamples 44100 140 (effectiveLength 4
        (durationTextAt "C16".toList (accidentalAt "C16".toList
          (skipSpaces "C16".toList 0 + 1)).2).lit)
        (durationTextAt "C16".toList (accidentalAt "C16".toList
          (skipSpaces "C16".toList 0 + 1)).2).dot) = 4725 := by decide!
  have e2 : trunc (dottedSamples 44100 140 (effectiveLength 4
        (durationTextAt "C16.".toList (accidentalAt "C16.".toList
          (skipSpaces "C16.".toList 0 + 1)).2).lit)
        (durationTextAt "C16.".toList (accidentalAt "C16.".toList
          (skipSpaces "C16.".toList 0 + 1)).2).dot) = 7087 := by decide!
  obtain ⟨r, hr, hd⟩ : ∃ r, mml_parse_next pow 44100 1 (started "C16".toList false) =
      some (.ok r) ∧ r.duration = 4725 := ⟨_, h1, e1⟩
  obtain ⟨r1, hr1, hd1⟩ : ∃ r, mml_parse_next pow 44100 1 (started "C16.".toList false) =
      some (.ok r) ∧ r.duration = 7087 := ⟨_, h2, e2⟩
  refine ⟨r, r1, hr, hr1, hd, hd1, ?_⟩
  rw [hd, hd1]
  norm_num

/-- C11, amended: for a tempo `T > 0` and a note length `n > 0` the float duration of
a dotted note or rest is the single precision product by 1.5 of the float duration
`v` of the same note without the dot, and each stored duration is the truncation:
`trunc v` without the dot, `trunc (v * 1.5f)` with it.  So the dotted duration `d1`
is three halves of the undotted `d` only up to truncation, `3 d - 1 ≤ 2 d1 ≤ 3 d + 3`
for `d` below `2 ^ 22`; `"C4."` gives 28350 and `"C4"` gives 18900. -/
theorem dotted_duration_truncated (pow : ℚ → ℚ → ℚ) (mf : ℚ) (fuel : Nat)
    (c c1 : AudioChannel) (s s1 : List Char) (i i1 : Nat) (dt dt1 : DurationText) (T n : Int)
    (hc : AtEvent c s i dt) (hc1 : AtEvent c1 s1 i1 dt1)
    (hdot : dt.dot = false) (hdot1 : dt1.dot = true)
    (hT : c.tempo = T) (hTd : c1.tempo = T)
    (hn : effectiveLength c.default_length dt.lit = n)
    (hnd : effectiveLength c1.default_length dt1.lit = n)
    (hmf1 : 1 ≤ mf) (hmf2 : mf ≤ 1000000) (hT1 : 1 ≤ T) (hT2 : T ≤ 2147483647)
    (hn1 : 1 ≤ n) (hn2 : n ≤ 2147483647) :
    ∃ r r1, mml_parse_next pow mf (fuel + 1) c = some (.ok r) ∧
      mml_parse_next pow mf (fuel + 1) c1 = some (.ok r1) ∧
      r.duration = trunc (noteSamples mf T n) ∧
      r1.duration = trunc (f32_mul (noteSamples mf T n) (3 / 2)) ∧
      (r.duration < 4194303 →
        3 * r.duration - 1 ≤ 2 * r1.duration ∧ 2 * r1.duration ≤ 3 * r.duration + 3) := by
  subst hT
  obtain ⟨r, hr, hrd⟩ := parse_event_duration pow mf fuel c s i dt hc hmf1 hmf2 hT1 hT2
    (by rw [hn]; exact hn1) (by rw [hn]; exact hn2)
  obtain ⟨r1, hr1, hrd1⟩ := parse_event_duration pow mf fuel c1 s1 i1 dt1 hc1 hmf1 hmf2
    (by rw [hTd]; exact hT1) (by rw [hTd]; exact hT2)
    (by rw [hnd]; exact hn1) (by rw [hnd]; exact hn2)
  rw [hn, hdot] at hrd
  rw [hnd, hdot1, hTd] at hrd1
  have e : dottedSamples mf c.tempo n false = noteSamples mf c.tempo n := rfl
  have e1 : dottedSamples mf c.tempo n true = f32_mul (noteSamples mf c.tempo n) (3 / 2) := rfl
  rw [e] at hrd
  rw [e1] at hrd1
  refine ⟨r, r1, hr, hr1, hrd, hrd1, ?_⟩
  rw [hrd, hrd1]
  intro hlt
  have hb := noteSamples_bounds mf c.tempo n hmf1 hmf2 hT1 hT2 hn1 hn2
  exact dotted_trunc_bounds _ (le_trans (by norm_num) hb.2.2.1) hlt

theorem dotted_duration_truncated_witness :
    (∃ r r1, mml_parse_next (fun _ _ => 1) 44100 1 (started "C4".toList false) = some (.ok r) ∧
      mml_parse_next (fun _ _ => 1) 44100 1 (started "C4.".toList false) = some (.ok r1) ∧
      r.duration = trunc (noteSamples 44100 140 4) ∧
      r1.duration = trunc (f32_mul (noteSamples 44100 140 4) (3 / 2)) ∧
      (r.duration < 4194303 →
        3 * r.duration - 1 ≤ 2 * r1.duration ∧ 2 * r1.duration ≤ 3 * r.duration + 3)) ∧
    trunc (noteSamples 44100 140 4) = 18900 ∧
    trunc (f32_mul (noteSamples 44100 140 4) (3 / 2)) = 28350 :=
  ⟨dotted_duration_truncated (fun _ _ => 1) 44100 0 (started "C4".toList false)
    (started "C4.".toList false) "C4".toList "C4.".toList 0 0 ⟨4, false, false, 2⟩
    ⟨4, true, false, 3⟩ 140 4
    ⟨rfl, rfl, by decide, Or.inl ⟨4, by decide, by decide⟩⟩
    ⟨rfl, rfl, by decide, Or.inl ⟨4, by decide, by decide⟩⟩
    rfl rfl rfl rfl (by decide) (by decide) (by norm_num) (by norm_num) (by decide) (by decide)
    (by decide) (by decide), by decide!, by decide!⟩

/-! ## Enharmonic notes -/

/-- The frequency stored by a parser invocation with the cursor at a note. -/
theorem parse_note_frequency (pow : ℚ → ℚ → ℚ) (mf : ℚ) (fuel : Nat) (c : AudioChannel)
    (s : List Char) (i : Nat) (key : Int) (acc : Char) (dt : DurationText)
    (h : AtNote c s i key acc dt)
    (hmf1 : 1 ≤ mf) (hmf2 : mf ≤ 1000000) (hT1 : 1 ≤ c.tempo) (hT2 : c.tempo ≤ 2147483647)
    (hn1 : 1 ≤ effectiveLength c.default_length dt.lit)
    (hn2 : effectiveLength c.default_length dt.lit ≤ 2147483647) :
    ∃ r, mml_parse_next pow mf (fuel + 1) c = some (.ok r) ∧
      r.frequency = keyFrequency pow (noteKey key
        (if acc = '#' ∨ acc = '+' then 1 else if acc = '-' then -1 else 0) c.octave) := by
  obtain ⟨hsrc, hin, hi, hkey, hacc, hdt⟩ := h
  subst hdt
  refine ⟨_, parse_note_result pow mf fuel c s i key hsrc hin hi hkey hmf1 hmf2 hT1 hT2 hn1 hn2,
    ?_⟩
  show keyFrequency pow (noteKey key (accidentalAt s (skipSpaces s i + 1)).1 c.octave) = _
  rw [accidentalAt_delta, ← hacc]

/-- C13: at the same octave, a note letter with a sharp (`#` or `+`) is stored with
the same frequency as the letter two semitones above it (C/D, D/E, F/G, G/A, A/B)
with a flat (`-`). -/
theorem sharp_equals_flat_above (pow : ℚ → ℚ → ℚ) (mf : ℚ) (fuel : Nat)
    (c c1 : AudioChannel) (s s1 : List Char) (i i1 : Nat) (key key1 : Int) (acc acc1 : Char)
    (dt dt1 : DurationText)
    (hc : AtNote c s i key acc dt) (hc1 : AtNote c1 s1 i1 key1 acc1 dt1)
    (hsharp : acc = '#' ∨ acc = '+') (hflat : acc1 = '-') (hpair : key1 = key + 2)
    (hoct : c1.octave = c.octave)
    (hmf1 : 1 ≤ mf) (hmf2 : mf ≤ 1000000)
    (hT1 : 1 ≤ c.tempo) (hT2 : c.tempo ≤ 2147483647)
    (hn1 : 1 ≤ effectiveLength c.default_length dt.lit)
    (hn2 : effectiveLength c.default_length dt.lit ≤ 2147483647)
    (hU1 : 1 ≤ c1.tempo) (hU2 : c1.tempo ≤ 2147483647)
    (hm1 : 1 ≤ effectiveLength c1.default_length dt1.lit)
    (hm2 : effectiveLength c1.default_length dt1.lit ≤ 2147483647) :
    ∃ r r1, mml_parse_next pow mf (fuel + 1) c = some (.ok r) ∧
      mml_parse_next pow mf (fuel + 1) c1 = some (.ok r1) ∧
      r1.frequency = r.frequency := by
  obtain ⟨r, hr, hf⟩ := parse_note_frequency pow mf fuel c s i key acc dt hc hmf1 hmf2 hT1 hT2
    hn1 hn2
  obtain ⟨r1, hr1, hf1⟩ := parse_note_frequency pow mf fuel c1 s1 i1 key1 acc1 dt1 hc1 hmf1 hmf2
    hU1 hU2 hm1 hm2
  refine ⟨r, r1, hr, hr1, ?_⟩
  rw [hf, hf1, if_pos hsharp, hflat, hpair, hoct]
  have e : noteKey (key + 2) (if ('-' : Char) = '#' ∨ ('-' : Char) = '+' then 1
      else if ('-' : Char) = '-' then -1 else 0) c.octave = noteKey key 1 c.octave := by
    rw [if_neg (by decide), if_pos rfl]
    unfold noteKey
    rw [show key + 2 + -1 = key + 1 by ring]
  rw [e]

theorem sharp_equals_flat_above_witness :
    ∃ r r1, mml_parse_next (fun _ _ => 1) 44100 1 (started "C#".toList false) = some (.ok r) ∧
      mml_parse_next (fun _ _ => 1) 44100 1 (started "D-".toList false) = some (.ok r1) ∧
      r1.frequency = r.frequency :=
  sharp_equals_flat_above (fun _ _ => 1) 44100 0 (started "C#".toList false)
    (started "D-".toList false) "C#".toList "D-".toList 0 0 4 6 '#' '-' ⟨0, false, false, 2⟩
    ⟨0, false, false, 2⟩
    ⟨rfl, rfl, by decide, by decide, by decide, by decide⟩
    ⟨rfl, rfl, by decide, by decide, by decide, by decide⟩
    (Or.inl rfl) rfl rfl rfl (by norm_num) (by norm_num) (by decide) (by decide) (by decide)
    (by decide) (by decide) (by decide) (by decide) (by decide)

/-! ## The random generator -/

theorem px_rand_lt (x : Nat) (h : x < 4294967296) : px_rand x < 4294967296 := by
  unfold px_rand
  simp only
  have h32 : (4294967296 : Nat) = 2 ^ 32 := by norm_num
  have h1 : x ^^^ ((x <<< 13) % 4294967296) < 4294967296 := by
    rw [h32]
    exact Nat.xor_lt_two_pow (by rw [← h32]; exact h) (Nat.mod_lt _ (by norm_num))
  have h2 : (x ^^^ ((x <<< 13) % 4294967296)) ^^^ ((x ^^^ ((x <<< 13) % 4294967296)) >>> 17)
      < 4294967296 := by
    rw [h32] at h1 ⊢
    refine Nat.xor_lt_two_pow h1 ?_
    rw [Nat.shiftRight_eq_div_pow]
    exact lt_of_le_of_lt (Nat.div_le_self _ _) h1
  rw [h32] at h2 ⊢
  exact Nat.xor_lt_two_pow h2 (by rw [← h32]; exact Nat.mod_lt _ (by norm_num))

/-- A non-zero 32 bit word differs from itself shifted left by 13 or by 5 bits. -/
theorem xor_shl_ne_zero (x : Nat) (h0 : x ≠ 0) (h : x < 4294967296) :
    x ^^^ ((x <<< 13) % 4294967296) ≠ 0 ∧ x ^^^ ((x <<< 5) % 4294967296) ≠ 0 := by
  constructor
  · intro e
    rw [Nat.xor_eq_zero, Nat.shiftLeft_eq] at e
    norm_num at e
    omega
  · intro e
    rw [Nat.xor_eq_zero, Nat.shiftLeft_eq] at e
    norm_num at e
    omega

/-- A non-zero word differs from itself shifted right by 17 bits. -/
theorem xor_shr_ne_zero (x : Nat) (h0 : x ≠ 0) : x ^^^ (x >>> 17) ≠ 0 := by
  intro e
  rw [Nat.xor_eq_zero, Nat.shiftRight_eq_div_pow] at e
  norm_num at e
  omega

theorem xor_shl_lt (x k : Nat) (h : x < 4294967296) :
    x ^^^ ((x <<< k) % 4294967296) < 4294967296 := by
  have h32 : (4294967296 : Nat) = 2 ^ 32 := by norm_num
  rw [h32]
  exact Nat.xor_lt_two_pow (by rw [← h32]; exact h) (Nat.mod_lt _ (by norm_num))

theorem xor_shr_lt (x k : Nat) (h : x < 4294967296) : x ^^^ (x >>> k) < 4294967296 := by
  have h32 : (4294967296 : Nat) = 2 ^ 32 := by norm_num
  rw [h32] at h ⊢
  refine Nat.xor_lt_two_pow h ?_
  rw [Nat.shiftRight_eq_div_pow]
  exact lt_of_le_of_lt (Nat.div_le_self _ _) h

/-- One step of the generator maps a non-zero 32 bit word to a non-zero 32 bit word. -/
theorem px_rand_ne_zero (x : Nat) (h0 : x ≠ 0) (h : x < 4294967296) : px_rand x ≠ 0 := by
  unfold px_rand
  simp only
  have a1 := (xor_shl_ne_zero x h0 h).1
  have b1 := xor_shl_lt x 13 h
  have a2 := xor_shr_ne_zero _ a1
  have b2 := xor_shr_lt _ 17 b1
  exact (xor_shl_ne_zero _ a2 b2).2

theorem px_rand_iterate (k : Nat) : ∀ x : Nat, x ≠ 0 → x < 4294967296 →
    px_rand^[k] x ≠ 0 ∧ px_rand^[k] x < 4294967296 := by
  induction k with
  | zero => intro x h0 h; exact ⟨h0, h⟩
  | succ k ih =>
    intro x h0 h
    rw [Function.iterate_succ_apply]
    exact ih _ (px_rand_ne_zero x h0 h) (px_rand_lt x h)

theorem px_randomseed_ne_zero (s : Nat) (hs : s < 4294967296) :
    px_randomseed s ≠ 0 ∧ px_randomseed s < 4294967296 := by
  unfold px_randomseed
  by_cases h : s = 0
  · rw [if_pos h]; exact px_rand_iterate 1024 47 (by norm_num) (by norm_num)
  · rw [if_neg h]; exact px_rand_iterate 1024 s h hs

theorem px_rand_draws_eq (n : Nat) : ∀ seed : Nat,
    px_rand_draws n seed = (List.range n).map fun k => px_rand^[k + 1] seed := by
  induction n with
  | zero => intro seed; rfl
  | succ n ih =>
    intro seed
    rw [px_rand_draws, ih, List.range_succ_eq_map, List.map_cons, List.map_map]
    rfl

/-- C14: whatever the generator state was before, after seeding with `s` the sequence
of draws, of any length, is the same, a function of `s` alone; and seeding with 0 is
seeding with 47. -/
theorem draws_depend_on_seed_only (e e1 : Engine) (s : Int) (n : Nat) :
    px_rand_draws n (f_randomseed e (some s)).1.seed =
      px_rand_draws n (f_randomseed e1 (some s)).1.seed ∧
    px_rand_draws n (f_randomseed e (some s)).1.seed =
      px_rand_draws n (px_randomseed (s % 4294967296).toNat) ∧
    px_rand_draws n (f_randomseed e (some 0)).1.seed =
      px_rand_draws n (f_randomseed e1 (some 47)).1.seed ∧
    px_randomseed 0 = px_randomseed 47 := by
  have h0 : px_randomseed 0 = px_randomseed 47 := by
    unfold px_randomseed
    rw [if_pos rfl, if_neg (by decide)]
  have e0 : ((0 : Int) % 4294967296).toNat = 0 := by decide
  have e47 : ((47 : Int) % 4294967296).toNat = 47 := by decide
  simp only [f_randomseed, e0, e47, h0, and_self]

/-- C15 as stated fails: `randomseed(1)` returns 1460585410, the generator state
after the 1024 warm-up draws, not the seed 1; `randomseed(0)` returns 3928987805,
not 47. -/
theorem randomseed_returns_warmed_state :
    (f_randomseed (px_lua_init 1 44100) (some 1)).2 = 1460585410 ∧
    (f_randomseed (px_lua_init 1 44100) (some 0)).2 = 3928987805 := by
  constructor <;> decide!

/-- C15, amended: `randomseed(s)` seeds the generator with `s` converted to `Uint32`,
or with 47 when that is 0, makes the 1024 warm-up draws and returns the generator
state they leave, the 1024th iterate of the xorshift step on the effective seed,
a non-zero 32 bit value; without an argument it returns the current state and
changes nothing. -/
theorem randomseed_returns_state (e : Engine) (s : Int) :
    (f_randomseed e (some s)).2 =
      ((px_rand^[1024] (if (s % 4294967296).toNat = 0 then 47 else (s % 4294967296).toNat) : Nat)
        : Int) ∧
    (f_randomseed e (some s)).1.seed =
      px_rand^[1024] (if (s % 4294967296).toNat = 0 then 47 else (s % 4294967296).toNat) ∧
    0 < (f_randomseed e (some s)).2 ∧ (f_randomseed e (some s)).2 < 4294967296 ∧
    f_randomseed e none = (e, (e.seed : Int)) := by
  have hs : (s % 4294967296).toNat < 4294967296 := by
    have h1 := Int.emod_nonneg s (by norm_num : (4294967296 : Int) ≠ 0)
    have h2 := Int.emod_lt_of_pos s (by norm_num : (0 : Int) < 4294967296)
    omega
  have h := px_randomseed_ne_zero _ hs
  have e2 : (f_randomseed e (some s)).2 = ((px_randomseed (s % 4294967296).toNat : Nat) : Int) := by
    simp only [f_randomseed]
  have e1 : (f_randomseed e (some s)).1.seed = px_randomseed (s % 4294967296).toNat := by
    simp only [f_randomseed]
  have ei : px_randomseed (s % 4294967296).toNat =
      px_rand^[1024] (if (s % 4294967296).toNat = 0 then 47 else (s % 4294967296).toNat) := by
    unfold px_randomseed
    exact congrArg _ rfl
  rw [e1, e2, ← ei]
  refine ⟨Eq.refl _, Eq.refl _, ?_, ?_, ?_⟩
  · have := h.1
    omega
  · have := h.2
    omega
  · simp only [f_randomseed]

/-- C16: after seeding with any 32 bit `s`, 0 included, the generator state is a
non-zero 32 bit word and stays one after any number of draws, so no draw is 0: a
step of the 13/17/5 xorshift maps a non-zero 32 bit word to a non-zero one. -/
theorem seeded_state_never_zero (s : Nat) (hs : s < 4294967296) (k : Nat) :
    px_rand^[k] (px_randomseed s) ≠ 0 ∧ px_rand^[k] (px_randomseed s) < 4294967296 ∧
    (∀ v ∈ px_rand_draws k (px_randomseed s), v ≠ 0) ∧
    (∀ x : Nat, x ≠ 0 → x < 4294967296 → px_rand x ≠ 0 ∧ px_rand x < 4294967296) := by
  have h := px_randomseed_ne_zero s hs
  have hk := px_rand_iterate k _ h.1 h.2
  refine ⟨hk.1, hk.2, ?_, fun x h0 hx => ⟨px_rand_ne_zero x h0 hx, px_rand_lt x hx⟩⟩
  intro v hv
  rw [px_rand_draws_eq, List.mem_map] at hv
  obtain ⟨j, _, rfl⟩ := hv
  exact (px_rand_iterate (j + 1) _ h.1 h.2).1

theorem seeded_state_never_zero_witness :
    (0 : Nat) < 4294967296 ∧
    px_rand^[3] (px_randomseed 0) ≠ 0 ∧ px_rand^[3] (px_randomseed 0) < 4294967296 ∧
    (∀ v ∈ px_rand_draws 3 (px_randomseed 0), v ≠ 0) ∧
    (∀ x : Nat, x ≠ 0 → x < 4294967296 → px_rand x ≠ 0 ∧ px_rand x < 4294967296) :=
  ⟨by decide, seeded_state_never_zero 0 (by decide) 3⟩

/-! ## The phase -/

/-- The integer part and the fractional part of a non-negative single precision
number are single precision numbers. -/
theorem isF32_floor_frac (x : ℚ) (h : IsF32 x) (h0 : 0 ≤ x) :
    IsF32 (⌊x⌋ : ℚ) ∧ IsF32 (x - ⌊x⌋) := by
  obtain ⟨m, k, hm, hk, rfl⟩ := h
  have h2 : (2 : ℚ) ≠ 0 := by norm_num
  have hp : (0 : ℚ) < (2 : ℚ) ^ k := zpow_pos (by norm_num) k
  have hm0 : 0 ≤ m := by
    by_contra hc
    have : (m : ℚ) < 0 := by exact_mod_cast (not_le.mp hc)
    have := mul_neg_of_neg_of_pos this hp
    linarith
  rw [abs_of_nonneg hm0] at hm
  by_cases hk0 : 0 ≤ k
  · obtain ⟨n, hn⟩ : ∃ n : Nat, k = n := ⟨k.toNat, by omega⟩
    have e : (m : ℚ) * (2 : ℚ) ^ k = ((m * 2 ^ n : Int) : ℚ) := by
      rw [hn, zpow_natCast]; push_cast; ring
    have ef : (⌊(m : ℚ) * (2 : ℚ) ^ k⌋ : ℚ) = (m : ℚ) * (2 : ℚ) ^ k := by
      rw [e, Int.floor_intCast]
    rw [ef, sub_self]
    exact ⟨⟨m, k, by rw [abs_of_nonneg hm0]; exact hm, hk, rfl⟩,
      ⟨0, 0, by norm_num, by norm_num, by simp⟩⟩
  · obtain ⟨j, hj⟩ : ∃ j : Nat, k = -(j : Int) := ⟨(-k).toNat, by omega⟩
    have hpj : (0 : ℚ) < (2 : ℚ) ^ j := pow_pos (by norm_num) j
    have hpjI : (0 : Int) < 2 ^ j := pow_pos (by norm_num) j
    have ek : (2 : ℚ) ^ k = 1 / (2 : ℚ) ^ j := by
      rw [hj, zpow_neg, zpow_natCast, one_div]
    have hdm := Int.emod_add_ediv m (2 ^ j)
    have hr0 := Int.emod_nonneg m (ne_of_gt hpjI)
    have hr1 := Int.emod_lt_of_pos m hpjI
    have hq0 : 0 ≤ m / 2 ^ j := Int.ediv_nonneg hm0 (le_of_lt hpjI)
    have hqm : m / 2 ^ j ≤ m := Int.ediv_le_self _ hm0
    have hrm : m % 2 ^ j ≤ m := by
      have : 0 ≤ 2 ^ j * (m / 2 ^ j) := mul_nonneg (le_of_lt hpjI) hq0
      omega
    have ex : (m : ℚ) * (2 : ℚ) ^ k =
        ((m / 2 ^ j : Int) : ℚ) + ((m % 2 ^ j : Int) : ℚ) * (2 : ℚ) ^ k := by
      have : (m : ℚ) = ((m % 2 ^ j : Int) : ℚ) + (2 : ℚ) ^ j * ((m / 2 ^ j : Int) : ℚ) := by
        have := congrArg (fun z : Int => (z : ℚ)) hdm
        simp only at this
        push_cast at this ⊢
        linarith
      rw [ek]
      field_simp
      linarith
    have hfr0 : 0 ≤ ((m % 2 ^ j : Int) : ℚ) * (2 : ℚ) ^ k :=
      mul_nonneg (by exact_mod_cast hr0) (le_of_lt hp)
    have hfr1 : ((m % 2 ^ j : Int) : ℚ) * (2 : ℚ) ^ k < 1 := by
      rw [ek, mul_one_div, div_lt_one hpj]
      exact_mod_cast hr1
    have efl : ⌊(m : ℚ) * (2 : ℚ) ^ k⌋ = m / 2 ^ j := by
      rw [Int.floor_eq_iff]
      constructor <;> linarith
    rw [efl]
    refine ⟨⟨m / 2 ^ j, 0, by rw [abs_of_nonneg hq0]; omega, by norm_num, by simp⟩,
      ⟨m % 2 ^ j, k, by rw [abs_of_nonneg hr0]; omega, hk, by linarith⟩⟩

theorem isF32_two_pow_30 : IsF32 1073741824 :=
  ⟨1, 30, by norm_num, by norm_num, by norm_num⟩

theorem isF32_two_pow_30_next : IsF32 1073741952 :=
  ⟨8388609, 7, by norm_num, by norm_num, by norm_num⟩

/-- For a sample rate of at least 1 Hz, a phase in `[0, 1)` and a frequency in
`[0, 2 ^ 30]` the phase update of the mixer is free of faults and leaves a single
precision phase in `[0, 1)`. -/
theorem phase_next_spec (mf t f : ℚ) (hmf : 1 ≤ mf) (ht0 : 0 ≤ t) (ht1 : t < 1) (hf0 : 0 ≤ f)
    (hf1 : f ≤ 1073741824) :
    f32_div 1 mf = .ok (f32 (1 / mf)) ∧
    f32_to_int (f32_add t (f32_mul (f32 (1 / mf)) f)) =
      .ok (trunc (f32_add t (f32_mul (f32 (1 / mf)) f))) ∧
    0 ≤ phase_next mf t f ∧ phase_next mf t f < 1 ∧ IsF32 (phase_next mf t f) := by
  have hmf0 : mf ≠ 0 := by intro h; rw [h] at hmf; norm_num at hmf
  have hs0 : 0 ≤ f32 (1 / mf) := f32_nonneg _ (by positivity)
  have hs1 : f32 (1 / mf) ≤ 1 :=
    f32_le_of_le _ _ isF32_one (by rw [div_le_one (by linarith)]; exact hmf)
  have hp0 : 0 ≤ f32 (f32 (1 / mf) * f) := f32_nonneg _ (mul_nonneg hs0 hf0)
  have hp1 : f32 (f32 (1 / mf) * f) ≤ 1073741824 :=
    f32_le_of_le _ _ isF32_two_pow_30 (by nlinarith)
  have ha0 : 0 ≤ f32 (t + f32 (f32 (1 / mf) * f)) := f32_nonneg _ (by linarith)
  have ha1 : f32 (t + f32 (f32 (1 / mf) * f)) ≤ 1073741952 :=
    f32_le_of_le _ _ isF32_two_pow_30_next (by linarith)
  have hF := f32_isF32 (t + f32 (f32 (1 / mf) * f))
  obtain ⟨hfl, hfr⟩ := isF32_floor_frac _ hF ha0
  have g1 := Int.floor_le (f32 (t + f32 (f32 (1 / mf) * f)))
  have g2 := Int.lt_floor_add_one (f32 (t + f32 (f32 (1 / mf) * f)))
  have e : phase_next mf t f =
      f32 (t + f32 (f32 (1 / mf) * f)) - ⌊f32 (t + f32 (f32 (1 / mf) * f))⌋ := by
    unfold phase_next f32_sub f32_add f32_mul
    rw [trunc_of_nonneg _ ha0, f32_of_isF32 _ hfl, f32_of_isF32 _ hfr]
  refine ⟨?_, ?_, ?_, ?_, ?_⟩
  · unfold f32_div; rw [if_neg hmf0]
  · exact f32_to_int_of_range _ ha0 (by unfold f32_add f32_mul at *; linarith)
  · rw [e]; linarith
  · rw [e]; linarith
  · rw [e]; exact hfr

theorem mix_channel_eq_tick (pow : ℚ → ℚ → ℚ) (mf : ℚ) (noise : List Int) (fuel : Nat) (v : Int)
    (c : AudioChannel) :
    mix_channel pow mf noise fuel v c =
      match tick_parse pow mf fuel c with
      | none => none
      | some (.error f) => some (.error f)
      | some (.ok c1) =>
        match f32_div 1 mf with
        | .error f => some (.error f)
        | .ok step =>
          match f32_to_int (f32_add c1.t (f32_mul step c1.frequency)) with
          | .error f => some (.error f)
          | .ok n =>
            match mix_waveform noise (sounding c1)
                (f32_sub (f32_add c1.t (f32_mul step c1.frequency)) (f32 n)) v with
            | .error f => some (.error f)
            | .ok v1 => some (.ok (v1,
                { c1 with t := f32_sub (f32_add c1.t (f32_mul step c1.frequency)) (f32 n) })) := by
  rfl

/-- One tick of a channel whose parser stage returns `r` with a phase in `[0, 1)`
and a frequency in `[0, 2 ^ 30]`: the switch is evaluated at the next phase. -/
theorem mix_channel_of_parse (pow : ℚ → ℚ → ℚ) (mf : ℚ) (noise : List Int) (fuel : Nat) (v : Int)
    (c r : AudioChannel) (hp : tick_parse pow mf fuel c = some (.ok r)) (hmf : 1 ≤ mf)
    (ht0 : 0 ≤ r.t) (ht1 : r.t < 1) (hf0 : 0 ≤ r.frequency) (hf1 : r.frequency ≤ 1073741824) :
    mix_channel pow mf noise fuel v c =
      match mix_waveform noise (sounding r) (phase_next mf r.t r.frequency) v with
      | .error f => some (.error f)
      | .ok v1 => some (.ok (v1, { r with t := phase_next mf r.t r.frequency })) := by
  obtain ⟨h1, h2, -⟩ := phase_next_spec mf r.t r.frequency hmf ht0 ht1 hf0 hf1
  rw [mix_channel_eq_tick, hp]
  simp only [h1, h2]
  rfl

/-! ## The waveforms -/

theorem waveRange_bound (w : Waveform) (x : Int) (h : WaveRange w x) : -8 ≤ x ∧ x ≤ 8 := by
  cases w <;> simp only [WaveRange] at h <;> omega

theorem le_trunc (y : ℚ) (a : Int) (h : (a : ℚ) ≤ y) : a ≤ trunc y := by
  unfold trunc
  split_ifs
  · exact Int.le_floor.mpr h
  · have := Int.le_ceil y
    have : (a : ℚ) ≤ (⌈y⌉ : ℚ) := le_trans h this
    exact_mod_cast this

theorem trunc_le_int (y : ℚ) (b : Int) (h : y ≤ (b : ℚ)) : trunc y ≤ b := by
  unfold trunc
  split_ifs
  · have := Int.floor_le y
    have : (⌊y⌋ : ℚ) ≤ (b : ℚ) := le_trans this h
    exact_mod_cast this
  · exact Int.ceil_le.mpr h

theorem trunc_lt_int (y : ℚ) (b : Int) (hb : 0 < b) (h : y < (b : ℚ)) : trunc y < b := by
  unfold trunc
  split_ifs with h0
  · exact Int.floor_lt.mpr h
  · have : ⌈y⌉ ≤ 0 := Int.ceil_le.mpr (by push_cast; exact le_of_lt (not_le.mp h0))
    omega

/-- The largest single precision number below 1 is `1 - 2 ^ (-24)`. -/
theorem isF32_lt_one (t : ℚ) (h : IsF32 t) (h1 : t < 1) : t ≤ 1 - 1 / 16777216 := by
  obtain ⟨m, k, hm, hk, rfl⟩ := h
  have h2 : (2 : ℚ) ≠ 0 := by norm_num
  have hp : (0 : ℚ) < (2 : ℚ) ^ k := zpow_pos (by norm_num) k
  by_cases hk24 : -24 ≤ k
  · obtain ⟨n, hn⟩ : ∃ n : Nat, k = -24 + n := ⟨(k + 24).toNat, by omega⟩
    have e : (m : ℚ) * (2 : ℚ) ^ k = ((m * 2 ^ n : Int) : ℚ) / 16777216 := by
      rw [hn, zpow_add₀ h2, zpow_natCast]
      push_cast
      rw [zpow_neg]
      norm_num
      ring
    rw [e] at h1 ⊢
    have : ((m * 2 ^ n : Int) : ℚ) < ((16777216 : Int) : ℚ) := by
      rw [div_lt_one (by norm_num)] at h1
      exact_mod_cast h1
    have : m * 2 ^ n < 16777216 := by exact_mod_cast this
    have : m * 2 ^ n ≤ 16777215 := by omega
    have : ((m * 2 ^ n : Int) : ℚ) ≤ ((16777215 : Int) : ℚ) := by exact_mod_cast this
    rw [div_le_iff₀ (by norm_num)]
    push_cast at this ⊢
    linarith
  · have hk2 : (2 : ℚ) ^ k ≤ (2 : ℚ) ^ (-25 : Int) :=
      zpow_le_zpow_right₀ (by norm_num) (by omega)
    have hm' : (m : ℚ) ≤ 16777216 := by
      have := le_abs_self m
      have : m ≤ 16777216 := by omega
      exact_mod_cast this
    have e25 : (2 : ℚ) ^ (-25 : Int) = 1 / 33554432 := by
      rw [zpow_neg]; norm_num
    rw [e25] at hk2
    by_cases hm0 : 0 ≤ (m : ℚ)
    · have : (m : ℚ) * (2 : ℚ) ^ k ≤ 16777216 * (1 / 33554432) :=
        mul_le_mul hm' hk2 (le_of_lt hp) (by norm_num)
      linarith
    · have : (m : ℚ) * (2 : ℚ) ^ k < 0 := mul_neg_of_neg_of_pos (not_le.mp hm0) hp
      linarith

theorem isF32_of_int_mul (m k : Int) (x : ℚ) (hm : |m| < 16777216) (hk : -149 ≤ k)
    (h : x = (m : ℚ) * (2 : ℚ) ^ k) : IsF32 x := ⟨m, k, hm, hk, h⟩

theorem f32_to_sint8_of_range (y : ℚ) (a b : Int) (ha : -128 ≤ a) (hb : b ≤ 127)
    (h1 : (a : ℚ) ≤ y) (h2 : y ≤ (b : ℚ)) :
    f32_to_sint8 y = .ok (trunc y) ∧ a ≤ trunc y ∧ trunc y ≤ b := by
  have l := le_trunc y a h1
  have u := trunc_le_int y b h2
  refine ⟨?_, l, u⟩
  unfold f32_to_sint8
  simp only
  rw [if_pos ⟨by omega, by omega⟩]

theorem addSample_of_range (v x : Int) (h1 : -128 ≤ v + x) (h2 : v + x ≤ 127) :
    addSample v x = v + x := by
  unfold addSample wrap8
  omega

/-- The sawtooth at a single precision phase in `[0, 1)`. -/
theorem sawtooth_range (t : ℚ) (ht0 : 0 ≤ t) (ht1 : t < 1) (hF : IsF32 t) :
    f32_to_sint8 (f32_mul (f32_add (-1) (f32_mul t 2)) 4) =
      .ok (trunc (f32_mul (f32_add (-1) (f32_mul t 2)) 4)) ∧
    -4 ≤ trunc (f32_mul (f32_add (-1) (f32_mul t 2)) 4) ∧
    trunc (f32_mul (f32_add (-1) (f32_mul t 2)) 4) ≤ 3 := by
  have hle := isF32_lt_one t hF ht1
  unfold f32_mul f32_add
  have a0 : 0 ≤ f32 (t * 2) := f32_nonneg _ (by linarith)
  have a1 : f32 (t * 2) ≤ 16777215 / 8388608 :=
    f32_le_of_le _ _ (isF32_of_int_mul 16777215 (-23) _ (by norm_num) (by norm_num)
      (by rw [zpow_neg]; norm_num)) (by linarith)
  have b0 : -1 ≤ f32 (-1 + f32 (t * 2)) :=
    le_f32_of_le _ _ (isF32_of_int_mul (-1) 0 _ (by norm_num) (by norm_num) (by norm_num))
      (by linarith)
  have b1 : f32 (-1 + f32 (t * 2)) ≤ 8388607 / 8388608 :=
    f32_le_of_le _ _ (isF32_of_int_mul 8388607 (-23) _ (by norm_num) (by norm_num)
      (by rw [zpow_neg]; norm_num)) (by linarith)
  have c0 : -4 ≤ f32 (f32 (-1 + f32 (t * 2)) * 4) :=
    le_f32_of_le _ _ (isF32_of_int_mul (-4) 0 _ (by norm_num) (by norm_num) (by norm_num))
      (by linarith)
  have c1 : f32 (f32 (-1 + f32 (t * 2)) * 4) ≤ 8388607 / 2097152 :=
    f32_le_of_le _ _ (isF32_of_int_mul 8388607 (-21) _ (by norm_num) (by norm_num)
      (by rw [zpow_neg]; norm_num)) (by linarith)
  have hlt := trunc_lt_int (f32 (f32 (-1 + f32 (t * 2)) * 4)) 4 (by norm_num)
    (by push_cast; linarith)
  obtain ⟨e, l, -⟩ := f32_to_sint8_of_range (f32 (f32 (-1 + f32 (t * 2)) * 4)) (-4) 4
    (by norm_num) (by norm_num) (by push_cast; linarith) (by push_cast; linarith)
  exact ⟨e, l, by omega⟩

/-- The triangle at a phase in `[0, 1)`. -/
theorem triangle_range (t : ℚ) (ht0 : 0 ≤ t) (ht1 : t < 1) :
    f32_to_sint8 (f32_mul
        (if t < 1 / 4 then f32_mul t 4
         else if t < 3 / 4 then f32_sub 1 (f32_mul (f32_sub t (1 / 4)) 4)
         else f32_add (-1) (f32_mul (f32_sub t (3 / 4)) 4)) 8) =
      .ok (trunc (f32_mul
        (if t < 1 / 4 then f32_mul t 4
         else if t < 3 / 4 then f32_sub 1 (f32_mul (f32_sub t (1 / 4)) 4)
         else f32_add (-1) (f32_mul (f32_sub t (3 / 4)) 4)) 8)) ∧
    -8 ≤ trunc (f32_mul
        (if t < 1 / 4 then f32_mul t 4
         else if t < 3 / 4 then f32_sub 1 (f32_mul (f32_sub t (1 / 4)) 4)
         else f32_add (-1) (f32_mul (f32_sub t (3 / 4)) 4)) 8) ∧
    trunc (f32_mul
        (if t < 1 / 4 then f32_mul t 4
         else if t < 3 / 4 then f32_sub 1 (f32_mul (f32_sub t (1 / 4)) 4)
         else f32_add (-1) (f32_mul (f32_sub t (3 / 4)) 4)) 8) ≤ 8 := by
  have I : ∀ (m k : Int) (x : ℚ), |m| < 16777216 → -149 ≤ k → x = (m : ℚ) * (2 : ℚ) ^ k →
      IsF32 x := fun m k x hm hk h => ⟨m, k, hm, hk, h⟩
  have hv : -1 ≤ (if t < 1 / 4 then f32_mul t 4
         else if t < 3 / 4 then f32_sub 1 (f32_mul (f32_sub t (1 / 4)) 4)
         else f32_add (-1) (f32_mul (f32_sub t (3 / 4)) 4)) ∧
      (if t < 1 / 4 then f32_mul t 4
         else if t < 3 / 4 then f32_sub 1 (f32_mul (f32_sub t (1 / 4)) 4)
         else f32_add (-1) (f32_mul (f32_sub t (3 / 4)) 4)) ≤ 1 := by
    unfold f32_mul f32_add f32_sub
    split_ifs with h1 h2
    · have a0 : 0 ≤ f32 (t * 4) := f32_nonneg _ (by linarith)
      have a1 : f32 (t * 4) ≤ 1 := f32_le_of_le _ _ isF32_one (by linarith)
      constructor <;> linarith
    · have a0 : 0 ≤ f32 (t - 1 / 4) := f32_nonneg _ (by linarith)
      have a1 : f32 (t - 1 / 4) ≤ 1 / 2 :=
        f32_le_of_le _ _ (I 1 (-1) _ (by norm_num) (by norm_num) (by rw [zpow_neg]; norm_num))
          (by linarith)
      have b0 : 0 ≤ f32 (f32 (t - 1 / 4) * 4) := f32_nonneg _ (by linarith)
      have b1 : f32 (f32 (t - 1 / 4) * 4) ≤ 2 :=
        f32_le_of_le _ _ (I 2 0 _ (by norm_num) (by norm_num) (by norm_num)) (by linarith)
      have c0 : -1 ≤ f32 (1 - f32 (f32 (t - 1 / 4) * 4)) :=
        le_f32_of_le _ _ (I (-1) 0 _ (by norm_num) (by norm_num) (by norm_num)) (by linarith)
      have c1 : f32 (1 - f32 (f32 (t - 1 / 4) * 4)) ≤ 1 :=
        f32_le_of_le _ _ isF32_one (by linarith)
      exact ⟨c0, c1⟩
    · have a0 : 0 ≤ f32 (t - 3 / 4) := f32_nonneg _ (by linarith)
      have a1 : f32 (t - 3 / 4) ≤ 1 / 4 :=
        f32_le_of_le _ _ (I 1 (-2) _ (by norm_num) (by norm_num) (by rw [zpow_neg]; norm_num))
          (by linarith)
      have b0 : 0 ≤ f32 (f32 (t - 3 / 4) * 4) := f32_nonneg _ (by linarith)
      have b1 : f32 (f32 (t - 3 / 4) * 4) ≤ 1 :=
        f32_le_of_le _ _ isF32_one (by linarith)
      have c0 : -1 ≤ f32 (-1 + f32 (f32 (t - 3 / 4) * 4)) :=
        le_f32_of_le _ _ (I (-1) 0 _ (by norm_num) (by norm_num) (by norm_num)) (by linarith)
      have c1 : f32 (-1 + f32 (f32 (t - 3 / 4) * 4)) ≤ 1 :=
        f32_le_of_le _ _ isF32_one (by linarith)
      exact ⟨c0, c1⟩
  generalize (if t < 1 / 4 then f32_mul t 4
         else if t < 3 / 4 then f32_sub 1 (f32_mul (f32_sub t (1 / 4)) 4)
         else f32_add (-1) (f32_mul (f32_sub t (3 / 4)) 4)) = v at hv ⊢
  unfold f32_mul
  have d0 : -8 ≤ f32 (v * 8) :=
    le_f32_of_le _ _ (I (-8) 0 _ (by norm_num) (by norm_num) (by norm_num)) (by linarith)
  have d1 : f32 (v * 8) ≤ 8 :=
    f32_le_of_le _ _ (I 8 0 _ (by norm_num) (by norm_num) (by norm_num)) (by linarith)
  exact f32_to_sint8_of_range _ (-8) 8 (by norm_num) (by norm_num) (by push_cast; linarith)
    (by push_cast; linarith)

/-- The index into the noise table at a single precision phase in `[0, 1)`. -/
theorem noise_index_range (t : ℚ) (ht0 : 0 ≤ t) (ht1 : t < 1) (hF : IsF32 t) :
    f32_to_int (f32_mul t (PX_AUDIO_NOISE : ℚ)) = .ok (trunc (f32_mul t (PX_AUDIO_NOISE : ℚ))) ∧
    0 ≤ trunc (f32_mul t (PX_AUDIO_NOISE : ℚ)) ∧
    trunc (f32_mul t (PX_AUDIO_NOISE : ℚ)) ≤ 1023 := by
  have hle := isF32_lt_one t hF ht1
  have hN : ((PX_AUDIO_NOISE : Nat) : ℚ) = 1024 := by norm_num [PX_AUDIO_NOISE]
  rw [hN]
  unfold f32_mul
  have a0 : 0 ≤ f32 (t * 1024) := f32_nonneg _ (by linarith)
  have a1 : f32 (t * 1024) ≤ 16777215 / 16384 :=
    f32_le_of_le _ _ (isF32_of_int_mul 16777215 (-14) _ (by norm_num) (by norm_num)
      (by rw [zpow_neg]; norm_num)) (by linarith)
  have hlt := trunc_lt_int (f32 (t * 1024)) 1024 (by norm_num) (by push_cast; linarith)
  exact ⟨f32_to_int_of_range _ a0 (by linarith), trunc_nonneg _ a0, by omega⟩

theorem mix_waveform_pulse_12 (noise : List Int) (t : ℚ) (v : Int) :
    mix_waveform noise Waveform.PULSE_12 t v = .ok (addSample v (if t ≤ 1 / 8 then 4 else -4)) :=
  rfl

theorem mix_waveform_pulse_25 (noise : List Int) (t : ℚ) (v : Int) :
    mix_waveform noise Waveform.PULSE_25 t v = .ok (addSample v (if t ≤ 1 / 4 then 4 else -4)) :=
  rfl

theorem mix_waveform_pulse_50 (noise : List Int) (t : ℚ) (v : Int) :
    mix_waveform noise Waveform.PULSE_50 t v = .ok (addSample v (if t ≤ 1 / 2 then 4 else -4)) :=
  rfl

theorem mix_waveform_sawtooth (noise : List Int) (t : ℚ) (v : Int) :
    mix_waveform noise Waveform.SAWTOOTH t v =
      match f32_to_sint8 (f32_mul (f32_add (-1) (f32_mul t 2)) 4) with
      | .error f => .error f
      | .ok x => .ok (addSample v x) := rfl

theorem mix_waveform_triangle (noise : List Int) (t : ℚ) (v : Int) :
    mix_waveform noise Waveform.TRIANLGE t v =
      match f32_to_sint8 (f32_mul
        (if t < 1 / 4 then f32_mul t 4
         else if t < 3 / 4 then f32_sub 1 (f32_mul (f32_sub t (1 / 4)) 4)
         else f32_add (-1) (f32_mul (f32_sub t (3 / 4)) 4)) 8) with
      | .error f => .error f
      | .ok x => .ok (addSample v x) := rfl

theorem mix_waveform_noise (noise : List Int) (t : ℚ) (v : Int) :
    mix_waveform noise Waveform.NOISE t v =
      match f32_to_int (f32_mul t (PX_AUDIO_NOISE : ℚ)) with
      | .error f => .error f
      | .ok i =>
        if 0 ≤ i ∧ i.toNat < noise.length then .ok (addSample v (noise.getD i.toNat 0))
        else .error .overrun := rfl

theorem pulse_value (p : Prop) [Decidable p] :
    ∃ x : Int, (x = 4 ∨ x = -4) ∧ (if p then (4 : Int) else -4) = x := by
  by_cases h : p
  · exact ⟨4, Or.inl rfl, if_pos h⟩
  · exact ⟨-4, Or.inr rfl, if_neg h⟩

/-- What the switch of the mixer adds at a single precision phase in `[0, 1)`, for
a noise table of 1024 entries between -4 and 3. -/
theorem mix_waveform_range (noise : List Int) (w : Waveform) (t : ℚ)
    (hlen : noise.length = 1024) (hent : ∀ x ∈ noise, -4 ≤ x ∧ x ≤ 3)
    (ht0 : 0 ≤ t) (ht1 : t < 1) (hF : IsF32 t) :
    ∃ x : Int, mix_waveform noise w t 0 = .ok x ∧ WaveRange w x ∧
      ∀ v : Int, -128 ≤ v + x → v + x ≤ 127 → mix_waveform noise w t v = .ok (v + x) := by
  cases w with
  | SILENCE =>
    exact ⟨0, mix_waveform_silence noise t 0, Eq.refl (0 : Int),
      fun v _ _ => by rw [mix_waveform_silence, add_zero]⟩
  | PULSE_12 =>
    obtain ⟨x, hx, e⟩ := pulse_value (t ≤ 1 / 8)
    refine ⟨x, ?_, hx, fun v h1 h2 => ?_⟩
    · rw [mix_waveform_pulse_12, e, addSample_of_range _ _ (by omega) (by omega), zero_add]
    · rw [mix_waveform_pulse_12, e, addSample_of_range _ _ h1 h2]
  | PULSE_25 =>
    obtain ⟨x, hx, e⟩ := pulse_value (t ≤ 1 / 4)
    refine ⟨x, ?_, hx, fun v h1 h2 => ?_⟩
    · rw [mix_waveform_pulse_25, e, addSample_of_range _ _ (by omega) (by omega), zero_add]
    · rw [mix_waveform_pulse_25, e, addSample_of_range _ _ h1 h2]
  | PULSE_50 =>
    obtain ⟨x, hx, e⟩ := pulse_value (t ≤ 1 / 2)
    refine ⟨x, ?_, hx, fun v h1 h2 => ?_⟩
    · rw [mix_waveform_pulse_50, e, addSample_of_range _ _ (by omega) (by omega), zero_add]
    · rw [mix_waveform_pulse_50, e, addSample_of_range _ _ h1 h2]
  | SAWTOOTH =>
    obtain ⟨e, l, u⟩ := sawtooth_range t ht0 ht1 hF
    refine ⟨_, ?_, ⟨l, u⟩, fun v h1 h2 => ?_⟩
    · rw [mix_waveform_sawtooth, e]
      simp only
      rw [addSample_of_range _ _ (by omega) (by omega), zero_add]
    · rw [mix_waveform_sawtooth, e]
      simp only
      rw [addSample_of_range _ _ h1 h2]
  | TRIANLGE =>
    obtain ⟨e, l, u⟩ := triangle_range t ht0 ht1
    refine ⟨_, ?_, ⟨l, u⟩, fun v h1 h2 => ?_⟩
    · rw [mix_waveform_triangle, e]
      simp only
      rw [addSample_of_range _ _ (by omega) (by omega), zero_add]
    · rw [mix_waveform_triangle, e]
      simp only
      rw [addSample_of_range _ _ h1 h2]
  | NOISE =>
    obtain ⟨e, l, u⟩ := noise_index_range t ht0 ht1 hF
    have hi : (trunc (f32_mul t (PX_AUDIO_NOISE : ℚ))).toNat < noise.length := by
      rw [hlen]; omega
    have hmem : noise.getD (trunc (f32_mul t (PX_AUDIO_NOISE : ℚ))).toNat 0 ∈ noise := by
      rw [List.getD_eq_getElem _ _ hi]
      exact List.getElem_mem hi
    obtain ⟨n1, n2⟩ := hent _ hmem
    refine ⟨_, ?_, ⟨n1, n2⟩, fun v h1 h2 => ?_⟩
    · rw [mix_waveform_noise, e]
      simp only
      rw [if_pos ⟨l, hi⟩, addSample_of_range _ _ (by omega) (by omega), zero_add]
    · rw [mix_waveform_noise, e]
      simp only
      rw [if_pos ⟨l, hi⟩, addSample_of_range _ _ h1 h2]

theorem fill_noise_spec : ∀ (n seed : Nat),
    (fill_noise n seed).1.length = n ∧ (∀ x ∈ (fill_noise n seed).1, -4 ≤ x ∧ x ≤ 3) ∧
    (fill_noise n seed).1 = (px_rand_draws n seed).map fun d => ((d % 8 : Nat) : Int) - 4
  | 0, _ => ⟨rfl, by simp [fill_noise], rfl⟩
  | n + 1, seed => by
    obtain ⟨h1, h2, h3⟩ := fill_noise_spec n (px_rand seed)
    have e : wrap8 ((((px_rand seed % 8 : Nat) : Int) - 4) % 4294967296) =
        ((px_rand seed % 8 : Nat) : Int) - 4 := by
      unfold wrap8
      omega
    refine ⟨?_, ?_, ?_⟩
    · simp only [fill_noise, List.length_cons, h1]
    · intro x hx
      simp only [fill_noise, List.mem_cons] at hx
      rcases hx with rfl | hx
      · rw [e]; omega
      · exact h2 x hx
    · simp only [fill_noise, px_rand_draws, List.map_cons, e, h3]

/-! ## Rests -/

theorem mix_channel_silent (pow : ℚ → ℚ → ℚ) (mf : ℚ) (noise : List Int) (fuel : Nat) (v : Int)
    (c r : AudioChannel) (hp : tick_parse pow mf fuel c = some (.ok r)) (hmf : 1 ≤ mf)
    (ht0 : 0 ≤ r.t) (ht1 : r.t < 1) (hf0 : 0 ≤ r.frequency) (hf1 : r.frequency ≤ 1073741824)
    (hs : r.duration ≤ r.silence) :
    mix_channel pow mf noise fuel v c =
      some (.ok (v, { r with t := phase_next mf r.t r.frequency })) := by
  rw [mix_channel_of_parse pow mf noise fuel v c r hp hmf ht0 ht1 hf0 hf1]
  have : sounding r = Waveform.SILENCE := by
    unfold sounding
    rw [if_neg (not_lt.mpr hs)]
  rw [this, mix_waveform_silence]

theorem tick_parse_counting (pow : ℚ → ℚ → ℚ) (mf : ℚ) (fuel : Nat) (c : AudioChannel)
    (h1 : 1 ≤ c.duration) (h2 : c.duration ≤ 2147483647) :
    tick_parse pow mf fuel c = some (.ok { c with duration := c.duration - 1 }) := by
  have e : wrap32 (c.duration - 1) = c.duration - 1 := wrap32_of_range (by omega) (by omega)
  unfold tick_parse
  simp only [e]
  rw [if_neg (by omega)]

/-- While the duration counter of a channel runs down from a value not above its
silence the channel adds nothing to the accumulator. -/
theorem rest_run (pow : ℚ → ℚ → ℚ) (mf : ℚ) (noise : List Int) (fuel : Nat) (hmf : 1 ≤ mf) :
    ∀ (vs : List Int) (c : AudioChannel), 0 ≤ c.t → c.t < 1 → 0 ≤ c.frequency →
      c.frequency ≤ 1073741824 → (vs.length : Int) ≤ c.duration → c.duration ≤ c.silence + 1 →
      c.duration ≤ 2147483647 →
      ∃ c1, mix_channel_run pow mf noise fuel vs c = some (.ok (vs, c1)) ∧
        c1.duration = c.duration - vs.length ∧ c1.silence = c.silence ∧ c1.in_ = c.in_ ∧
        c1.source = c.source
  | [], c, _, _, _, _, _, _, _ => ⟨c, rfl, by simp, rfl, rfl, rfl⟩
  | v :: vs, c, ht0, ht1, hf0, hf1, hlen, hsil, hmax => by
    simp only [List.length_cons, Nat.cast_add, Nat.cast_one] at hlen
    have hl0 : (0 : Int) ≤ vs.length := Int.natCast_nonneg _
    have hp := tick_parse_counting pow mf fuel c (by omega) hmax
    have hm := mix_channel_silent pow mf noise fuel v c _ hp hmf ht0 ht1 hf0 hf1
      (by simp only; omega)
    obtain ⟨p0, p1, -⟩ := (phase_next_spec mf c.t c.frequency hmf ht0 ht1 hf0 hf1).2.2
    obtain ⟨c1, h1, h2, h3, h4, h5⟩ := rest_run pow mf noise fuel hmf vs
      { c with duration := c.duration - 1, t := phase_next mf c.t c.frequency }
      p0 p1 hf0 hf1 (by simp only; omega) (by simp only; omega) (by simp only; omega)
    refine ⟨c1, ?_, ?_, h3, h4, h5⟩
    · unfold mix_channel_run
      rw [hm]
      simp only
      rw [h1]
    · rw [h2]
      simp only [List.length_cons, Nat.cast_add, Nat.cast_one]
      omega

/-- C12: a rest command (`R`, `r`, `P` or `p` with any duration suffix), parsed at a
positive tempo and note length on the tick whose decrement of the duration counter
calls the parser, is stored with silence equal to its duration `d ≥ 0`; on that tick
and on each of the `d` ticks that follow, before the parser is called again, the
channel leaves the accumulator as it finds it, whatever its waveform and its
frequency (up to `2 ^ 30` Hz) are. -/
theorem rest_is_silent (pow : ℚ → ℚ → ℚ) (mf : ℚ) (noise : List Int) (fuel : Nat)
    (c : AudioChannel) (s : List Char) (i : Nat) (dt : DurationText)
    (hc : AtRest c s i dt) (hexp : wrap32 (c.duration - 1) < 0)
    (hmf1 : 1 ≤ mf) (hmf2 : mf ≤ 1000000) (hT1 : 1 ≤ c.tempo) (hT2 : c.tempo ≤ 2147483647)
    (hn1 : 1 ≤ effectiveLength c.default_length dt.lit)
    (hn2 : effectiveLength c.default_length dt.lit ≤ 2147483647)
    (ht0 : 0 ≤ c.t) (ht1 : c.t < 1) (hf0 : 0 ≤ c.frequency) (hf1 : c.frequency ≤ 1073741824) :
    ∃ r, mml_parse_next pow mf (fuel + 1) { c with duration := wrap32 (c.duration - 1) } =
        some (.ok r) ∧
      r.silence = r.duration ∧ 0 ≤ r.duration ∧
      r.waveform = c.waveform ∧ r.frequency = c.frequency ∧
      ∀ (v : Int) (vs : List Int), (vs.length : Int) ≤ r.duration →
        ∃ c1, mix_channel_run pow mf noise (fuel + 1) (v :: vs) c = some (.ok (v :: vs, c1)) ∧
          c1.duration = r.duration - vs.length ∧ c1.silence = r.silence ∧ c1.in_ = r.in_ := by
  obtain ⟨hsrc, hin, hi, hrest, hdt⟩ := hc
  subst hdt
  have hb := dottedSamples_bounds mf c.tempo
    (effectiveLength c.default_length (durationTextAt s (skipSpaces s i + 1)).lit)
    (durationTextAt s (skipSpaces s i + 1)).dot hmf1 hmf2 hT1 hT2 hn1 hn2
  have hd0 := trunc_nonneg _ (le_trans (by norm_num) hb.2.1)
  have hd1 := trunc_le _ 400000000 (le_trans (by norm_num) hb.2.1) (by exact_mod_cast hb.2.2)
  obtain ⟨r, hr, hsil, hdur, hw, hfr, ht⟩ : ∃ r,
      mml_parse_next pow mf (fuel + 1) { c with duration := wrap32 (c.duration - 1) } =
        some (.ok r) ∧ r.silence = r.duration ∧
      r.duration = trunc (dottedSamples mf c.tempo
        (effectiveLength c.default_length (durationTextAt s (skipSpaces s i + 1)).lit)
        (durationTextAt s (skipSpaces s i + 1)).dot) ∧
      r.waveform = c.waveform ∧ r.frequency = c.frequency ∧ r.t = c.t :=
    ⟨_, parse_rest_result pow mf fuel { c with duration := wrap32 (c.duration - 1) } s i
      hsrc hin hi hrest hmf1 hmf2 hT1 hT2 hn1 hn2, rfl, rfl, rfl, rfl, rfl⟩
  refine ⟨r, hr, hsil, by rw [hdur]; exact hd0, hw, hfr, fun v vs hlen => ?_⟩
  have hp : tick_parse pow mf (fuel + 1) c = some (.ok r) := by
    unfold tick_parse
    simp only
    rw [if_pos hexp]
    exact hr
  rw [← ht] at ht0 ht1
  rw [← hfr] at hf0 hf1
  have hm := mix_channel_silent pow mf noise (fuel + 1) v c r hp hmf1 ht0 ht1 hf0 hf1
    (by rw [hsil])
  obtain ⟨p0, p1, -⟩ := (phase_next_spec mf r.t r.frequency hmf1 ht0 ht1 hf0 hf1).2.2
  obtain ⟨c1, h1, h2, h3, h4, -⟩ := rest_run pow mf noise (fuel + 1) hmf1 vs
    { r with t := phase_next mf r.t r.frequency }
    p0 p1 hf0 hf1 hlen (by simp only; omega) (by simp only; omega)
  refine ⟨c1, ?_, h2, h3, h4⟩
  unfold mix_channel_run
  rw [hm]
  simp only
  rw [h1]

theorem rest_is_silent_witness :
    ∃ r, mml_parse_next (fun _ _ => 1) 44100 (0 + 1)
        { ({ started "R4.&".toList false with frequency := 440, waveform := .NOISE } :
            AudioChannel) with
          duration := wrap32 (({ started "R4.&".toList false with
            frequency := 440, waveform := .NOISE } : AudioChannel).duration - 1) } =
        some (.ok r) ∧
      r.silence = r.duration ∧ 0 ≤ r.duration ∧
      r.waveform = Waveform.NOISE ∧ r.frequency = 440 ∧
      ∀ (v : Int) (vs : List Int), (vs.length : Int) ≤ r.duration →
        ∃ c1, mix_channel_run (fun _ _ => 1) 44100 [] (0 + 1) (v :: vs)
            { started "R4.&".toList false with frequency := 440, waveform := .NOISE } =
            some (.ok (v :: vs, c1)) ∧
          c1.duration = r.duration - vs.length ∧ c1.silence = r.silence ∧ c1.in_ = r.in_ :=
  rest_is_silent (fun _ _ => 1) 44100 [] 0
    { started "R4.&".toList false with frequency := 440, waveform := .NOISE }
    "R4.&".toList 0 ⟨4, true, true, 4⟩
    ⟨rfl, rfl, by decide, by decide, by decide⟩ (by decide)
    (by norm_num) (by norm_num) (by decide) (by decide) (by decide) (by decide)
    (le_refl (0 : ℚ)) (show (0 : ℚ) < 1 by norm_num) (by norm_num) (by norm_num)

/-! ## The sample -/

/-- The inner loop of the mixer over channels whose ticks add `x j` without
leaving the range of the accumulator: the result is the exact sum. -/
theorem mix_loop_sum (pow : ℚ → ℚ → ℚ) (mf : ℚ) (noise : List Int) (fuel : Nat)
    (x : Fin 8 → Int) (c1 : Fin 8 → AudioChannel) :
    ∀ (js : List (Fin 8)) (v : Int) (ch : Fin 8 → AudioChannel), js.Nodup →
      (∀ j ∈ js, -8 ≤ x j ∧ x j ≤ 8 ∧ ∀ v : Int, -128 ≤ v + x j → v + x j ≤ 127 →
        mix_channel pow mf noise fuel v (ch j) = some (.ok (v + x j, c1 j))) →
      -128 + 8 * (js.length : Int) ≤ v → v ≤ 127 - 8 * (js.length : Int) →
      mix_loop pow mf noise fuel js v ch =
        some (.ok (v + (js.map x).sum, fun k => if k ∈ js then c1 k else ch k))
  | [], v, ch, _, _, _, _ => by simp [mix_loop]
  | j :: js, v, ch, hnd, h, hv1, hv2 => by
    have hj : j ∉ js := (List.nodup_cons.mp hnd).1
    simp only [List.length_cons, Nat.cast_add, Nat.cast_one] at hv1 hv2
    obtain ⟨b1, b2, hm⟩ := h j (List.mem_cons_self j js)
    have ih := mix_loop_sum pow mf noise fuel x c1 js (v + x j) (Function.update ch j (c1 j))
      (List.nodup_cons.mp hnd).2
      (fun k hk => by
        have hkj : k ≠ j := fun e => hj (e ▸ hk)
        rw [Function.update_noteq hkj]
        exact h k (List.mem_cons_of_mem j hk))
      (by omega) (by omega)
    unfold mix_loop
    rw [hm v (by omega) (by omega)]
    simp only
    rw [ih]
    congr 2
    refine Prod.ext ?_ ?_
    · simp only [List.map_cons, List.sum_cons]; ring
    · funext k
      simp only [List.mem_cons]
      by_cases hkj : k = j
      · subst hkj
        simp [hj]
      · simp [hkj, Function.update_noteq hkj]

theorem list_sum_bound (x : Fin 8 → Int) (hx : ∀ j, -8 ≤ x j ∧ x j ≤ 8) :
    ∀ js : List (Fin 8), -8 * (js.length : Int) ≤ (js.map x).sum ∧
      (js.map x).sum ≤ 8 * (js.length : Int)
  | [] => by simp
  | j :: js => by
    have ih := list_sum_bound x hx js
    have := hx j
    simp only [List.map_cons, List.sum_cons, List.length_cons, Nat.cast_add, Nat.cast_one]
    omega

/-- C20: when on a tick the parser stage of each of the 8 channels leaves a phase in
`[0, 1)` (and a frequency in `[0, 2 ^ 30]`, at a sample rate of at least 1 Hz), with
the noise table as the startup loop fills it, each channel adds what its waveform
gives at its new phase: +4 or -4 for a pulse, a value in `[-4, 3]` for sawtooth
and noise, in `[-8, 8]` for the triangle, 0 when silent.  The sample written is
the exact sum of the 8 contributions, it lies in `[-64, 64]`, and no partial sum
leaves the range of the 8 bit accumulator. -/
theorem sample_is_exact_sum (pow : ℚ → ℚ → ℚ) (mf : ℚ) (fuel seed : Nat)
    (channels r : Fin 8 → AudioChannel) (hmf : 1 ≤ mf)
    (hp : ∀ j, tick_parse pow mf fuel (channels j) = some (.ok (r j)))
    (ht : ∀ j, 0 ≤ (r j).t ∧ (r j).t < 1)
    (hf : ∀ j, 0 ≤ (r j).frequency ∧ (r j).frequency ≤ 1073741824) :
    (∃ x : Fin 8 → Int,
      mix_sample pow mf (fill_noise PX_AUDIO_NOISE seed).1 fuel channels =
        some (.ok (∑ j, x j, fun j => { r j with t := phase_next mf (r j).t (r j).frequency })) ∧
      (∀ j, mix_waveform (fill_noise PX_AUDIO_NOISE seed).1 (sounding (r j))
            (phase_next mf (r j).t (r j).frequency) 0 = .ok (x j) ∧
          WaveRange (sounding (r j)) (x j) ∧ -8 ≤ x j ∧ x j ≤ 8) ∧
      -64 ≤ ∑ j, x j ∧ ∑ j, x j ≤ 64 ∧
      ∀ k : Nat, -128 ≤ (((List.finRange 8).take k).map x).sum ∧
        (((List.finRange 8).take k).map x).sum ≤ 127) ∧
    (fill_noise PX_AUDIO_NOISE seed).1.length = 1024 ∧
    (∀ y ∈ (fill_noise PX_AUDIO_NOISE seed).1, -4 ≤ y ∧ y ≤ 3) ∧
    (fill_noise PX_AUDIO_NOISE seed).1 =
      (px_rand_draws PX_AUDIO_NOISE seed).map (fun d => ((d % 8 : Nat) : Int) - 4) := by
  obtain ⟨n1, n2, n3⟩ := fill_noise_spec PX_AUDIO_NOISE seed
  refine ⟨?_, n1, n2, n3⟩
  have hw : ∀ j, ∃ x : Int,
      mix_waveform (fill_noise PX_AUDIO_NOISE seed).1 (sounding (r j))
        (phase_next mf (r j).t (r j).frequency) 0 = .ok x ∧
      WaveRange (sounding (r j)) x ∧
      ∀ v : Int, -128 ≤ v + x → v + x ≤ 127 →
        mix_waveform (fill_noise PX_AUDIO_NOISE seed).1 (sounding (r j))
          (phase_next mf (r j).t (r j).frequency) v = .ok (v + x) := by
    intro j
    obtain ⟨p0, p1, pF⟩ :=
      (phase_next_spec mf (r j).t (r j).frequency hmf (ht j).1 (ht j).2 (hf j).1 (hf j).2).2.2
    exact mix_waveform_range _ _ _ n1 n2 p0 p1 pF
  choose x hx0 hxr hxv using hw
  have hb : ∀ j, -8 ≤ x j ∧ x j ≤ 8 := fun j => waveRange_bound _ _ (hxr j)
  have hsum : ∑ j, x j = ((List.finRange 8).map x).sum := by
    rw [Fin.sum_univ_def]
  have hall := list_sum_bound x hb (List.finRange 8)
  rw [List.length_finRange] at hall
  refine ⟨x, ?_, fun j => ⟨hx0 j, hxr j, hb j⟩, by rw [hsum]; omega, by rw [hsum]; omega, ?_⟩
  · have h := mix_loop_sum pow mf (fill_noise PX_AUDIO_NOISE seed).1 fuel x
      (fun j => { r j with t := phase_next mf (r j).t (r j).frequency })
      (List.finRange 8) 0 channels (List.nodup_finRange 8)
      (fun j _ => ⟨(hb j).1, (hb j).2, fun v h1 h2 => by
        rw [mix_channel_of_parse pow mf _ fuel v (channels j) (r j) (hp j) hmf (ht j).1 (ht j).2
          (hf j).1 (hf j).2, hxv j v h1 h2]⟩)
      (by rw [List.length_finRange]; norm_num) (by rw [List.length_finRange]; norm_num)
    unfold mix_sample
    rw [h, hsum, zero_add]
    congr 2
    refine Prod.ext rfl ?_
    funext k
    simp
  · intro k
    have hk := list_sum_bound x hb ((List.finRange 8).take k)
    have hl : ((List.finRange 8).take k).length ≤ 8 := by
      rw [List.length_take, List.length_finRange]
      exact Nat.min_le_right _ _
    have hl' : (((List.finRange 8).take k).length : Int) ≤ 8 := by exact_mod_cast hl
    omega

theorem sample_is_exact_sum_witness :
    (∃ x : Fin 8 → Int,
      mix_sample (fun _ _ => 1) 44100 (fill_noise PX_AUDIO_NOISE (px_randomseed 4096)).1 0
          (fun _ => { started "C".toList false with
            duration := 100, silence := 12, frequency := 440, waveform := .SAWTOOTH }) =
        some (.ok (∑ j, x j, fun _ =>
          { ({ started "C".toList false with
                duration := 99, silence := 12, frequency := 440, waveform := .SAWTOOTH } :
              AudioChannel) with t := phase_next 44100 0 440 })) ∧
      (∀ j, mix_waveform (fill_noise PX_AUDIO_NOISE (px_randomseed 4096)).1
            (sounding { started "C".toList false with
              duration := 99, silence := 12, frequency := 440, waveform := .SAWTOOTH })
            (phase_next 44100 0 440) 0 = .ok (x j) ∧
          WaveRange (sounding { started "C".toList false with
              duration := 99, silence := 12, frequency := 440, waveform := .SAWTOOTH }) (x j) ∧
          -8 ≤ x j ∧ x j ≤ 8) ∧
      -64 ≤ ∑ j, x j ∧ ∑ j, x j ≤ 64 ∧
      ∀ k : Nat, -128 ≤ (((List.finRange 8).take k).map x).sum ∧
        (((List.finRange 8).take k).map x).sum ≤ 127) ∧
    (fill_noise PX_AUDIO_NOISE (px_randomseed 4096)).1.length = 1024 ∧
    (∀ y ∈ (fill_noise PX_AUDIO_NOISE (px_randomseed 4096)).1, -4 ≤ y ∧ y ≤ 3) ∧
    (fill_noise PX_AUDIO_NOISE (px_randomseed 4096)).1 =
      (px_rand_draws PX_AUDIO_NOISE (px_randomseed 4096)).map
        (fun d => ((d % 8 : Nat) : Int) - 4) :=
  sample_is_exact_sum (fun _ _ => 1) 44100 0 (px_randomseed 4096)
    (fun _ => { started "C".toList false with
      duration := 100, silence := 12, frequency := 440, waveform := .SAWTOOTH })
    (fun _ => { started "C".toList false with
      duration := 99, silence := 12, frequency := 440, waveform := .SAWTOOTH })
    (by norm_num)
    (fun _ => show tick_parse (fun _ _ => 1) 44100 0
        { started "C".toList false with
          duration := 100, silence := 12, frequency := 440, waveform := .SAWTOOTH } =
      some (.ok { started "C".toList false with
          duration := 99, silence := 12, frequency := 440, waveform := .SAWTOOTH }) by decide!)
    (fun _ => ⟨le_refl (0 : ℚ), show (0 : ℚ) < 1 by norm_num⟩)
    (fun _ => ⟨show (0 : ℚ) ≤ 440 by norm_num, show (440 : ℚ) ≤ 1073741824 by norm_num⟩)

/-! ## Two texts read alike -/

theorem iterAt_eq_cmd (pow : ℚ → ℚ → ℚ) (mf : ℚ) (c : AudioChannel) (s : List Char) (i : Nat) :
    iterAt pow mf c s i =
      iterCmd pow mf c s (skipSpaces s i) (cmdOf (s.getD (skipSpaces s i) NUL)) := by
  unfold iterAt cmdOf
  simp only
  generalize s.getD (skipSpaces s i) NUL = ch
  by_cases h0 : ch = NUL
  · simp only [h0, if_true, iterCmd]
  simp only [h0, if_false]
  by_cases hT : ch = 'T' ∨ ch = 't'
  · simp only [hT, if_true, iterCmd]
  simp only [hT, if_false]
  by_cases hL : ch = 'L' ∨ ch = 'l'
  · simp only [hL, if_true, iterCmd]
  simp only [hL, if_false]
  by_cases hO : ch = 'O' ∨ ch = 'o'
  · simp only [hO, if_true, iterCmd]
  simp only [hO, if_false]
  by_cases hlt1 : ch = '<'
  · simp only [hlt1, if_true, iterCmd]
  simp only [hlt1, if_false]
  by_cases hgt1 : ch = '>'
  · simp only [hgt1, if_true, iterCmd]
  simp only [hgt1, if_false]
  by_cases hR : ch = 'R' ∨ ch = 'r' ∨ ch = 'P' ∨ ch = 'p'
  · simp only [hR, if_true, iterCmd]
  simp only [hR, if_false]
  cases letterKey ch with
  | some key =>
    simp only [iterCmd]
  | none =>
    simp only
    by_cases hW : ch = 'W' ∨ ch = 'w'
    · simp only [hW, if_true, iterCmd]
    · simp only [hW, if_false, iterCmd]

theorem accidentalAt_eq_isNext (s : List Char) (i : Nat) :
    accidentalAt s i =
      if (isNextAt s i '#').1 then (1, (isNextAt s i '#').2)
      else if (isNextAt s i '+').1 then (1, (isNextAt s i '+').2)
      else if (isNextAt s i '-').1 then (-1, (isNextAt s i '-').2)
      else (0, (isNextAt s i '-').2) := by
  unfold accidentalAt isNextAt
  generalize s.getD (skipSpaces s i) NUL = ch
  by_cases h1 : ch = '#'
  · rw [if_pos h1, if_pos h1]
    rfl
  by_cases h2 : ch = '+'
  · rw [if_neg h1, if_pos h2, if_neg h1, if_pos h2]
    rfl
  by_cases h3 : ch = '-'
  · rw [if_neg h1, if_neg h2, if_pos h3, if_neg h1, if_neg h2, if_pos h3]
    rfl
  · rw [if_neg h1, if_neg h2, if_neg h3, if_neg h1, if_neg h2, if_neg h3]
    rfl

theorem accidentalAt_aligned (s s1 : List Char) (A : Nat → Nat → Prop) (hA : Aligned s s1 A)
    (p p1 : Nat) (h : A p p1) :
    (accidentalAt s1 p1).1 = (accidentalAt s p).1 ∧ A (accidentalAt s p).2 (accidentalAt s1 p1).2 := by
  obtain ⟨a1, a2⟩ := hA.isNext p p1 '#' (by simp) h
  obtain ⟨b1, b2⟩ := hA.isNext p p1 '+' (by simp) h
  obtain ⟨c1, c2⟩ := hA.isNext p p1 '-' (by simp) h
  rw [accidentalAt_eq_isNext s, accidentalAt_eq_isNext s1, a1, b1, c1]
  split_ifs
  · exact ⟨rfl, a2⟩
  · exact ⟨rfl, b2⟩
  · exact ⟨rfl, c2⟩
  · exact ⟨rfl, c2⟩

theorem durationAt_aligned (s s1 : List Char) (A : Nat → Nat → Prop) (hA : Aligned s s1 A)
    (mf : ℚ) (T dl : Int) (p p1 : Nat) (h : A p p1) :
    match durationAt mf T dl s p, durationAt mf T dl s1 p1 with
    | .ok r, .ok r1 => r1.1 = r.1 ∧ r1.2.1 = r.2.1 ∧ A r.2.2 r1.2.2
    | .error e, .error e1 => e1 = e
    | _, _ => False := by
  obtain ⟨n1, n2⟩ := hA.number p p1 h
  obtain ⟨d1, d2⟩ := hA.isNext _ _ '.' (by simp) n2
  obtain ⟨t1, t2⟩ := hA.isNext _ _ '&' (by simp) d2
  unfold durationAt
  simp only [n1, d1, t1]
  cases durationValue mf T dl (numberAt s p).1 (isNextAt s (numberAt s p).2 '.').1 with
  | error e => exact rfl
  | ok v =>
    simp only [bind, Except.bind]
    cases f32_to_int v with
    | error e => exact rfl
    | ok d =>
      simp only
      by_cases ht : (isNextAt s (isNextAt s (numberAt s p).2 '.').2 '&').1 = true
      · simp only [ht, if_true, pure, Except.pure]
        exact ⟨trivial, trivial, t2⟩
      · simp only [ht, Bool.false_eq_true, if_false]
        cases f32_to_int (f32_mul v (1 / 8)) with
        | error e => exact rfl
        | ok sl => exact ⟨rfl, rfl, t2⟩

theorem textRel_mk (s s1 : List Char) (A : Nat → Nat → Prop) (j j1 : Nat) (h : A j j1)
    (lp : Bool) (t f : ℚ) (w : Waveform) (d sl tp oc dl : Int) :
    TextRel s s1 A ⟨some s, some j, lp, t, f, w, d, sl, tp, oc, dl⟩
      ⟨some s1, some j1, lp, t, f, w, d, sl, tp, oc, dl⟩ :=
  ⟨Or.inl ⟨rfl, rfl, j, j1, rfl, rfl, h⟩, rfl, rfl, rfl, rfl, rfl, rfl, rfl, rfl, rfl⟩

theorem textRel_refl (s s1 : List Char) (A : Nat → Nat → Prop) (c : AudioChannel)
    (h : c.in_ = none) : TextRel s s1 A c c :=
  ⟨Or.inr ⟨h, rfl⟩, rfl, rfl, rfl, rfl, rfl, rfl, rfl, rfl, rfl⟩

theorem iterAt_aligned (s s1 : List Char) (A : Nat → Nat → Prop) (hA : Aligned s s1 A)
    (pow : ℚ → ℚ → ℚ) (mf : ℚ) (i i1 : Nat) (h : A i i1)
    (lp : Bool) (t f : ℚ) (w : Waveform) (d sl tp oc dl : Int) :
    StepRel (TextRel s s1 A)
      (iterAt pow mf ⟨some s, some i, lp, t, f, w, d, sl, tp, oc, dl⟩ s i)
      (iterAt pow mf ⟨some s1, some i1, lp, t, f, w, d, sl, tp, oc, dl⟩ s1 i1) := by
  rw [iterAt_eq_cmd, iterAt_eq_cmd, hA.cmd i i1 h]
  have hstep := hA.step i i1 h
  have hwave := hA.wave i i1 h
  generalize cmdOf (s.getD (skipSpaces s i) NUL) = cmd at hstep hwave
  cases cmd with
  | stop =>
    cases lp with
    | true => exact textRel_mk s s1 A 0 0 hA.start _ _ _ _ _ _ _ _ _
    | false => exact textRel_refl s s1 A _ rfl
  | tempo =>
    obtain ⟨n1, n2⟩ := hA.number _ _ (hstep (by decide))
    simp only [iterCmd, n1]
    exact textRel_mk s s1 A _ _ n2 _ _ _ _ _ _ _ _ _
  | length =>
    obtain ⟨n1, n2⟩ := hA.number _ _ (hstep (by decide))
    simp only [iterCmd, n1]
    exact textRel_mk s s1 A _ _ n2 _ _ _ _ _ _ _ _ _
  | octave =>
    obtain ⟨n1, n2⟩ := hA.number _ _ (hstep (by decide))
    simp only [iterCmd, n1]
    exact textRel_mk s s1 A _ _ n2 _ _ _ _ _ _ _ _ _
  | down => exact textRel_mk s s1 A _ _ (hstep (by decide)) _ _ _ _ _ _ _ _ _
  | up => exact textRel_mk s s1 A _ _ (hstep (by decide)) _ _ _ _ _ _ _ _ _
  | rest =>
    have hd := durationAt_aligned s s1 A hA mf tp dl _ _ (hstep (by decide))
    simp only [iterCmd]
    cases h1 : durationAt mf tp dl s (skipSpaces s i + 1) with
    | error e =>
      cases h2 : durationAt mf tp dl s1 (skipSpaces s1 i1 + 1) with
      | error e1 => rw [h1, h2] at hd; exact hd
      | ok r1 => rw [h1, h2] at hd; exact hd.elim
    | ok r =>
      cases h2 : durationAt mf tp dl s1 (skipSpaces s1 i1 + 1) with
      | error e1 => rw [h1, h2] at hd; exact hd.elim
      | ok r1 =>
        rw [h1, h2] at hd
        obtain ⟨e1, e2, e3⟩ : r1.1 = r.1 ∧ r1.2.1 = r.2.1 ∧ A r.2.2 r1.2.2 := hd
        simp only [e1]
        exact textRel_mk s s1 A _ _ e3 _ _ _ _ _ _ _ _ _
  | note key =>
    obtain ⟨a1, a2⟩ := accidentalAt_aligned s s1 A hA _ _ (hstep (by simp))
    have hd := durationAt_aligned s s1 A hA mf tp dl _ _ a2
    simp only [iterCmd, a1]
    cases h1 : durationAt mf tp dl s (accidentalAt s (skipSpaces s i + 1)).2 with
    | error e =>
      cases h2 : durationAt mf tp dl s1 (accidentalAt s1 (skipSpaces s1 i1 + 1)).2 with
      | error e1 => rw [h1, h2] at hd; exact hd
      | ok r1 => rw [h1, h2] at hd; exact hd.elim
    | ok r =>
      cases h2 : durationAt mf tp dl s1 (accidentalAt s1 (skipSpaces s1 i1 + 1)).2 with
      | error e1 => rw [h1, h2] at hd; exact hd.elim
      | ok r1 =>
        rw [h1, h2] at hd
        obtain ⟨e1, e2, e3⟩ : r1.1 = r.1 ∧ r1.2.1 = r.2.1 ∧ A r.2.2 r1.2.2 := hd
        simp only [e1, e2]
        exact textRel_mk s s1 A _ _ e3 _ _ _ _ _ _ _ _ _
  | wave =>
    obtain ⟨w1, w2⟩ := hwave rfl
    simp only [iterCmd, w1]
    cases waveformOf (s.getD (skipSpaces s i + 1) NUL) with
    | some wf => exact textRel_mk s s1 A _ _ w2 _ _ _ _ _ _ _ _ _
    | none => exact textRel_mk s s1 A _ _ w2 _ _ _ _ _ _ _ _ _
  | other => exact textRel_mk s s1 A _ _ (hstep (by decide)) _ _ _ _ _ _ _ _ _

theorem mml_parse_iter_aligned (s s1 : List Char) (A : Nat → Nat → Prop) (hA : Aligned s s1 A)
    (pow : ℚ → ℚ → ℚ) (mf : ℚ) (c c1 : AudioChannel) (h : TextRel s s1 A c c1) :
    StepRel (TextRel s s1 A) (mml_parse_iter pow mf c) (mml_parse_iter pow mf c1) := by
  obtain ⟨hpos, hl, ht, hf, hw, hd, hsl, htp, hoc, hdl⟩ := h
  rcases hpos with ⟨hsrc, hsrc1, i, i1, hin, hin1, hAi⟩ | ⟨hin, heq⟩
  · by_cases hle : i ≤ s.length
    · have hle1 : i1 ≤ s1.length := (hA.bound i i1 hAi).mp hle
      rw [mml_parse_iter_at pow mf c s i hsrc hin hle,
        mml_parse_iter_at pow mf c1 s1 i1 hsrc1 hin1 hle1]
      obtain ⟨src, cur, lp, t, f, w, d, sl, tp, oc, dl⟩ := c
      obtain ⟨src1, cur1, lp1, t1, f1, w1, d1, sl1, tp1, oc1, dl1⟩ := c1
      simp only at hsrc hsrc1 hin hin1 hl ht hf hw hd hsl htp hoc hdl
      subst hsrc hsrc1 hin hin1 hl ht hf hw hd hsl htp hoc hdl
      exact iterAt_aligned s s1 A hA pow mf i i1 hAi _ _ _ _ _ _ _ _ _
    · have hle1 : ¬ i1 ≤ s1.length := fun h1 => hle ((hA.bound i i1 hAi).mpr h1)
      rw [mml_parse_iter_overrun pow mf c s i hsrc hin hle,
        mml_parse_iter_overrun pow mf c1 s1 i1 hsrc1 hin1 hle1]
      exact rfl
  · subst heq
    have e : mml_parse_iter pow mf c1 = .done c1 := by
      unfold mml_parse_iter
      rw [hin]
    rw [e]
    exact textRel_refl s s1 A c1 hin

theorem parse_next_rel (R : AudioChannel → AudioChannel → Prop) (pow : ℚ → ℚ → ℚ) (mf : ℚ)
    (hstep : ∀ c c1, R c c1 → StepRel R (mml_parse_iter pow mf c) (mml_parse_iter pow mf c1)) :
    ∀ (fuel : Nat) (c c1 : AudioChannel), R c c1 →
      ParseRel R (mml_parse_next pow mf fuel c) (mml_parse_next pow mf fuel c1)
  | 0, _, _, _ => trivial
  | fuel + 1, c, c1, h => by
    have hs := hstep c c1 h
    rw [parse_next_succ, parse_next_succ]
    cases h1 : mml_parse_iter pow mf c with
    | next r =>
      cases h2 : mml_parse_iter pow mf c1 with
      | next r1 =>
        rw [h1, h2] at hs
        exact parse_next_rel R pow mf hstep fuel r r1 hs
      | done r1 => rw [h1, h2] at hs; exact hs.elim
      | fail f1 => rw [h1, h2] at hs; exact hs.elim
    | done r =>
      cases h2 : mml_parse_iter pow mf c1 with
      | next r1 => rw [h1, h2] at hs; exact hs.elim
      | done r1 => rw [h1, h2] at hs; exact hs
      | fail f1 => rw [h1, h2] at hs; exact hs.elim
    | fail f =>
      cases h2 : mml_parse_iter pow mf c1 with
      | next r1 => rw [h1, h2] at hs; exact hs.elim
      | done r1 => rw [h1, h2] at hs; exact hs.elim
      | fail f1 => rw [h1, h2] at hs; exact hs

theorem parse_run_rel (R : AudioChannel → AudioChannel → Prop) (pow : ℚ → ℚ → ℚ) (mf : ℚ)
    (hstep : ∀ c c1, R c c1 → StepRel R (mml_parse_iter pow mf c) (mml_parse_iter pow mf c1))
    (fuel : Nat) :
    ∀ (n : Nat) (c c1 : AudioChannel), R c c1 →
      RunRel R (parse_run pow mf fuel n c) (parse_run pow mf fuel n c1)
  | 0, _, _, _ => List.Forall₂.nil
  | n + 1, c, c1, h => by
    have hp := parse_next_rel R pow mf hstep fuel c c1 h
    unfold parse_run
    cases h1 : mml_parse_next pow mf fuel c with
    | none =>
      cases h2 : mml_parse_next pow mf fuel c1 with
      | none => trivial
      | some x => rw [h1, h2] at hp; cases x <;> exact hp.elim
    | some x =>
      cases x with
      | error f =>
        cases h2 : mml_parse_next pow mf fuel c1 with
        | none => rw [h1, h2] at hp; exact hp.elim
        | some y =>
          cases y with
          | error f1 => rw [h1, h2] at hp; exact hp
          | ok r1 => rw [h1, h2] at hp; exact hp.elim
      | ok r =>
        cases h2 : mml_parse_next pow mf fuel c1 with
        | none => rw [h1, h2] at hp; exact hp.elim
        | some y =>
          cases y with
          | error f1 => rw [h1, h2] at hp; exact hp.elim
          | ok r1 =>
            rw [h1, h2] at hp
            have hr : R r r1 := hp
            have ih := parse_run_rel R pow mf hstep fuel n r r1 hr
            simp only
            cases h3 : parse_run pow mf fuel n r with
            | none =>
              cases h4 : parse_run pow mf fuel n r1 with
              | none => trivial
              | some z => rw [h3, h4] at ih; cases z <;> exact ih.elim
            | some z =>
              cases z with
              | error f =>
                cases h4 : parse_run pow mf fuel n r1 with
                | none => rw [h3, h4] at ih; exact ih.elim
                | some z1 =>
                  cases z1 with
                  | error f1 => rw [h3, h4] at ih; exact ih
                  | ok rs1 => rw [h3, h4] at ih; exact ih.elim
              | ok rs =>
                cases h4 : parse_run pow mf fuel n r1 with
                | none => rw [h3, h4] at ih; exact ih.elim
                | some z1 =>
                  cases z1 with
                  | error f1 => rw [h3, h4] at ih; exact ih.elim
                  | ok rs1 =>
                    rw [h3, h4] at ih
                    exact List.Forall₂.cons hr ih

theorem runRel_map_eq {α : Type} (R : AudioChannel → AudioChannel → Prop) (g : AudioChannel → α)
    (hg : ∀ r r1, R r r1 → g r1 = g r)
    (x y : Option (Except Fault (List AudioChannel))) (h : RunRel R x y) :
    y.map (Except.map (List.map g)) = x.map (Except.map (List.map g)) := by
  cases x with
  | none =>
    cases y with
    | none => rfl
    | some z => cases z <;> exact h.elim
  | some z =>
    cases z with
    | error f =>
      cases y with
      | none => exact h.elim
      | some z1 =>
        cases z1 with
        | error f1 =>
          have e : f1 = f := h
          rw [e]
        | ok rs1 => exact h.elim
    | ok rs =>
      cases y with
      | none => exact h.elim
      | some z1 =>
        cases z1 with
        | error f1 => exact h.elim
        | ok rs1 =>
          have e : List.Forall₂ R rs rs1 := h
          simp only [Option.map_some', Except.map]
          rw [forall₂_map_eq R g hg rs rs1 e]

theorem contextOf_eq_of_textRel (s s1 : List Char) (A : Nat → Nat → Prop) (c c1 : AudioChannel)
    (h : TextRel s s1 A c c1) : contextOf c1 = contextOf c := by
  obtain ⟨-, hl, ht, hf, hw, hd, hsl, htp, hoc, hdl⟩ := h
  unfold contextOf
  rw [hl, ht, hf, hw, hd, hsl, htp, hoc, hdl]

/-- Two channels whose texts read alike, started at the first character in the same
state, give the same contexts over any run of parser invocations. -/
theorem parse_run_aligned (s s1 : List Char) (A : Nat → Nat → Prop) (hA : Aligned s s1 A)
    (pow : ℚ → ℚ → ℚ) (mf : ℚ) (fuel n : Nat) (c c1 : AudioChannel) (h : TextRel s s1 A c c1) :
    RunRel (TextRel s s1 A) (parse_run pow mf fuel n c) (parse_run pow mf fuel n c1) :=
  parse_run_rel (TextRel s s1 A) pow mf (mml_parse_iter_aligned s s1 A hA pow mf) fuel n c c1 h

/-! ## Letter case -/

theorem mem_upperLetters (a : Char) (h : 65 ≤ a.toNat ∧ a.toNat ≤ 90) : a ∈ upperLetters := by
  have e : a = Char.ofNat a.toNat := (Char.ofNat_toNat a).symm
  obtain ⟨h1, h2⟩ := h
  generalize a.toNat = n at e h1 h2
  subst e
  interval_cases n <;> decide

/-- A function that takes the same value on each upper case letter and its lower
case form does not see letter case. -/
theorem asciiLower_congr {β : Type} (f : Char → β)
    (h : ∀ a ∈ upperLetters, f (asciiLower a) = f a) (a : Char) : f (asciiLower a) = f a := by
  by_cases hu : 65 ≤ a.toNat ∧ a.toNat ≤ 90
  · exact h a (mem_upperLetters a hu)
  · unfold asciiLower
    rw [if_neg hu]

theorem eq_of_asciiLower_eq {β : Type} (f : Char → β)
    (h : ∀ a ∈ upperLetters, f (asciiLower a) = f a) (a b : Char)
    (hab : asciiLower b = asciiLower a) : f b = f a := by
  rw [← asciiLower_congr f h a, ← asciiLower_congr f h b, hab]

theorem cmdOf_asciiLower : ∀ a ∈ upperLetters, cmdOf (asciiLower a) = cmdOf a := by decide

theorem waveformOf_asciiLower : ∀ a ∈ upperLetters, waveformOf (asciiLower a) = waveformOf a := by
  decide

theorem isspace_asciiLower : ∀ a ∈ upperLetters, SDL_isspace (asciiLower a) = SDL_isspace a := by
  decide

theorem isdigit_asciiLower : ∀ a ∈ upperLetters, SDL_isdigit (asciiLower a) = SDL_isdigit a := by
  decide

theorem isNul_asciiLower :
    ∀ a ∈ upperLetters, decide (asciiLower a = NUL) = decide (a = NUL) := by decide

theorem isMark_asciiLower : ∀ ch ∈ ['.', '&', '#', '+', '-'],
    ∀ a ∈ upperLetters, decide (asciiLower a = ch) = decide (a = ch) := by decide

theorem digit_value_asciiLower :
    ∀ a ∈ upperLetters, (if SDL_isdigit (asciiLower a) then (asciiLower a).toNat else 0) =
      (if SDL_isdigit a then a.toNat else 0) := by decide

theorem asciiLower_NUL : asciiLower NUL = NUL := by decide

theorem countWhile_map_asciiLower (p : Char → Bool)
    (hp : ∀ a ∈ upperLetters, p (asciiLower a) = p a) :
    ∀ l : List Char, countWhile p (l.map asciiLower) = countWhile p l
  | [] => rfl
  | c :: cs => by
    simp only [List.map_cons, countWhile, asciiLower_congr p hp c,
      countWhile_map_asciiLower p hp cs]

theorem digitsLoop_map_asciiLower :
    ∀ (l : List Char) (v : Int) (k : Nat),
      digitsLoop (l.map asciiLower) v k = digitsLoop l v k
  | [], _, _ => rfl
  | c :: cs, v, k => by
    have h1 := asciiLower_congr SDL_isdigit isdigit_asciiLower c
    have h2 := asciiLower_congr (fun a => if SDL_isdigit a then a.toNat else 0)
      digit_value_asciiLower c
    simp only at h2
    simp only [List.map_cons, digitsLoop, h1]
    by_cases hd : SDL_isdigit c = true
    · rw [h1, hd] at h2
      simp only [if_true] at h2
      simp only [hd, if_true, h2]
      exact digitsLoop_map_asciiLower cs _ _
    · simp only [hd]
      rfl

theorem getD_asciiLower (s s1 : List Char) (h : s1.map asciiLower = s.map asciiLower) (j : Nat) :
    asciiLower (s1.getD j NUL) = asciiLower (s.getD j NUL) := by
  have e : ∀ l : List Char, asciiLower (l.getD j NUL) = (l.map asciiLower).getD j NUL := by
    intro l
    have := List.getD_map (l := l) (d := NUL) (n := j) asciiLower
    rw [asciiLower_NUL] at this
    exact this.symm
  rw [e, e, h]

theorem drop_asciiLower (s s1 : List Char) (h : s1.map asciiLower = s.map asciiLower) (j : Nat) :
    (s1.drop j).map asciiLower = (s.drop j).map asciiLower := by
  rw [List.map_drop, List.map_drop, h]

theorem skipSpaces_asciiLower (s s1 : List Char) (h : s1.map asciiLower = s.map asciiLower)
    (i : Nat) : skipSpaces s1 i = skipSpaces s i := by
  unfold skipSpaces
  rw [← countWhile_map_asciiLower SDL_isspace isspace_asciiLower (s1.drop i),
    ← countWhile_map_asciiLower SDL_isspace isspace_asciiLower (s.drop i),
    drop_asciiLower s s1 h i]

theorem numberAt_asciiLower (s s1 : List Char) (h : s1.map asciiLower = s.map asciiLower)
    (i : Nat) : numberAt s1 i = numberAt s i := by
  unfold numberAt
  rw [skipSpaces_asciiLower s s1 h i,
    ← digitsLoop_map_asciiLower (s1.drop (skipSpaces s i)),
    ← digitsLoop_map_asciiLower (s.drop (skipSpaces s i)), drop_asciiLower s s1 h]

theorem isNextAt_asciiLower (s s1 : List Char) (h : s1.map asciiLower = s.map asciiLower)
    (i : Nat) (ch : Char) (hch : ch ∈ ['.', '&', '#', '+', '-']) :
    isNextAt s1 i ch = isNextAt s i ch := by
  unfold isNextAt
  rw [skipSpaces_asciiLower s s1 h i]
  have e := eq_of_asciiLower_eq (fun a => decide (a = ch)) (isMark_asciiLower ch hch) _ _
    (getD_asciiLower s s1 h (skipSpaces s i))
  simp only [decide_eq_decide] at e
  by_cases hc : s.getD (skipSpaces s i) NUL = ch
  · rw [if_pos hc, if_pos (e.mpr hc)]
  · rw [if_neg hc, if_neg (fun h1 => hc (e.mp h1))]

/-- Two texts that differ in the case of ASCII letters only read alike from equal
cursors. -/
theorem aligned_of_asciiLower (s s1 : List Char) (h : s1.map asciiLower = s.map asciiLower) :
    Aligned s s1 Eq where
  start := rfl
  bound := by
    intro i i1 hi
    have := congrArg List.length h
    simp only [List.length_map] at this
    rw [hi, this]
  cmd := by
    intro i i1 hi
    subst hi
    rw [skipSpaces_asciiLower s s1 h i]
    exact eq_of_asciiLower_eq cmdOf cmdOf_asciiLower _ _ (getD_asciiLower s s1 h _)
  step := by
    intro i i1 hi _
    subst hi
    rw [skipSpaces_asciiLower s s1 h i]
  wave := by
    intro i i1 hi _
    subst hi
    rw [skipSpaces_asciiLower s s1 h i]
    exact ⟨eq_of_asciiLower_eq waveformOf waveformOf_asciiLower _ _ (getD_asciiLower s s1 h _),
      rfl⟩
  number := by
    intro p p1 hp
    subst hp
    rw [numberAt_asciiLower s s1 h p]
    exact ⟨rfl, rfl⟩
  isNext := by
    intro p p1 ch hch hp
    subst hp
    rw [isNextAt_asciiLower s s1 h p ch hch]
    exact ⟨rfl, rfl⟩

theorem SDL_strdup_asciiLower : ∀ (s s1 : List Char), s1.map asciiLower = s.map asciiLower →
    (SDL_strdup s1).map asciiLower = (SDL_strdup s).map asciiLower
  | [], [], _ => rfl
  | [], _ :: _, h => by simp at h
  | _ :: _, [], h => by simp at h
  | c :: cs, c1 :: cs1, h => by
    simp only [List.map_cons, List.cons.injEq] at h
    obtain ⟨hc, hcs⟩ := h
    have e := eq_of_asciiLower_eq (fun a => decide (a = NUL)) isNul_asciiLower _ _ hc
    simp only [decide_eq_decide] at e
    unfold SDL_strdup
    by_cases hn : c = NUL
    · rw [if_pos hn, if_pos (e.mpr hn)]
    · rw [if_neg hn, if_neg (fun h1 => hn (e.mp h1))]
      simp only [List.map_cons, hc, SDL_strdup_asciiLower cs cs1 hcs]

theorem cursor_eq_of_textRel (s s1 : List Char) (c c1 : AudioChannel)
    (h : TextRel s s1 Eq c c1) : c1.in_ = c.in_ := by
  obtain ⟨hpos, -⟩ := h
  rcases hpos with ⟨-, -, i, i1, hin, hin1, hi⟩ | ⟨-, heq⟩
  · rw [hin, hin1, hi]
  · rw [heq]

/-- C17: two channels started with the same loop flag and with command texts that
differ only in the case of ASCII letters produce, at every parser invocation, the
same event and context (phase, frequency, waveform, duration, silence, tempo,
octave, default length) and the same cursor offset; the invocations also fail or
run out of fuel alike. -/
theorem parser_ignores_letter_case (pow : ℚ → ℚ → ℚ) (mf : ℚ) (s s1 : List Char) (loop : Bool)
    (h : s1.map asciiLower = s.map asciiLower) (fuel n : Nat) :
    (parse_run pow mf fuel n (started s1 loop)).map
        (Except.map (List.map fun r => (r.in_, contextOf r))) =
      (parse_run pow mf fuel n (started s loop)).map
        (Except.map (List.map fun r => (r.in_, contextOf r))) := by
  have hd := SDL_strdup_asciiLower s s1 h
  have hA := aligned_of_asciiLower (SDL_strdup s) (SDL_strdup s1) hd
  have h0 : TextRel (SDL_strdup s) (SDL_strdup s1) Eq (started s loop) (started s1 loop) :=
    ⟨Or.inl ⟨rfl, rfl, 0, 0, rfl, rfl, rfl⟩, rfl, rfl, rfl, rfl, rfl, rfl, rfl, rfl, rfl⟩
  exact runRel_map_eq (TextRel (SDL_strdup s) (SDL_strdup s1) Eq)
    (fun r => (r.in_, contextOf r))
    (fun r r1 hr => by
      simp only
      rw [cursor_eq_of_textRel _ _ r r1 hr, contextOf_eq_of_textRel _ _ _ r r1 hr])
    _ _ (parse_run_aligned _ _ Eq hA pow mf fuel n _ _ h0)

set_option synthInstance.maxSize 1024 in
theorem parser_ignores_letter_case_witness :
    "t120 L8 Cd#".toList.map asciiLower = "T120 l8 cD#".toList.map asciiLower ∧
    (parse_run (fun _ _ => 1) 44100 4 2 (started "t120 L8 Cd#".toList true)).map
        (Except.map (List.map fun r => (r.in_, contextOf r))) =
      (parse_run (fun _ _ => 1) 44100 4 2 (started "T120 l8 cD#".toList true)).map
        (Except.map (List.map fun r => (r.in_, contextOf r))) :=
  ⟨by decide,
   parser_ignores_letter_case (fun _ _ => 1) 44100 "T120 l8 cD#".toList "t120 L8 Cd#".toList true
    (by decide) 4 2⟩

/-! ## Inserted whitespace -/

theorem countWhile_append (p : Char → Bool) : ∀ (x y : List Char),
    countWhile p (x ++ y) =
      if countWhile p x = x.length then x.length + countWhile p y else countWhile p x
  | [], y => by simp [countWhile]
  | c :: cs, y => by
    have ih := countWhile_append p cs y
    have hle := countWhile_le p cs
    have e1 : countWhile p (c :: (cs ++ y)) = if p c then countWhile p (cs ++ y) + 1 else 0 := rfl
    have e2 : countWhile p (c :: cs) = if p c then countWhile p cs + 1 else 0 := rfl
    rw [List.cons_append, e1, e2, ih, List.length_cons]
    by_cases hc : p c = true
    · rw [if_pos hc, if_pos hc]
      by_cases h : countWhile p cs = cs.length
      · rw [if_pos h, if_pos (by omega)]; omega
      · rw [if_neg h, if_neg (by omega)]
    · rw [if_neg hc, if_neg hc, if_neg (by omega)]

theorem countWhile_all (p : Char → Bool) : ∀ (w : List Char), (∀ c ∈ w, p c = true) →
    countWhile p w = w.length
  | [], _ => rfl
  | c :: cs, h => by
    have hc := h c (List.mem_cons_self c cs)
    have ih := countWhile_all p cs (fun d hd => h d (List.mem_cons_of_mem c hd))
    simp only [countWhile, hc, if_true, ih, List.length_cons]

theorem drop_shift (a w b : List Char) (m : Nat) :
    (a ++ (w ++ b)).drop (a.length + m + w.length) = (a ++ b).drop (a.length + m) := by
  rw [List.drop_append, add_assoc, List.drop_append, add_comm m, List.drop_append]

theorem getD_eq_drop (l : List Char) (j : Nat) : l.getD j NUL = (l.drop j).getD 0 NUL := by
  simp [List.getD_eq_getElem?_getD, List.getElem?_drop]

theorem getD_shift (a w b : List Char) (m : Nat) :
    (a ++ (w ++ b)).getD (a.length + m + w.length) NUL = (a ++ b).getD (a.length + m) NUL := by
  rw [getD_eq_drop, getD_eq_drop (a ++ b), drop_shift]

theorem getD_left (a w b : List Char) (j : Nat) (h : j < a.length) :
    (a ++ (w ++ b)).getD j NUL = (a ++ b).getD j NUL := by
  rw [List.getD_append _ _ _ _ h, List.getD_append _ _ _ _ h]

/-- Positions after whitespace has been skipped: strictly inside `a`, or shifted. -/
theorem skip_shifted (a w b : List Char) (hw : ∀ c ∈ w, SDL_isspace c = true) (i i1 : Nat)
    (h : Shifted a.length w.length i i1) :
    (skipSpaces (a ++ b) i < a.length ∧ skipSpaces (a ++ (w ++ b)) i1 = skipSpaces (a ++ b) i) ∨
    (a.length ≤ skipSpaces (a ++ b) i ∧
      skipSpaces (a ++ (w ++ b)) i1 = skipSpaces (a ++ b) i + w.length) := by
  unfold skipSpaces
  rcases h with ⟨hle, h1⟩ | ⟨hge, h1⟩
  · rw [h1, List.drop_append_of_le_length hle, List.drop_append_of_le_length hle,
      countWhile_append SDL_isspace (a.drop i) b,
      countWhile_append SDL_isspace (a.drop i) (w ++ b),
      countWhile_append SDL_isspace w b, if_pos (countWhile_all _ w hw)]
    have hle2 := countWhile_le SDL_isspace (a.drop i)
    rw [List.length_drop] at hle2 ⊢
    by_cases hc : countWhile SDL_isspace (a.drop i) = a.length - i
    · rw [if_pos hc, if_pos hc]
      right
      omega
    · rw [if_neg hc, if_neg hc]
      left
      omega
  · rw [h1]
    obtain ⟨m, rfl⟩ : ∃ m, i = a.length + m := ⟨i - a.length, by omega⟩
    rw [drop_shift]
    right
    omega

theorem digitsLoop_ge : ∀ (l : List Char) (v : Int) (k : Nat), k ≤ (digitsLoop l v k).2
  | [], v, k => by simp [digitsLoop]
  | c :: cs, v, k => by
    unfold digitsLoop
    split
    · have := digitsLoop_ge cs (wrap32 (wrap32 (v * 10) + ((c.toNat : Int) - 48))) (k + 1)
      omega
    · simp

theorem digitsLoop_append : ∀ (x y : List Char) (v : Int) (k : Nat),
    digitsLoop (x ++ y) v k =
      if (digitsLoop x v k).2 = k + x.length
      then digitsLoop y (digitsLoop x v k).1 (digitsLoop x v k).2 else digitsLoop x v k
  | [], y, v, k => by simp [digitsLoop]
  | c :: cs, y, v, k => by
    have e1 : digitsLoop (c :: (cs ++ y)) v k =
        if SDL_isdigit c then
          digitsLoop (cs ++ y) (wrap32 (wrap32 (v * 10) + ((c.toNat : Int) - 48))) (k + 1)
        else (v, k) := rfl
    have e2 : digitsLoop (c :: cs) v k =
        if SDL_isdigit c then
          digitsLoop cs (wrap32 (wrap32 (v * 10) + ((c.toNat : Int) - 48))) (k + 1)
        else (v, k) := rfl
    rw [List.cons_append, e1, e2, List.length_cons]
    by_cases hc : SDL_isdigit c = true
    · rw [if_pos hc, if_pos hc, digitsLoop_append cs y]
      by_cases h : (digitsLoop cs (wrap32 (wrap32 (v * 10) + ((c.toNat : Int) - 48))) (k + 1)).2 =
          k + 1 + cs.length
      · rw [if_pos h, if_pos (by omega)]
      · rw [if_neg h, if_neg (by omega)]
    · rw [if_neg hc, if_neg hc, if_neg (by simp)]

theorem digitsLoop_stop (y : List Char) (v : Int) (k : Nat)
    (h : SDL_isdigit (firstChar y) = false) : digitsLoop y v k = (v, k) := by
  cases y with
  | nil => rfl
  | cons c cs =>
    have hc : SDL_isdigit c = false := h
    unfold digitsLoop
    rw [if_neg (by rw [hc]; exact Bool.false_ne_true)]

theorem digitsLoop_full : ∀ (x : List Char) (v : Int) (k : Nat),
    (digitsLoop x v k).2 = k + x.length → ∀ c ∈ x, SDL_isdigit c = true
  | [], _, _ => by simp
  | c :: cs, v, k => by
    intro h d hd
    have e2 : digitsLoop (c :: cs) v k =
        if SDL_isdigit c then
          digitsLoop cs (wrap32 (wrap32 (v * 10) + ((c.toNat : Int) - 48))) (k + 1)
        else (v, k) := rfl
    rw [e2, List.length_cons] at h
    by_cases hc : SDL_isdigit c = true
    · rw [if_pos hc] at h
      rcases List.mem_cons.mp hd with rfl | hd
      · exact hc
      · exact digitsLoop_full cs _ (k + 1) (by rw [h]; omega) d hd
    · rw [if_neg hc] at h
      simp only at h
      omega

theorem lastChar_mem_drop (a : List Char) (j : Nat) (h : j < a.length) :
    lastChar a ∈ a.drop j := by
  unfold lastChar
  have h1 : a.length - 1 < a.length := by omega
  rw [List.getD_eq_getElem _ _ h1]
  have h2 : a.length - 1 - j < (a.drop j).length := by rw [List.length_drop]; omega
  have e : (a.drop j)[a.length - 1 - j] = a[a.length - 1] := by
    rw [List.getElem_drop]
    congr 1
    omega
  rw [← e]
  exact List.getElem_mem h2

theorem not_isdigit_of_isspace (c : Char) (h : SDL_isspace c = true) : SDL_isdigit c = false := by
  unfold SDL_isspace at h
  unfold SDL_isdigit
  simp only [Bool.or_eq_true, Bool.and_eq_true, decide_eq_true_eq] at h
  simp only [Bool.and_eq_false_iff, decide_eq_false_iff_not]
  omega

theorem firstChar_append (w b : List Char) (h : w ≠ []) : firstChar (w ++ b) = firstChar w := by
  cases w with
  | nil => exact absurd rfl h
  | cons c cs => rfl

theorem firstChar_mem (w : List Char) (h : w ≠ []) : firstChar w ∈ w := by
  cases w with
  | nil => exact absurd rfl h
  | cons c cs => exact List.mem_cons_self c cs

theorem number_shifted (a w b : List Char) (hw : ∀ c ∈ w, SDL_isspace c = true)
    (hdig : ¬ (SDL_isdigit (lastChar a) = true ∧ SDL_isdigit (firstChar b) = true))
    (p p1 : Nat) (h : Shifted a.length w.length p p1) :
    (numberAt (a ++ (w ++ b)) p1).1 = (numberAt (a ++ b) p).1 ∧
      Shifted a.length w.length (numberAt (a ++ b) p).2 (numberAt (a ++ (w ++ b)) p1).2 := by
  unfold numberAt
  simp only
  rcases skip_shifted a w b hw p p1 h with ⟨hlt, hj⟩ | ⟨hge, hj⟩
  · rw [hj, List.drop_append_of_le_length (le_of_lt hlt),
      List.drop_append_of_le_length (le_of_lt hlt),
      digitsLoop_append (a.drop (skipSpaces (a ++ b) p)) b,
      digitsLoop_append (a.drop (skipSpaces (a ++ b) p)) (w ++ b)]
    have hle := digitsLoop_le (a.drop (skipSpaces (a ++ b) p)) 0 0
    rw [List.length_drop] at hle ⊢
    by_cases hfull : (digitsLoop (a.drop (skipSpaces (a ++ b) p)) 0 0).2 =
        0 + (a.length - skipSpaces (a ++ b) p)
    · rw [if_pos hfull, if_pos hfull]
      have hall := digitsLoop_full (a.drop (skipSpaces (a ++ b) p)) 0 0
        (by rw [List.length_drop]; exact hfull)
      have hlast := hall _ (lastChar_mem_drop a _ hlt)
      have hb : SDL_isdigit (firstChar b) = false := by
        cases hfb : SDL_isdigit (firstChar b) with
        | false => rfl
        | true => exact absurd ⟨hlast, hfb⟩ hdig
      have hwb : SDL_isdigit (firstChar (w ++ b)) = false := by
        by_cases hwe : w = []
        · rw [hwe]; exact hb
        · rw [firstChar_append w b hwe]
          exact not_isdigit_of_isspace _ (hw _ (firstChar_mem w hwe))
      rw [digitsLoop_stop b _ _ hb, digitsLoop_stop (w ++ b) _ _ hwb]
      refine ⟨rfl, Or.inl ⟨?_, rfl⟩⟩
      omega
    · rw [if_neg hfull, if_neg hfull]
      refine ⟨rfl, Or.inl ⟨?_, rfl⟩⟩
      omega
  · obtain ⟨m, hm⟩ : ∃ m, skipSpaces (a ++ b) p = a.length + m :=
      ⟨skipSpaces (a ++ b) p - a.length, by omega⟩
    rw [hj, hm, drop_shift]
    refine ⟨rfl, Or.inr ⟨?_, ?_⟩⟩
    · omega
    · omega

theorem getD_shifted (a w b : List Char) (j j1 : Nat)
    (h : (j < a.length ∧ j1 = j) ∨ (a.length ≤ j ∧ j1 = j + w.length)) :
    (a ++ (w ++ b)).getD j1 NUL = (a ++ b).getD j NUL := by
  rcases h with ⟨hlt, hj⟩ | ⟨hge, hj⟩
  · rw [hj]; exact getD_left a w b j hlt
  · obtain ⟨m, rfl⟩ : ∃ m, j = a.length + m := ⟨j - a.length, by omega⟩
    rw [hj]; exact getD_shift a w b m

theorem isNext_shifted (a w b : List Char) (hw : ∀ c ∈ w, SDL_isspace c = true)
    (p p1 : Nat) (ch : Char) (h : Shifted a.length w.length p p1) :
    (isNextAt (a ++ (w ++ b)) p1 ch).1 = (isNextAt (a ++ b) p ch).1 ∧
      Shifted a.length w.length (isNextAt (a ++ b) p ch).2 (isNextAt (a ++ (w ++ b)) p1 ch).2 := by
  have hs := skip_shifted a w b hw p p1 h
  have hg := getD_shifted a w b _ _ hs
  unfold isNextAt
  rw [hg]
  by_cases hc : (a ++ b).getD (skipSpaces (a ++ b) p) NUL = ch
  · rw [if_pos hc, if_pos hc]
    refine ⟨rfl, ?_⟩
    rcases hs with ⟨hlt, hj⟩ | ⟨hge, hj⟩
    · exact Or.inl ⟨by simp only; omega, by simp only; omega⟩
    · exact Or.inr ⟨by simp only; omega, by simp only; omega⟩
  · rw [if_neg hc, if_neg hc]
    refine ⟨rfl, ?_⟩
    rcases hs with ⟨hlt, hj⟩ | ⟨hge, hj⟩
    · exact Or.inl ⟨by simp only; omega, hj⟩
    · exact Or.inr ⟨hge, hj⟩

theorem cmdOf_wave (x : Char) (h : cmdOf x = Cmd.wave) : x = 'W' ∨ x = 'w' := by
  by_contra hn
  unfold cmdOf at h
  split_ifs at h
  split at h
  · exact Cmd.noConfusion h
  · exact Cmd.noConfusion h

/-- The texts `a ++ b` and `a ++ w ++ b`, with `w` whitespace inserted neither
between two digits nor right after a `W`, read alike from shifted cursors. -/
theorem aligned_of_inserted (a w b : List Char) (hw : ∀ c ∈ w, SDL_isspace c = true)
    (hdig : ¬ (SDL_isdigit (lastChar a) = true ∧ SDL_isdigit (firstChar b) = true))
    (hW : lastChar a ≠ 'W' ∧ lastChar a ≠ 'w') :
    Aligned (a ++ b) (a ++ (w ++ b)) (Shifted a.length w.length) where
  start := Or.inl ⟨Nat.zero_le _, rfl⟩
  bound := by
    intro i i1 h
    simp only [List.length_append]
    rcases h with ⟨hle, hj⟩ | ⟨hge, hj⟩
    · constructor <;> intro <;> omega
    · constructor <;> intro <;> omega
  cmd := by
    intro i i1 h
    rw [getD_shifted a w b _ _ (skip_shifted a w b hw i i1 h)]
  step := by
    intro i i1 h _
    rcases skip_shifted a w b hw i i1 h with ⟨hlt, hj⟩ | ⟨hge, hj⟩
    · exact Or.inl ⟨by omega, by omega⟩
    · exact Or.inr ⟨by omega, by omega⟩
  wave := by
    intro i i1 h hcmd
    have hs := skip_shifted a w b hw i i1 h
    have hch := cmdOf_wave _ hcmd
    rcases hs with ⟨hlt, hj⟩ | ⟨hge, hj⟩
    · by_cases hlast : skipSpaces (a ++ b) i + 1 = a.length
      · exfalso
        have e : lastChar a = (a ++ b).getD (skipSpaces (a ++ b) i) NUL := by
          unfold lastChar
          rw [List.getD_append _ _ _ _ hlt]
          congr 1
          omega
        rw [← e] at hch
        rcases hch with h1 | h1
        · exact hW.1 h1
        · exact hW.2 h1
      · have hlt2 : skipSpaces (a ++ b) i + 1 < a.length := by omega
        rw [hj, getD_left a w b _ hlt2]
        exact ⟨rfl, Or.inl ⟨by omega, rfl⟩⟩
    · have := getD_shifted a w b (skipSpaces (a ++ b) i + 1) (skipSpaces (a ++ (w ++ b)) i1 + 1)
        (Or.inr ⟨by omega, by omega⟩)
      rw [this]
      exact ⟨rfl, Or.inr ⟨by omega, by omega⟩⟩
  number := fun p p1 h => number_shifted a w b hw hdig p p1 h
  isNext := fun p p1 ch _ h => isNext_shifted a w b hw p p1 ch h

theorem isspace_ne_nul (c : Char) (h : SDL_isspace c = true) : c ≠ NUL := by
  intro e
  rw [e] at h
  exact absurd h (by decide)

/-- C18 as stated fails: in `"WNC"` the `N` after `W` selects the noise waveform
for the note that follows; with a space inserted between `W` and its selector,
`"W NC"`, the space is taken as the selector, the waveform stays pulse 50% and the
`N` is skipped as an unrecognized character. -/
theorem space_after_W_is_the_selector :
    SDL_isspace ' ' = true ∧
    ∀ pow : ℚ → ℚ → ℚ, ∃ r r1,
      mml_parse_next pow 44100 3 (started "WNC".toList false) = some (.ok r) ∧
      mml_parse_next pow 44100 3 (started "W NC".toList false) = some (.ok r1) ∧
      r.waveform = Waveform.NOISE ∧ r1.waveform = Waveform.PULSE_50 ∧
      r.duration = r1.duration := by
  refine ⟨by decide, fun pow => ?_⟩
  have h1 : iterAt pow 44100 (started "WNC".toList false) "WNC".toList 0 =
      .next { started "WNC".toList false with in_ := some 2, waveform := .NOISE } := rfl
  have h2 := parse_note_result pow 44100 1
    { started "WNC".toList false with in_ := some 2, waveform := .NOISE } "WNC".toList 2 4
    rfl rfl (by decide) (by decide) (by norm_num) (by norm_num) (by decide) (by decide)
    (by decide) (by decide)
  have h3 := (run_next pow 44100 2 _ _ "WNC".toList 0 rfl rfl (by decide) h1).trans h2
  have g1 : iterAt pow 44100 (started "W NC".toList false) "W NC".toList 0 =
      .next { started "W NC".toList false with in_ := some 2 } := rfl
  have g2 : iterAt pow 44100 { started "W NC".toList false with in_ := some 2 }
      "W NC".toList 2 = .next { started "W NC".toList false with in_ := some 3 } := rfl
  have g3 := parse_note_result pow 44100 0
    { started "W NC".toList false with in_ := some 3 } "W NC".toList 3 4
    rfl rfl (by decide) (by decide) (by norm_num) (by norm_num) (by decide) (by decide)
    (by decide) (by decide)
  have g4 := ((run_next pow 44100 2 _ _ "W NC".toList 0 rfl rfl (by decide) g1).trans
    (run_next pow 44100 1 _ _ "W NC".toList 2 rfl rfl (by decide) g2)).trans g3
  exact ⟨_, _, h3, g4, rfl, rfl, rfl⟩

/-- C18, amended: whitespace inserted into a command text anywhere except between
two digits (inside a numeric literal) and except right after a `W` or `w` does not
change what the parser produces: over any number of invocations the events and
contexts are the same, and so are faults and non-termination.  The selector after
`W` is read without skipping whitespace: a whitespace character there is consumed
as the selector and the waveform is left as it was. -/
theorem whitespace_skipped_except_after_W (pow : ℚ → ℚ → ℚ) (mf : ℚ) (a w b : List Char)
    (loop : Bool) (hnul : ∀ c ∈ a ++ b, c ≠ NUL) (hw : ∀ c ∈ w, SDL_isspace c = true)
    (hdig : ¬ (SDL_isdigit (lastChar a) = true ∧ SDL_isdigit (firstChar b) = true))
    (hW : lastChar a ≠ 'W' ∧ lastChar a ≠ 'w') :
    (∀ fuel n : Nat,
      (parse_run pow mf fuel n (started (a ++ w ++ b) loop)).map
          (Except.map (List.map contextOf)) =
        (parse_run pow mf fuel n (started (a ++ b) loop)).map
          (Except.map (List.map contextOf))) ∧
    (∀ (c : AudioChannel) (s : List Char) (i : Nat), c.source = some s → c.in_ = some i →
      i ≤ s.length →
      (s.getD (skipSpaces s i) NUL = 'W' ∨ s.getD (skipSpaces s i) NUL = 'w') →
      SDL_isspace (s.getD (skipSpaces s i + 1) NUL) = true →
      mml_parse_iter pow mf c = .next { c with in_ := some (skipSpaces s i + 2) }) := by
  constructor
  · intro fuel n
    have hA := aligned_of_inserted a w b hw hdig hW
    have e1 : SDL_strdup (a ++ b) = a ++ b := SDL_strdup_of_no_nul _ hnul
    have e2 : SDL_strdup (a ++ w ++ b) = a ++ (w ++ b) := by
      rw [List.append_assoc]
      apply SDL_strdup_of_no_nul
      intro c hc
      rcases List.mem_append.mp hc with h1 | h1
      · exact hnul c (List.mem_append_left b h1)
      · rcases List.mem_append.mp h1 with h2 | h2
        · exact isspace_ne_nul c (hw c h2)
        · exact hnul c (List.mem_append_right a h2)
    have h0 : TextRel (a ++ b) (a ++ (w ++ b)) (Shifted a.length w.length)
        (started (a ++ b) loop) (started (a ++ w ++ b) loop) := by
      refine ⟨Or.inl ⟨?_, ?_, 0, 0, rfl, rfl, hA.start⟩, rfl, rfl, rfl, rfl, rfl, rfl, rfl, rfl,
        rfl⟩
      · show some (SDL_strdup (a ++ b)) = _
        rw [e1]
      · show some (SDL_strdup (a ++ w ++ b)) = _
        rw [e2]
    exact runRel_map_eq (TextRel (a ++ b) (a ++ (w ++ b)) (Shifted a.length w.length)) contextOf
      (fun r r1 hr => contextOf_eq_of_textRel _ _ _ r r1 hr) _ _
      (parse_run_aligned _ _ _ hA pow mf fuel n _ _ h0)
  · intro c s i hsrc hin hi hch hsp
    rw [mml_parse_iter_at pow mf c s i hsrc hin hi, iterAt_eq_cmd]
    have hcmd : cmdOf (s.getD (skipSpaces s i) NUL) = Cmd.wave := by
      rcases hch with h1 | h1 <;> rw [h1] <;> decide
    have hsel : waveformOf (s.getD (skipSpaces s i + 1) NUL) = none := by
      generalize s.getD (skipSpaces s i + 1) NUL = x at hsp
      unfold SDL_isspace at hsp
      simp only [Bool.or_eq_true, Bool.and_eq_true, decide_eq_true_eq] at hsp
      have hne : ∀ y : Char, (y.toNat ≠ 32 ∧ ¬ (9 ≤ y.toNat ∧ y.toNat ≤ 13)) → x ≠ y := by
        intro y hy e
        rw [e] at hsp
        omega
      unfold waveformOf
      rw [if_neg (hne '1' (by decide)), if_neg (hne '2' (by decide)),
        if_neg (hne '5' (by decide)),
        if_neg (not_or.mpr ⟨hne 'T' (by decide), hne 't' (by decide)⟩),
        if_neg (not_or.mpr ⟨hne 'S' (by decide), hne 's' (by decide)⟩),
        if_neg (not_or.mpr ⟨hne 'N' (by decide), hne 'n' (by decide)⟩)]
    rw [hcmd]
    simp only [iterCmd, hsel]

set_option synthInstance.maxSize 1024 in
theorem whitespace_skipped_except_after_W_witness :
    (∀ fuel n : Nat,
      (parse_run (fun _ _ => 1) 44100 fuel n
          (started ("T120".toList ++ " \t ".toList ++ "C4.&WNC".toList) true)).map
          (Except.map (List.map contextOf)) =
        (parse_run (fun _ _ => 1) 44100 fuel n
          (started ("T120".toList ++ "C4.&WNC".toList) true)).map
          (Except.map (List.map contextOf))) ∧
    (parse_run (fun _ _ => 1) 44100 4 2
        (started ("T120".toList ++ "C4.&WNC".toList) true)).map
        (Except.map (List.map fun r => (r.waveform, r.duration, r.silence))) =
      some (.ok [(Waveform.PULSE_50, 33075, 0), (Waveform.NOISE, 22050, 2756)]) :=
  ⟨(whitespace_skipped_except_after_W (fun _ _ => 1) 44100 "T120".toList " \t ".toList
      "C4.&WNC".toList true (by decide) (by decide) (by decide) (by decide)).1,
   by decide!⟩

/-! ## The device lock -/

theorem unlocked_touches_held (js : List (Fin 8)) (ops : List AudioOp) :
    unlocked_touches true true (js.map AudioOp.touch ++ ops) = unlocked_touches true true ops := by
  induction js with
  | nil => rfl
  | cons j js ih =>
    simp only [List.map_cons, List.cons_append, unlocked_touches]
    exact ih

theorem callback_ops_held : ∀ len : Nat,
    unlocked_touches true true (px_audio_mixer_callback_ops len) = []
  | 0 => rfl
  | len + 1 => by
    unfold px_audio_mixer_callback_ops
    rw [unlocked_touches_held]
    exact callback_ops_held len

/-- C19 (the code departs from it): `px_lua_init` zeroes the eight channels after
it has opened and unpaused the audio device, and it never takes the device lock:
all eight writes happen unlocked while the audio thread may run the callback.
`f_play` and `f_stop` do touch their channel only between lock and unlock, and the
callback touches the channels without locking, relying on its caller to hold the
lock. -/
theorem init_zeroes_channels_unlocked :
    unlocked_touches false false (px_lua_init_ops false) = List.finRange 8 ∧
    unlocked_touches false false (px_lua_init_ops true) = [] ∧
    (∀ (audio_device : Nat) (i : Int),
      unlocked_touches true false (f_play_ops audio_device i) = [] ∧
      unlocked_touches true false (f_stop_ops audio_device i) = []) ∧
    (∀ len : Nat, unlocked_touches true true (px_audio_mixer_callback_ops len) = []) ∧
    unlocked_touches true false (px_audio_mixer_callback_ops 1) = List.finRange 8 := by
  refine ⟨by decide, by decide, fun d i => ⟨?_, ?_⟩, callback_ops_held, by decide⟩
  · unfold f_play_ops
    simp only
    split
    · split
      · simp [unlocked_touches]
      · rfl
    · rfl
  · unfold f_stop_ops
    simp only
    split
    · split
      · simp [unlocked_touches]
      · rfl
    · rfl

/-! ## Invariants of the parser loop -/

/-- A property every pass of the parser loop preserves holds of the channel a
parser invocation returns. -/
theorem parse_next_inv (P : AudioChannel → Prop) (pow : ℚ → ℚ → ℚ) (mf : ℚ)
    (hstep : ∀ c, P c → StepAll P (mml_parse_iter pow mf c)) :
    ∀ (fuel : Nat) (c r : AudioChannel), P c → mml_parse_next pow mf fuel c = some (.ok r) → P r
  | 0, _, _, _, h => by simp [mml_parse_next] at h
  | fuel + 1, c, r, hc, h => by
    have hs := hstep c hc
    rw [parse_next_succ] at h
    cases h1 : mml_parse_iter pow mf c with
    | next c1 =>
      rw [h1] at h hs
      exact parse_next_inv P pow mf hstep fuel c1 r hs h
    | done c1 =>
      rw [h1] at h hs
      simp only [Option.some.injEq, Except.ok.injEq] at h
      rw [← h]
      exact hs
    | fail f =>
      rw [h1] at h
      simp at h

theorem iterCmd_phase (pow : ℚ → ℚ → ℚ) (mf : ℚ) (c : AudioChannel) (s : List Char) (j : Nat)
    (cmd : Cmd) (t0 : ℚ) (h : c.t = t0 ∨ c.t = 0) :
    StepAll (fun r => r.t = t0 ∨ r.t = 0) (iterCmd pow mf c s j cmd) := by
  cases cmd with
  | stop =>
    unfold iterCmd
    cases c.looping with
    | true => exact h
    | false => exact Or.inr rfl
  | tempo => exact h
  | length => exact h
  | octave => exact h
  | down => exact h
  | up => exact h
  | rest =>
    unfold iterCmd
    cases durationAt mf c.tempo c.default_length s (j + 1) with
    | error e => trivial
    | ok r => exact h
  | note key =>
    unfold iterCmd
    cases durationAt mf c.tempo c.default_length s (accidentalAt s (j + 1)).2 with
    | error e => trivial
    | ok r => exact Or.inr rfl
  | wave =>
    unfold iterCmd
    cases waveformOf (s.getD (j + 1) NUL) with
    | some w => exact h
    | none => exact h
  | other => exact h

theorem mml_parse_iter_phase (pow : ℚ → ℚ → ℚ) (mf : ℚ) (t0 : ℚ) (c : AudioChannel)
    (h : c.t = t0 ∨ c.t = 0) :
    StepAll (fun r => r.t = t0 ∨ r.t = 0) (mml_parse_iter pow mf c) := by
  cases hin : c.in_ with
  | none =>
    have e : mml_parse_iter pow mf c = .done c := by
      unfold mml_parse_iter
      rw [hin]
    rw [e]
    exact h
  | some i =>
    cases hsrc : c.source with
    | none =>
      rw [mml_parse_iter_no_source pow mf c i hsrc hin]
      trivial
    | some s =>
      by_cases hle : i ≤ s.length
      · rw [mml_parse_iter_at pow mf c s i hsrc hin hle, iterAt_eq_cmd]
        exact iterCmd_phase pow mf c s _ _ t0 h
      · rw [mml_parse_iter_overrun pow mf c s i hsrc hin hle]
        trivial

/-- The parser leaves the phase as it was or resets it to 0. -/
theorem parse_phase (pow : ℚ → ℚ → ℚ) (mf : ℚ) (fuel : Nat) (c r : AudioChannel)
    (h : mml_parse_next pow mf fuel c = some (.ok r)) : r.t = c.t ∨ r.t = 0 :=
  parse_next_inv (fun r => r.t = c.t ∨ r.t = 0) pow mf
    (fun c1 h1 => mml_parse_iter_phase pow mf c.t c1 h1) fuel c r (Or.inl rfl) h

theorem tick_parse_phase (pow : ℚ → ℚ → ℚ) (mf : ℚ) (fuel : Nat) (c r : AudioChannel)
    (h : tick_parse pow mf fuel c = some (.ok r)) : r.t = c.t ∨ r.t = 0 := by
  unfold tick_parse at h
  simp only at h
  split at h
  · exact parse_phase pow mf fuel { c with duration := wrap32 (c.duration - 1) } r h
  · simp only [Option.some.injEq, Except.ok.injEq] at h
    rw [← h]
    exact Or.inl rfl

/-! ## The phase after a tick -/

/-- The switch of the mixer is free of faults at a single precision phase in
`[0, 1)`, for a noise table of 1024 entries. -/
theorem mix_waveform_ok (noise : List Int) (w : Waveform) (t : ℚ) (v : Int)
    (hlen : noise.length = 1024) (ht0 : 0 ≤ t) (ht1 : t < 1) (hF : IsF32 t) :
    ∃ v1 : Int, mix_waveform noise w t v = .ok v1 := by
  cases w with
  | SILENCE => exact ⟨_, mix_waveform_silence noise t v⟩
  | PULSE_12 => exact ⟨_, mix_waveform_pulse_12 noise t v⟩
  | PULSE_25 => exact ⟨_, mix_waveform_pulse_25 noise t v⟩
  | PULSE_50 => exact ⟨_, mix_waveform_pulse_50 noise t v⟩
  | SAWTOOTH =>
    obtain ⟨e, -, -⟩ := sawtooth_range t ht0 ht1 hF
    refine ⟨addSample v (trunc (f32_mul (f32_add (-1) (f32_mul t 2)) 4)), ?_⟩
    rw [mix_waveform_sawtooth, e]
  | TRIANLGE =>
    obtain ⟨e, -, -⟩ := triangle_range t ht0 ht1
    refine ⟨addSample v (trunc (f32_mul
        (if t < 1 / 4 then f32_mul t 4
         else if t < 3 / 4 then f32_sub 1 (f32_mul (f32_sub t (1 / 4)) 4)
         else f32_add (-1) (f32_mul (f32_sub t (3 / 4)) 4)) 8)), ?_⟩
    rw [mix_waveform_triangle, e]
  | NOISE =>
    obtain ⟨e, l, u⟩ := noise_index_range t ht0 ht1 hF
    have hi : (trunc (f32_mul t (PX_AUDIO_NOISE : ℚ))).toNat < noise.length := by
      rw [hlen]; omega
    refine ⟨addSample v (noise.getD (trunc (f32_mul t (PX_AUDIO_NOISE : ℚ))).toNat 0), ?_⟩
    rw [mix_waveform_noise, e]
    simp only
    rw [if_pos ⟨l, hi⟩]

theorem phase_next_fract (mf t f : ℚ) (hmf : 1 ≤ mf) (ht0 : 0 ≤ t) (hf0 : 0 ≤ f) :
    phase_next mf t f = Int.fract (f32_add t (f32_mul (f32 (1 / mf)) f)) := by
  have hs0 : 0 ≤ f32 (1 / mf) := f32_nonneg _ (by positivity)
  have hp0 : 0 ≤ f32 (f32 (1 / mf) * f) := f32_nonneg _ (mul_nonneg hs0 hf0)
  have ha0 : 0 ≤ f32 (t + f32 (f32 (1 / mf) * f)) := f32_nonneg _ (by linarith)
  have hF := f32_isF32 (t + f32 (f32 (1 / mf) * f))
  obtain ⟨hfl, hfr⟩ := isF32_floor_frac _ hF ha0
  unfold phase_next f32_sub f32_add f32_mul Int.fract
  rw [trunc_of_nonneg _ ha0, f32_of_isF32 _ hfl, f32_of_isF32 _ hfr]

/-- The index into the noise table is the integer part of `1024` times the phase. -/
theorem noise_index_floor (t : ℚ) (ht0 : 0 ≤ t) (hF : IsF32 t) :
    trunc (f32_mul t (PX_AUDIO_NOISE : ℚ)) = ⌊t * 1024⌋ := by
  have hN : ((PX_AUDIO_NOISE : Nat) : ℚ) = 1024 := by norm_num [PX_AUDIO_NOISE]
  rw [hN]
  unfold f32_mul
  obtain ⟨m, k, hm, hk, rfl⟩ := hF
  have h2 : (2 : ℚ) ≠ 0 := by norm_num
  have e : IsF32 ((m : ℚ) * (2 : ℚ) ^ k * 1024) :=
    ⟨m, k + 10, hm, by omega, by rw [zpow_add₀ h2]; norm_num; ring⟩
  rw [f32_of_isF32 _ e, trunc_of_nonneg _ (by linarith)]

/-- A parser invocation that finds a note at the cursor returns with the phase 0. -/
theorem parse_note_phase (pow : ℚ → ℚ → ℚ) (mf : ℚ) (fuel : Nat) (c r : AudioChannel)
    (s : List Char) (i : Nat) (key : Int) (acc : Char) (dt : DurationText)
    (hc : AtNote c s i key acc dt) (h : mml_parse_next pow mf fuel c = some (.ok r)) :
    r.t = 0 := by
  obtain ⟨hsrc, hin, hi, hkey, -, -⟩ := hc
  cases fuel with
  | zero => simp [mml_parse_next] at h
  | succ n =>
    rw [parse_next_at pow mf n c s i hsrc hin hi, iterAt_note pow mf c s i key hkey] at h
    cases hd : durationAt mf c.tempo c.default_length s
        (accidentalAt s (skipSpaces s i + 1)).2 with
    | error e =>
      rw [hd] at h
      simp at h
    | ok d =>
      rw [hd] at h
      simp only [Option.some.injEq, Except.ok.injEq] at h
      rw [← h]

/-- C21 as stated fails: the phase is computed in single precision, so it is not the
fractional part of `phase + frequency / sample_rate`: from phase 0 at 440 Hz and
44100 Hz one tick leaves 5356535 / 2 ^ 29, not 22 / 2205.  And a frequency as large
as `2 ^ 50` Hz takes the sum out of the range of the conversion `(int)t`. -/
theorem phase_is_rounded_not_exact :
    (∃ v c1, mix_channel (fun _ _ => 1) 44100 [] 0 0
        { started "C".toList false with frequency := 440, duration := 100, silence := 12 } =
        some (.ok (v, c1)) ∧
      c1.t = 5356535 / 536870912 ∧ c1.t ≠ Int.fract ((0 : ℚ) + 440 / 44100)) ∧
    Int.fract ((0 : ℚ) + 440 / 44100) = 22 / 2205 ∧
    mix_channel (fun _ _ => 1) 44100 [] 0 0
        { started "C".toList false with
          frequency := 1125899906842624, duration := 100, silence := 12 } =
      some (.error .castRange) := by
  have hfr : Int.fract ((0 : ℚ) + 440 / 44100) = 22 / 2205 := by
    rw [Int.fract_eq_iff]
    refine ⟨by norm_num, by norm_num, 0, by norm_num⟩
  refine ⟨⟨4, { started "C".toList false with
      frequency := 440, duration := 99, silence := 12, t := 5356535 / 536870912 },
    by decide!, rfl, ?_⟩, hfr, by decide!⟩
  rw [hfr]
  norm_num

/-- C21, amended: from a phase in `[0, 1)`, at a sample rate of at least 1 Hz, a tick
whose parser stage returns with a frequency in `[0, 2 ^ 30]` leaves a phase in
`[0, 1)`: the fractional part of the single precision sum
`t + 1.0f / mixing_frequency * frequency`, where `t` is the old phase, or 0 when the
parser has reset it, as it does when the tick parses a note.  That fractional part is
exact, the sum is rounded.  The noise index `(int)(t * 1024)` is then the integer
part of 1024 times the new phase and lies in `[0, 1023]`. -/
theorem phase_after_tick (pow : ℚ → ℚ → ℚ) (mf : ℚ) (noise : List Int) (fuel : Nat) (v : Int)
    (c r : AudioChannel) (hmf : 1 ≤ mf) (hlen : noise.length = 1024)
    (hp : tick_parse pow mf fuel c = some (.ok r))
    (ht : 0 ≤ c.t ∧ c.t < 1) (hf : 0 ≤ r.frequency ∧ r.frequency ≤ 1073741824) :
    (r.t = c.t ∨ r.t = 0) ∧
    (∃ v1 c1, mix_channel pow mf noise fuel v c = some (.ok (v1, c1)) ∧
      c1.t = Int.fract (f32_add r.t (f32_mul (f32 (1 / mf)) r.frequency)) ∧
      0 ≤ c1.t ∧ c1.t < 1 ∧
      f32_to_int (f32_mul c1.t (PX_AUDIO_NOISE : ℚ)) = .ok ⌊c1.t * 1024⌋ ∧
      0 ≤ ⌊c1.t * 1024⌋ ∧ ⌊c1.t * 1024⌋ ≤ 1023) ∧
    (∀ (s : List Char) (i : Nat) (key : Int) (acc : Char) (dt : DurationText),
      wrap32 (c.duration - 1) < 0 →
      AtNote { c with duration := wrap32 (c.duration - 1) } s i key acc dt → r.t = 0) := by
  have hrt := tick_parse_phase pow mf fuel c r hp
  have ht0 : 0 ≤ r.t := by
    rcases hrt with e | e
    · rw [e]; exact ht.1
    · rw [e]
  have ht1 : r.t < 1 := by
    rcases hrt with e | e
    · rw [e]; exact ht.2
    · rw [e]; norm_num
  obtain ⟨-, -, p0, p1, pF⟩ := phase_next_spec mf r.t r.frequency hmf ht0 ht1 hf.1 hf.2
  refine ⟨hrt, ?_, ?_⟩
  · obtain ⟨v1, hv1⟩ := mix_waveform_ok noise (sounding r) (phase_next mf r.t r.frequency) v hlen
      p0 p1 pF
    obtain ⟨e, l, u⟩ := noise_index_range _ p0 p1 pF
    have hfl := noise_index_floor _ p0 pF
    refine ⟨v1, { r with t := phase_next mf r.t r.frequency }, ?_,
      phase_next_fract mf r.t r.frequency hmf ht0 hf.1, p0, p1, ?_, ?_, ?_⟩
    · rw [mix_channel_of_parse pow mf noise fuel v c r hp hmf ht0 ht1 hf.1 hf.2, hv1]
    · rw [← hfl]; exact e
    · rw [← hfl]; exact l
    · rw [← hfl]; exact u
  · intro s i key acc dt hexp hc
    unfold tick_parse at hp
    simp only at hp
    rw [if_pos hexp] at hp
    exact parse_note_phase pow mf fuel _ r s i key acc dt hc hp

theorem phase_after_tick_witness :
    (0 = (0 : ℚ) ∨ (0 : ℚ) = 0) ∧
    (∃ v1 c1, mix_channel (fun _ _ => (5 / 2 : ℚ)) 44100 (List.replicate 1024 3) 1 0
        (started "A".toList false) = some (.ok (v1, c1)) ∧
      c1.t = Int.fract (f32_add 0 (f32_mul (f32 (1 / 44100)) 1100)) ∧
      0 ≤ c1.t ∧ c1.t < 1 ∧
      f32_to_int (f32_mul c1.t (PX_AUDIO_NOISE : ℚ)) = .ok ⌊c1.t * 1024⌋ ∧
      0 ≤ ⌊c1.t * 1024⌋ ∧ ⌊c1.t * 1024⌋ ≤ 1023) :=
  ⟨(phase_after_tick (fun _ _ => (5 / 2 : ℚ)) 44100 (List.replicate 1024 3) 1 0
    (started "A".toList false)
    { started "A".toList false with
      in_ := some 1, frequency := 1100, duration := 18900, silence := 2362 }
    (by norm_num) (List.length_replicate 1024 3) (by decide!)
    ⟨le_refl (0 : ℚ), show (0 : ℚ) < 1 by norm_num⟩
    ⟨show (0 : ℚ) ≤ 1100 by norm_num, show (1100 : ℚ) ≤ 1073741824 by norm_num⟩).1,
   (phase_after_tick (fun _ _ => (5 / 2 : ℚ)) 44100 (List.replicate 1024 3) 1 0
    (started "A".toList false)
    { started "A".toList false with
      in_ := some 1, frequency := 1100, duration := 18900, silence := 2362 }
    (by norm_num) (List.length_replicate 1024 3) (by decide!)
    ⟨le_refl (0 : ℚ), show (0 : ℚ) < 1 by norm_num⟩
    ⟨show (0 : ℚ) ≤ 1100 by norm_num, show (1100 : ℚ) ≤ 1073741824 by norm_num⟩).2.1⟩

/-! ## Faults of the duration computation -/

theorem f32_div_error (a b : ℚ) (f : Fault) (h : f32_div a b = .error f) : f = .nonFinite := by
  unfold f32_div at h
  split_ifs at h
  simp only [Except.error.injEq] at h
  exact h.symm

theorem f32_to_int_error (x : ℚ) (f : Fault) (h : f32_to_int x = .error f) : f = .castRange := by
  unfold f32_to_int at h
  simp only at h
  split_ifs at h
  simp only [Except.error.injEq] at h
  exact h.symm

theorem durationValue_error (mf : ℚ) (T dl lit : Int) (dot : Bool) (f : Fault)
    (h : durationValue mf T dl lit dot = .error f) : f = .nonFinite := by
  unfold durationValue at h
  simp only [bind, Except.bind] at h
  cases h1 : f32_div (f32_mul (f32 (T : ℚ)) (1 / 4)) 60 with
  | error e =>
    rw [h1] at h
    simp only [Except.error.injEq] at h
    rw [← h]
    exact f32_div_error _ _ e h1
  | ok beat =>
    rw [h1] at h
    simp only at h
    cases h2 : f32_div mf beat with
    | error e =>
      rw [h2] at h
      simp only [Except.error.injEq] at h
      rw [← h]
      exact f32_div_error _ _ e h2
    | ok whole =>
      rw [h2] at h
      simp only at h
      cases h3 : f32_div 1 (if f32 (lit : ℚ) = 0 then f32 (dl : ℚ) else f32 (lit : ℚ)) with
      | error e =>
        rw [h3] at h
        simp only [Except.error.injEq] at h
        rw [← h]
        exact f32_div_error _ _ e h3
      | ok inv =>
        rw [h3] at h
        simp [pure, Except.pure] at h

theorem durationAt_cases (mf : ℚ) (T dl : Int) (s : List Char) (i : Nat) :
    (∃ f, durationAt mf T dl s i = .error f ∧ (f = .nonFinite ∨ f = .castRange)) ∨
    (∃ d sl, durationAt mf T dl s i = .ok (d, sl, (durationTextAt s i).stop)) := by
  unfold durationAt durationTextAt
  simp only [bind, Except.bind, pure, Except.pure]
  cases h1 : durationValue mf T dl (numberAt s i).1 (isNextAt s (numberAt s i).2 '.').1 with
  | error e => exact Or.inl ⟨e, rfl, Or.inl (durationValue_error _ _ _ _ _ e h1)⟩
  | ok v =>
    simp only
    cases h2 : f32_to_int v with
    | error e => exact Or.inl ⟨e, rfl, Or.inr (f32_to_int_error _ e h2)⟩
    | ok d =>
      simp only
      cases (isNextAt s (isNextAt s (numberAt s i).2 '.').2 '&').1 with
      | true => exact Or.inr ⟨d, 0, rfl⟩
      | false =>
        cases h3 : f32_to_int (f32_mul v (1 / 8)) with
        | error e =>
          refine Or.inl ⟨e, ?_, Or.inr (f32_to_int_error _ e h3)⟩
          simp [h3]
        | ok sl =>
          refine Or.inr ⟨d, sl, ?_⟩
          simp [h3]

theorem durationValue_zero_tempo (mf : ℚ) (default_length lit : Int) (dot : Bool) :
    durationValue mf 0 default_length lit dot = .error .nonFinite := by
  have e : f32_div (f32_mul (f32 ((0 : Int) : ℚ)) (1 / 4)) 60 = .ok 0 := by
    simp [f32_div, f32_mul, f32_zero]
  unfold durationValue
  rw [e]
  simp [f32_div, bind, Except.bind]

theorem durationValue_zero_length (mf : ℚ) (tempo : Int) (dot : Bool) :
    durationValue mf tempo 0 0 dot = .error .nonFinite := by
  unfold durationValue
  cases h1 : f32_div (f32_mul (f32 (tempo : ℚ)) (1 / 4)) 60 with
  | error f => rw [f32_div_error _ _ f h1]; rfl
  | ok beat =>
    cases h2 : f32_div mf beat with
    | error f =>
      have e := f32_div_error _ _ f h2
      subst e
      simp only [bind, Except.bind, h2]
    | ok whole =>
      have e : f32_div 1 (if f32 ((0 : Int) : ℚ) = 0 then f32 ((0 : Int) : ℚ)
          else f32 ((0 : Int) : ℚ)) = .error .nonFinite := by
        simp [f32_div, f32_zero]
      simp only [bind, Except.bind, h2, e]

theorem durationAt_zero_tempo (mf : ℚ) (default_length : Int) (s : List Char) (i : Nat) :
    durationAt mf 0 default_length s i = .error .nonFinite := by
  unfold durationAt
  simp only [durationValue_zero_tempo]
  rfl

theorem durationAt_zero_length (mf : ℚ) (tempo : Int) (s : List Char) (i : Nat)
    (h : (numberAt s i).1 = 0) : durationAt mf tempo 0 s i = .error .nonFinite := by
  unfold durationAt
  simp only [h, durationValue_zero_length]
  rfl

/-! ## The cursor and the terminator -/

theorem cmdOf_ne_stop (ch : Char) (h : cmdOf ch ≠ .stop) : ch ≠ NUL := by
  intro e
  apply h
  rw [e]
  rfl

theorem accidentalAt_le (s : List Char) (i : Nat) (h : i ≤ s.length) :
    (accidentalAt s i).2 ≤ s.length := by
  have h1 := isNextAt_le s i '#' (by decide) h
  have h2 := isNextAt_le s i '+' (by decide) h
  have h3 := isNextAt_le s i '-' (by decide) h
  rw [accidentalAt_eq_isNext]
  split_ifs <;> assumption

theorem durationText_stop_le (s : List Char) (i : Nat) (h : i ≤ s.length) :
    (durationTextAt s i).stop ≤ s.length :=
  isNextAt_le s _ '&' (by decide)
    (isNextAt_le s _ '.' (by decide) (numberAt_le s i h))

theorem iterCmd_in (pow : ℚ → ℚ → ℚ) (mf : ℚ) (c : AudioChannel) (s : List Char) (j : Nat)
    (hsrc : c.source = some s) (hW : NoFinalW s) :
    StepIn s (iterCmd pow mf c s j (cmdOf (s.getD j NUL))) := by
  have hlt : cmdOf (s.getD j NUL) ≠ .stop → j + 1 ≤ s.length := fun h =>
    getD_ne_nul_lt s j (cmdOf_ne_stop _ h)
  have hdur : ∀ (p : Nat) (f : Except Fault (Int × Int × Nat) → Step), p ≤ s.length →
      (∀ e, StepIn s (f (.error e)) ↔ (e ≠ .overrun ∧ e ≠ .nullDeref)) →
      (∀ d sl, StepIn s (f (.ok (d, sl, (durationTextAt s p).stop)))) →
      StepIn s (f (durationAt mf c.tempo c.default_length s p)) := by
    intro p f hp he hok
    rcases durationAt_cases mf c.tempo c.default_length s p with ⟨e, h1, h2⟩ | ⟨d, sl, h1⟩
    · rw [h1, he]
      rcases h2 with h2 | h2 <;> rw [h2] <;> exact ⟨by decide, by decide⟩
    · rw [h1]
      exact hok d sl
  generalize hc : cmdOf (s.getD j NUL) = cmd at hlt
  cases cmd with
  | stop =>
    unfold iterCmd
    cases c.looping with
    | true => exact Or.inr ⟨hsrc, 0, rfl, Nat.zero_le _⟩
    | false => exact Or.inl rfl
  | tempo =>
    exact Or.inr ⟨hsrc, _, rfl, numberAt_le s (j + 1) (hlt (by decide))⟩
  | length =>
    exact Or.inr ⟨hsrc, _, rfl, numberAt_le s (j + 1) (hlt (by decide))⟩
  | octave =>
    exact Or.inr ⟨hsrc, _, rfl, numberAt_le s (j + 1) (hlt (by decide))⟩
  | down => exact Or.inr ⟨hsrc, _, rfl, hlt (by decide)⟩
  | up => exact Or.inr ⟨hsrc, _, rfl, hlt (by decide)⟩
  | rest =>
    unfold iterCmd
    exact hdur (j + 1)
      (fun x => match x with
        | .error e => .fail e
        | .ok r => .done { c with in_ := some r.2.2, duration := r.1, silence := r.1 })
      (hlt (by decide)) (fun e => Iff.rfl)
      (fun d sl => Or.inr ⟨hsrc, _, rfl, durationText_stop_le s (j + 1) (hlt (by decide))⟩)
  | note key =>
    unfold iterCmd
    exact hdur (accidentalAt s (j + 1)).2
      (fun x => match x with
        | .error e => .fail e
        | .ok r =>
          .done { c with
            in_ := some r.2.2, t := 0
            frequency := keyFrequency pow (noteKey key (accidentalAt s (j + 1)).1 c.octave)
            duration := r.1, silence := r.2.1 })
      (accidentalAt_le s (j + 1) (hlt (by simp))) (fun e => Iff.rfl)
      (fun d sl => Or.inr ⟨hsrc, _, rfl,
        durationText_stop_le s _ (accidentalAt_le s (j + 1) (hlt (by simp)))⟩)
  | wave =>
    have h1 := hlt (by decide)
    have h2 : j + 1 ≠ s.length := by
      intro e
      have := hW j e
      rcases cmdOf_wave _ hc with h | h
      · exact this.1 h
      · exact this.2 h
    have h3 : j + 2 ≤ s.length := by omega
    unfold iterCmd
    cases waveformOf (s.getD (j + 1) NUL) with
    | some w => exact Or.inr ⟨hsrc, _, rfl, h3⟩
    | none => exact Or.inr ⟨hsrc, _, rfl, h3⟩
  | other => exact Or.inr ⟨hsrc, _, rfl, hlt (by decide)⟩

theorem mml_parse_iter_in (pow : ℚ → ℚ → ℚ) (mf : ℚ) (s : List Char) (hW : NoFinalW s)
    (c : AudioChannel) (h : CursorIn s c) : StepIn s (mml_parse_iter pow mf c) := by
  rcases h with hin | ⟨hsrc, i, hin, hi⟩
  · have e : mml_parse_iter pow mf c = .done c := by
      unfold mml_parse_iter
      rw [hin]
    rw [e]
    exact Or.inl hin
  · rw [mml_parse_iter_at pow mf c s i hsrc hin hi, iterAt_eq_cmd]
    exact iterCmd_in pow mf c s _ hsrc hW

/-- Where no `W` or `w` is the last character of the text, an invocation of the
parser that starts with the cursor in the text leaves it there, and reads neither
outside the text nor through a NULL pointer. -/
theorem parse_next_in (pow : ℚ → ℚ → ℚ) (mf : ℚ) (s : List Char) (hW : NoFinalW s) :
    ∀ (fuel : Nat) (c : AudioChannel), CursorIn s c →
      match mml_parse_next pow mf fuel c with
      | none => True
      | some (.ok r) => CursorIn s r
      | some (.error f) => f ≠ .overrun ∧ f ≠ .nullDeref
  | 0, _, _ => trivial
  | fuel + 1, c, h => by
    have hs := mml_parse_iter_in pow mf s hW c h
    rw [parse_next_succ]
    cases h1 : mml_parse_iter pow mf c with
    | next c1 =>
      rw [h1] at hs
      exact parse_next_in pow mf s hW fuel c1 hs
    | done c1 =>
      rw [h1] at hs
      exact hs
    | fail f =>
      rw [h1] at hs
      exact hs

theorem parse_run_in (pow : ℚ → ℚ → ℚ) (mf : ℚ) (s : List Char) (hW : NoFinalW s) (fuel : Nat) :
    ∀ (n : Nat) (c : AudioChannel), CursorIn s c →
      match parse_run pow mf fuel n c with
      | none => True
      | some (.ok rs) => ∀ r ∈ rs, CursorIn s r
      | some (.error f) => f ≠ .overrun ∧ f ≠ .nullDeref
  | 0, _, _ => by
    unfold parse_run
    intro r hr
    simp at hr
  | n + 1, c, h => by
    have h1 := parse_next_in pow mf s hW fuel c h
    unfold parse_run
    cases h2 : mml_parse_next pow mf fuel c with
    | none => trivial
    | some x =>
      rw [h2] at h1
      cases x with
      | error f => exact h1
      | ok r =>
        have h3 := parse_run_in pow mf s hW fuel n r h1
        simp only at h1 h3 ⊢
        cases h4 : parse_run pow mf fuel n r with
        | none => trivial
        | some y =>
          rw [h4] at h3
          cases y with
          | error f => exact h3
          | ok rs =>
            intro r1 hr1
            rcases List.mem_cons.mp hr1 with e | e
            · rw [e]; exact h1
            · exact h3 r1 e

/-- Where no `W` or `w` is the last character of the text, the cursor stays in the
text over any number of invocations of the parser on a started channel: after each
it is NULL or at an offset of at most the length of the text, and no invocation
reads outside the text. -/
theorem cursor_within_text (pow : ℚ → ℚ → ℚ) (mf : ℚ) (str : List Char) (loop : Bool)
    (hW : NoFinalW (SDL_strdup str)) (fuel n : Nat) :
    match parse_run pow mf fuel n (started str loop) with
    | none => True
    | some (.ok rs) => ∀ r ∈ rs, CursorIn (SDL_strdup str) r
    | some (.error f) => f ≠ .overrun ∧ f ≠ .nullDeref :=
  parse_run_in pow mf (SDL_strdup str) hW fuel n (started str loop)
    (Or.inr ⟨rfl, 0, rfl, Nat.zero_le _⟩)

/-- C22 (the code departs from it): after `play(0, "W", false)` or
`play(0, "W", true)` the first pass of the parser reads the `W` at offset 0 and then,
as its selector, the terminator at offset 1, and leaves the cursor at offset 2, one
past the terminator; the second pass reads from there, outside the copy of the text
that `SDL_strdup` made, in the parser and so in the mixer tick that invokes it. -/
theorem cursor_passes_terminator_after_final_W :
    "W".toList.length = 1 ∧
    ∀ (pow : ℚ → ℚ → ℚ) (mf : ℚ) (loop : Bool),
      (started "W".toList loop).source = some "W".toList ∧
      (started "W".toList loop).in_ = some 0 ∧
      mml_parse_iter pow mf (started "W".toList loop) =
        .next { started "W".toList loop with in_ := some 2 } ∧
      ∀ fuel : Nat,
        mml_parse_next pow mf (fuel + 2) (started "W".toList loop) = some (.error .overrun) ∧
        ∀ (noise : List Int) (v : Int),
          mix_channel pow mf noise (fuel + 2) v (started "W".toList loop) =
            some (.error .overrun) := by
  refine ⟨rfl, fun pow mf loop => ?_⟩
  have h1 : iterAt pow mf (started "W".toList loop) "W".toList 0 =
      .next { started "W".toList loop with in_ := some 2 } := rfl
  have h2 : mml_parse_iter pow mf { started "W".toList loop with in_ := some 2 } =
      .fail .overrun :=
    mml_parse_iter_overrun pow mf _ "W".toList 2 rfl rfl (by decide)
  have h3 : ∀ (fuel : Nat) (d : Int),
      mml_parse_next pow mf (fuel + 2) { started "W".toList loop with duration := d } =
        some (.error .overrun) := by
    intro fuel d
    have g1 : iterAt pow mf { started "W".toList loop with duration := d } "W".toList 0 =
        .next { started "W".toList loop with in_ := some 2, duration := d } := rfl
    have g2 : mml_parse_iter pow mf
        { started "W".toList loop with in_ := some 2, duration := d } = .fail .overrun :=
      mml_parse_iter_overrun pow mf _ "W".toList 2 rfl rfl (by decide)
    rw [run_next pow mf (fuel + 1) _ _ "W".toList 0 rfl rfl (by decide) g1, parse_next_succ, g2]
  refine ⟨rfl, rfl, ?_, fun fuel => ⟨h3 fuel 0, fun noise v => ?_⟩⟩
  · rw [mml_parse_iter_at pow mf _ "W".toList 0 rfl rfl (by decide), h1]
  · rw [mix_channel_eq_tick]
    have ht : tick_parse pow mf (fuel + 2) (started "W".toList loop) =
        some (.error .overrun) := by
      unfold tick_parse
      simp only
      have hd : wrap32 ((started "W".toList loop).duration - 1) < 0 :=
        show wrap32 ((0 : Int) - 1) < 0 by decide
      rw [if_pos hd]
      exact h3 fuel _
    rw [ht]

/-! ## Durations at tempo 0 or length 0 -/

/-- C23 (the code departs from it): a channel starts with tempo 140 and default
length 4, but the text can set either to 0.  After `play(0, "T0C", false)` the first
pass stores the tempo 0, and the second computes the duration of `C` as
`mixing_frequency / 0.0f`; after `play(0, "L0C", false)` the default length is 0 and
the duration of `C` contains `1.0f / 0.0f`.  Neither quotient is finite, and
converting it to `int` is undefined, at every sample rate. -/
theorem zero_tempo_or_length_divides_by_zero :
    (started "T0C".toList false).tempo = 140 ∧
    (started "L0C".toList false).default_length = 4 ∧
    ∀ (pow : ℚ → ℚ → ℚ) (mf : ℚ),
      mml_parse_iter pow mf (started "T0C".toList false) =
        .next { started "T0C".toList false with in_ := some 2, tempo := 0 } ∧
      mml_parse_iter pow mf (started "L0C".toList false) =
        .next { started "L0C".toList false with in_ := some 2, default_length := 0 } ∧
      ∀ fuel : Nat,
        mml_parse_next pow mf (fuel + 2) (started "T0C".toList false) =
          some (.error .nonFinite) ∧
        mml_parse_next pow mf (fuel + 2) (started "L0C".toList false) =
          some (.error .nonFinite) := by
  refine ⟨rfl, rfl, fun pow mf => ?_⟩
  have h1 : iterAt pow mf (started "T0C".toList false) "T0C".toList 0 =
      .next { started "T0C".toList false with in_ := some 2, tempo := 0 } := rfl
  have h2 : iterAt pow mf { started "T0C".toList false with in_ := some 2, tempo := 0 }
      "T0C".toList 2 = .fail .nonFinite := by
    rw [iterAt_note pow mf _ "T0C".toList 2 4 (by decide)]
    simp only
    rw [durationAt_zero_tempo]
  have g1 : iterAt pow mf (started "L0C".toList false) "L0C".toList 0 =
      .next { started "L0C".toList false with in_ := some 2, default_length := 0 } := rfl
  have g2 : iterAt pow mf
      { started "L0C".toList false with in_ := some 2, default_length := 0 }
      "L0C".toList 2 = .fail .nonFinite := by
    rw [iterAt_note pow mf _ "L0C".toList 2 4 (by decide)]
    simp only
    rw [durationAt_zero_length mf _ _ _ (by decide)]
  refine ⟨?_, ?_, fun fuel => ⟨?_, ?_⟩⟩
  · rw [mml_parse_iter_at pow mf _ "T0C".toList 0 rfl rfl (by decide), h1]
  · rw [mml_parse_iter_at pow mf _ "L0C".toList 0 rfl rfl (by decide), g1]
  · rw [run_next pow mf (fuel + 1) _ _ "T0C".toList 0 rfl rfl (by decide) h1,
      parse_next_at pow mf fuel _ "T0C".toList 2 rfl rfl (by decide), h2]
  · rw [run_next pow mf (fuel + 1) _ _ "L0C".toList 0 rfl rfl (by decide) g1,
      parse_next_at pow mf fuel _ "L0C".toList 2 rfl rfl (by decide), g2]

/-! ## The ticks of an event -/

theorem tick_parse_expired (pow : ℚ → ℚ → ℚ) (mf : ℚ) (fuel : Nat) (c : AudioChannel)
    (h : wrap32 (c.duration - 1) < 0) :
    tick_parse pow mf fuel c =
      mml_parse_next pow mf fuel { c with duration := wrap32 (c.duration - 1) } := by
  unfold tick_parse
  simp only
  rw [if_pos h]

theorem sounding_eq (c : AudioChannel) :
    sounding c = if (0 : Int) < c.duration - c.silence then c.waveform else Waveform.SILENCE := by
  unfold sounding
  exact if_congr (by constructor <;> intro h <;> omega) rfl rfl

/-- The ticks on which the counter of the channel does not run out: the parser is not
invoked, the counter goes down by one per tick, and the waveform is the channel's own
while the counter is above `silence`. -/
theorem coast_run (pow : ℚ → ℚ → ℚ) (mf : ℚ) (noise : List Int) (fuel : Nat) (hmf : 1 ≤ mf)
    (hlen : noise.length = 1024) :
    ∀ (vs : List Int) (c : AudioChannel), 0 ≤ c.t → c.t < 1 → 0 ≤ c.frequency →
      c.frequency ≤ 1073741824 → (vs.length : Int) ≤ c.duration → c.duration ≤ 2147483647 →
      ∃ outs, mix_channel_run pow mf noise fuel vs c = some (.ok (outs,
          { c with
            duration := c.duration - vs.length
            t := phase_at mf c.frequency vs.length c.t })) ∧
        outs.length = vs.length ∧
        ∀ k, k < vs.length →
          mix_waveform noise
            (if (k : Int) + 1 < c.duration - c.silence then c.waveform else Waveform.SILENCE)
            (phase_at mf c.frequency (k + 1) c.t) (vs.getD k 0) = .ok (outs.getD k 0)
  | [], c, _, _, _, _, _, _ => by
    refine ⟨[], ?_, rfl, fun k hk => absurd hk (Nat.not_lt_zero k)⟩
    unfold mix_channel_run
    simp [phase_at]
  | v :: vs, c, ht0, ht1, hf0, hf1, hlen1, hmax => by
    simp only [List.length_cons, Nat.cast_add, Nat.cast_one] at hlen1
    have hl0 : (0 : Int) ≤ vs.length := Int.natCast_nonneg _
    have hp := tick_parse_counting pow mf fuel c (by omega) hmax
    obtain ⟨p0, p1, pF⟩ := (phase_next_spec mf c.t c.frequency hmf ht0 ht1 hf0 hf1).2.2
    obtain ⟨v1, hv1⟩ := mix_waveform_ok noise (sounding { c with duration := c.duration - 1 })
      (phase_next mf c.t c.frequency) v hlen p0 p1 pF
    have hm := mix_channel_of_parse pow mf noise fuel v c _ hp hmf ht0 ht1 hf0 hf1
    simp only at hm
    rw [hv1] at hm
    obtain ⟨outs, h1, h2, h3⟩ := coast_run pow mf noise fuel hmf hlen vs
      { c with duration := c.duration - 1, t := phase_next mf c.t c.frequency }
      p0 p1 hf0 hf1 (by simp only; omega) (by simp only; omega)
    refine ⟨v1 :: outs, ?_, by simp [h2], ?_⟩
    · unfold mix_channel_run
      rw [hm]
      simp only
      rw [h1]
      simp only [List.length_cons, Nat.cast_add, Nat.cast_one, phase_at]
      rw [show c.duration - ((vs.length : Int) + 1) = c.duration - 1 - (vs.length : Int) by omega]
    · intro k hk
      cases k with
      | zero =>
        rw [sounding_eq] at hv1
        simp only at hv1
        simp only [List.getD_cons_zero, phase_at, Nat.cast_zero, zero_add]
        rw [← hv1]
        exact congrArg (fun w => mix_waveform noise w _ v)
          (if_congr (by constructor <;> intro h <;> omega) rfl rfl)
      | succ j =>
        have hj : j < vs.length := by
          simp only [List.length_cons] at hk
          omega
        have h4 := h3 j hj
        simp only at h4
        simp only [List.getD_cons_succ, Nat.cast_add, Nat.cast_one]
        rw [← h4]
        exact congrArg (fun w => mix_waveform noise w _ (vs.getD j 0))
          (if_congr (by constructor <;> intro h <;> omega) rfl rfl)

theorem range_countP_lt (m : Int) (hm : 0 ≤ m) :
    ∀ n : Nat, (((List.range n).countP (fun (k : Nat) => decide ((k : Int) < m)) : Nat) : Int) = min (n : Int) m
  | 0 => by simp [hm]
  | n + 1 => by
    rw [List.range_succ, List.countP_append, Nat.cast_add, range_countP_lt m hm n]
    by_cases h : (n : Int) < m
    · simp [List.countP_cons, h]
      omega
    · simp [List.countP_cons, h]
      omega

theorem range_countP_ge (m : Int) (hm : 0 ≤ m) :
    ∀ n : Nat, (((List.range n).countP (fun (k : Nat) => decide (m ≤ (k : Int))) : Nat) : Int) =
      (n : Int) - min (n : Int) m
  | 0 => by simp [hm]
  | n + 1 => by
    rw [List.range_succ, List.countP_append, Nat.cast_add, range_countP_ge m hm n]
    by_cases h : m ≤ (n : Int)
    · simp [List.countP_cons, h]
      omega
    · simp [List.countP_cons, h]
      omega

/-- C24: when the counter of a channel runs out on a tick and the parser returns an
event `r` with duration `d = r.duration` (an `int`, at least 0) and silence
`s = r.silence`, then that tick and the `d` ticks after it all return, and after `k`
of these later ticks (`k` at most `d`) the counter is `d - k`, with the cursor,
frequency, waveform and silence of `r`.  The counter does not run out on a tick that
follows fewer than `d` later ticks, where the parser is not invoked, and runs out on
the one that follows `d` of them, where the parser is invoked: the event occupies
`d + 1` samples.  Counting the parsing tick as number 0, tick `k` evaluates the
waveform of `r` when `k < d - s` and `PX_WAVEFORM_SILENCE`, which leaves the sample
as it was, otherwise; with `0 ≤ s ≤ d` these are the first `d - s` of the `d + 1`
ticks and the remaining `s + 1`.  Proved at a sample rate of at least 1 Hz, for
a phase in `[0, 1)` and a frequency in `[0, 2 ^ 30]`. -/
theorem event_occupies_duration_plus_one (pow : ℚ → ℚ → ℚ) (mf : ℚ) (noise : List Int)
    (fuel : Nat) (c r : AudioChannel) (hmf : 1 ≤ mf) (hlen : noise.length = 1024)
    (hexp : wrap32 (c.duration - 1) < 0)
    (hp : mml_parse_next pow mf fuel { c with duration := wrap32 (c.duration - 1) } =
      some (.ok r))
    (hs : 0 ≤ r.silence ∧ r.silence ≤ r.duration) (hd : r.duration ≤ 2147483647)
    (ht : 0 ≤ r.t ∧ r.t < 1) (hf : 0 ≤ r.frequency ∧ r.frequency ≤ 1073741824)
    (v : Int) (vs : List Int) (hvs : (vs.length : Int) ≤ r.duration) :
    ∃ outs ck, mix_channel_run pow mf noise fuel (v :: vs) c = some (.ok (outs, ck)) ∧
      ck = { r with
        duration := r.duration - vs.length
        t := phase_at mf r.frequency (vs.length + 1) r.t } ∧
      outs.length = vs.length + 1 ∧
      (∀ k, k ≤ vs.length →
        mix_waveform noise
          (if (k : Int) < r.duration - r.silence then r.waveform else Waveform.SILENCE)
          (phase_at mf r.frequency (k + 1) r.t) ((v :: vs).getD k 0) = .ok (outs.getD k 0)) ∧
      (∀ k, k ≤ vs.length → r.duration - r.silence ≤ k → outs.getD k 0 = (v :: vs).getD k 0) ∧
      ((vs.length : Int) = r.duration →
        (((List.range (vs.length + 1)).countP
          (fun (k : Nat) => decide ((k : Int) < r.duration - r.silence)) : Nat) : Int) =
            r.duration - r.silence ∧
        (((List.range (vs.length + 1)).countP
          (fun (k : Nat) => decide (r.duration - r.silence ≤ (k : Int))) : Nat) : Int) =
            r.silence + 1) ∧
      ((vs.length : Int) < r.duration → ∀ (pow1 : ℚ → ℚ → ℚ),
        tick_parse pow1 mf 0 ck = some (.ok { ck with duration := ck.duration - 1 })) ∧
      ((vs.length : Int) = r.duration → ∀ (pow1 : ℚ → ℚ → ℚ) (fuel1 : Nat),
        tick_parse pow1 mf fuel1 ck = mml_parse_next pow1 mf fuel1 { ck with duration := -1 }) := by
  have hl0 : (0 : Int) ≤ vs.length := Int.natCast_nonneg _
  have hp1 : tick_parse pow mf fuel c = some (.ok r) := by
    rw [tick_parse_expired pow mf fuel c hexp]
    exact hp
  obtain ⟨p0, p1, pF⟩ := (phase_next_spec mf r.t r.frequency hmf ht.1 ht.2 hf.1 hf.2).2.2
  obtain ⟨v1, hv1⟩ := mix_waveform_ok noise (sounding r) (phase_next mf r.t r.frequency) v hlen
    p0 p1 pF
  have hm := mix_channel_of_parse pow mf noise fuel v c r hp1 hmf ht.1 ht.2 hf.1 hf.2
  rw [hv1] at hm
  obtain ⟨outs, h1, h2, h3⟩ := coast_run pow mf noise fuel hmf hlen vs
    { r with t := phase_next mf r.t r.frequency } p0 p1 hf.1 hf.2 hvs hd
  have hwave : ∀ k, k ≤ vs.length →
      mix_waveform noise
        (if (k : Int) < r.duration - r.silence then r.waveform else Waveform.SILENCE)
        (phase_at mf r.frequency (k + 1) r.t) ((v :: vs).getD k 0) =
        .ok ((v1 :: outs).getD k 0) := by
    intro k hk
    cases k with
    | zero =>
      rw [sounding_eq] at hv1
      simp only [List.getD_cons_zero, phase_at, Nat.cast_zero]
      exact hv1
    | succ j =>
      have h4 := h3 j (by omega)
      simp only at h4
      simp only [List.getD_cons_succ, Nat.cast_add, Nat.cast_one]
      exact h4
  refine ⟨v1 :: outs, _, ?_, rfl, by simp [h2], hwave, ?_, ?_, ?_, ?_⟩
  · unfold mix_channel_run
    rw [hm]
    simp only
    rw [h1]
    rfl
  · intro k hk hsil
    have h4 := hwave k hk
    rw [if_neg (by omega), mix_waveform_silence] at h4
    simp only [Except.ok.injEq] at h4
    exact h4.symm
  · intro heq
    rw [range_countP_lt _ (by omega), range_countP_ge _ (by omega)]
    push_cast
    rw [min_eq_right (by omega)]
    exact ⟨rfl, by omega⟩
  · intro hlt pow1
    exact tick_parse_counting pow1 mf 0 _ (by simp only; omega) (by simp only; omega)
  · intro heq pow1 fuel1
    have e : wrap32 (r.duration - (vs.length : Int) - 1) = -1 := by
      rw [heq]
      simp
      decide
    unfold tick_parse
    simp only [e]
    rw [if_pos (by decide)]

theorem event_occupies_duration_plus_one_witness :
    ∃ outs ck, mix_channel_run (fun _ _ => 1) 44100 (List.replicate 1024 3) 1 [0, 0, 0]
        (started "C4".toList false) = some (.ok (outs, ck)) ∧
      ck.duration = 18898 ∧ ck.silence = 2362 ∧ outs.length = 3 := by
  obtain ⟨outs, ck, h1, h2, h3, -⟩ := event_occupies_duration_plus_one (fun _ _ => 1) 44100
    (List.replicate 1024 3) 1 (started "C4".toList false)
    { started "C4".toList false with
      in_ := some 2, frequency := 440, duration := 18900, silence := 2362 }
    (by norm_num) (List.length_replicate 1024 3) (by decide) (by decide!)
    ⟨by decide, by decide⟩ (by decide)
    ⟨le_refl (0 : ℚ), show (0 : ℚ) < 1 by norm_num⟩
    ⟨show (0 : ℚ) ≤ 440 by norm_num, show (440 : ℚ) ≤ 1073741824 by norm_num⟩
    0 [0, 0] (by decide)
  refine ⟨outs, ck, h1, ?_, ?_, h3⟩
  · rw [h2]
    rfl
  · rw [h2]

end PiXL
